import Mathlib

/-!
# roo_display — smooth shape rasterizers

A shallow embedding of `src/roo_display/shape/smooth.cpp`.

Conventions of the embedding.
* A C++ `float` is a rational `ℚ`. Every arithmetic operation of the source
  rounds its exact result: `env.fl` for an operation on `float`, `env.fd` for an
  operation on `double`. The reference primitives `refEnv` round to binary32
  and binary64, to nearest, ties to even, as IEEE 754 does. Infinities and NaN
  arise in the source only from the division in `getAlpha`, which is modelled
  case by case; overflow beyond the largest `float` is not modelled.
* `int16_t` / `int32_t` values are integers `ℤ`; a narrowing conversion that the
  source performs is written `toInt16` / `toInt32`.
* A loop over an `int16_t` counter is listed by the values it visits while the
  counter does not wrap (`intRange`, `tileStarts`); `int16Loop` is the loop with
  the wrap, and `int16Loop_eq_intRange`, `int16Loop_eq_tileStarts` and
  `int16Loop_never_ends` relate the two.
* The display output is the list of write requests issued to it, in order.
* The rounding, `sqrtf`, the `(uint8_t)` float conversion and `AlphaBlend` are
  taken from the platform and from `core/color.h`; the embedding receives them
  in an `Env`.
-/

namespace RooDisplay

/-! ## Values consumed from outside `smooth.cpp` -/

/-- Modelled from the spec: `Color` of `core/color.h`, a value with alpha, red,
green and blue channels of 8 bits each; alpha 0 is fully transparent and alpha
255 is opaque. -/
structure Color where
  a : ℕ
  r : ℕ
  g : ℕ
  b : ℕ
deriving DecidableEq

/-- Modelled from the spec: `Color::withA`, the same colour with the alpha
channel replaced. -/
def Color.withA (c : Color) (alpha : ℕ) : Color := { c with a := alpha }

/-- Modelled from the spec: `color::Transparent`, the all-zero colour (alpha 0). -/
def Color.Transparent : Color := ⟨0, 0, 0, 0⟩

/-- Modelled from the spec: `Box` of `core/box.h`, the inclusive integer
rectangle `[xMin, xMax] × [yMin, yMax]`, which may be empty. -/
structure Box where
  xMin : ℤ
  yMin : ℤ
  xMax : ℤ
  yMax : ℤ
deriving DecidableEq

/-- Modelled from the spec: `Box::empty`. -/
def Box.empty (b : Box) : Bool := decide (b.xMax < b.xMin) || decide (b.yMax < b.yMin)

/-- Modelled from the spec: `Box::contains(x, y)`. -/
def Box.containsPt (b : Box) (x y : ℤ) : Bool :=
  decide (b.xMin ≤ x) && decide (x ≤ b.xMax) && decide (b.yMin ≤ y) && decide (y ≤ b.yMax)

/-- Modelled from the spec: `Box::contains(const Box&)`. -/
def Box.contains (b o : Box) : Bool :=
  decide (b.xMin ≤ o.xMin) && decide (o.xMax ≤ b.xMax) &&
    decide (b.yMin ≤ o.yMin) && decide (o.yMax ≤ b.yMax)

/-- Modelled from the spec: `Box::Intersect`. -/
def Box.Intersect (a b : Box) : Box :=
  ⟨max a.xMin b.xMin, max a.yMin b.yMin, min a.xMax b.xMax, min a.yMax b.yMax⟩

/-- Modelled from the spec: `Box::translate`, a pure coordinate shift. -/
def Box.translate (b : Box) (dx dy : ℤ) : Box :=
  ⟨b.xMin + dx, b.yMin + dy, b.xMax + dx, b.yMax + dy⟩

/-- Modelled from the spec: the fill mode of a surface. -/
inductive FillMode where
  | FILL_MODE_RECTANGLE
  | FILL_MODE_VISIBLE
deriving DecidableEq

/-- Modelled from the spec: the paint mode of a write. -/
inductive PaintMode where
  | PAINT_MODE_REPLACE
  | PAINT_MODE_BLEND
deriving DecidableEq

/-- Modelled from the spec: `Surface`, the per-draw-call aggregate of offset,
clip box, background colour hint, fill mode and paint mode. The output it
refers to is represented by the list of writes a drawing routine returns. -/
structure Surface where
  dx : ℤ
  dy : ℤ
  clip_box : Box
  bgcolor : Color
  fill_mode : FillMode
  paint_mode : PaintMode

/-- A write request received by the `DisplayOutput`.
* `fillRect mode box c`: `out.fillRect(mode, box, c)`; the overload without a
  paint mode is recorded with `PAINT_MODE_REPLACE`.
* `writePixel mode x y c`: `BufferedPixelWriter(out, mode).writePixel(x, y, c)`.
* `write mode box colors`: `out.setAddress(box, mode)` followed by
  `out.write(colors, count)`, the colours in raster order. -/
inductive WriteOp where
  | fillRect (mode : PaintMode) (box : Box) (c : Color)
  | writePixel (mode : PaintMode) (x y : ℤ) (c : Color)
  | write (mode : PaintMode) (box : Box) (colors : List Color)
deriving DecidableEq

/-- The platform primitives used by `smooth.cpp`: the rounding of the result
of an arithmetic operation on `float` (`fl`) and on `double` (`fd`), `sqrtf`,
the `(uint8_t)` conversion of a `float`, and `AlphaBlend(bg, fg)` of
`core/color.h`. -/
structure Env where
  fl : ℚ → ℚ
  fd : ℚ → ℚ
  sqrtf : ℚ → ℚ
  toUint8 : ℚ → ℕ
  AlphaBlend : Color → Color → Color

/-- Conversion to `int16_t` (two's complement wrap-around). -/
def toInt16 (z : ℤ) : ℤ := (z + 32768) % 65536 - 32768

/-- Conversion to `int32_t` (two's complement wrap-around). -/
def toInt32 (z : ℤ) : ℤ := (z + 2147483648) % 4294967296 - 2147483648

/-- The C conversion of a `float` to an integer type: truncation toward zero. -/
def truncf (q : ℚ) : ℤ := if 0 ≤ q then ⌊q⌋ else ⌈q⌉

/-- The C function `roundf`: nearest integer, halfway cases away from zero. -/
def roundf (q : ℚ) : ℤ := if 0 ≤ q then ⌊q + 1 / 2⌋ else ⌈q - 1 / 2⌉

/-- The integers `lo, lo + 1, ..., hi` visited by `for (v = lo; v <= hi; ++v)`. -/
def intRange (lo hi : ℤ) : List ℤ :=
  (List.range (hi - lo + 1).toNat).map (fun i => lo + (i : ℤ))

/-- The pixels of `[xMin, xMax] × [yMin, yMax]` in the order of the nested
loops `for y ... for x ...`, as pairs `(x, y)`. -/
def rasterPixels (xMin yMin xMax yMax : ℤ) : List (ℤ × ℤ) :=
  (intRange yMin yMax).flatMap (fun y => (intRange xMin xMax).map (fun x => (x, y)))

/-! ## SmoothWedgeShape -/

/-- The function `getAlpha`: the expression
`fmaxf(fminf(num / den, 1.0f), 0.0f)`. With `den = 0` the quotient of IEEE
arithmetic is NaN for `num = 0` (and `fminf(NaN, 1) = 1`), `+inf` for `num > 0`
and `-inf` for `num < 0`. -/
def clampedRatio (env : Env) (num den : ℚ) : ℚ :=
  if den = 0 then (if num < 0 then 0 else 1) else max (min (env.fl (num / den)) 1) 0

/-- The function `getAlpha` after its first statement: the statements that
follow the computation of `h`. -/
def getAlphaFrom (env : Env) (h r xpax ypay bax bay dr : ℚ) (max_alpha : ℕ) : ℕ :=
  let dx := env.fl (xpax - env.fl (bax * h))
  let dy := env.fl (ypay - env.fl (bay * h))
  let d := env.fl (env.fl (r - env.sqrtf (env.fl (env.fl (dx * dx) + env.fl (dy * dy))))
    - env.fl (h * dr))
  if 1 ≤ d then max_alpha else if d ≤ 0 then 0 else env.toUint8 (env.fl (d * max_alpha))

/-- The function `getAlpha` of `smooth.cpp`. -/
def getAlpha (env : Env) (r xpax ypay bax bay dr : ℚ) (max_alpha : ℕ) : ℕ :=
  let h := clampedRatio env (env.fl (env.fl (xpax * bax) + env.fl (ypay * bay)))
    (env.fl (env.fl (bax * bax) + env.fl (bay * bay)))
  getAlphaFrom env h r xpax ypay bax bay dr max_alpha

/-- A point with `float` coordinates (`FpPoint`). -/
structure FpPoint where
  x : ℚ
  y : ℚ

/-- The data members of `SmoothWedgeShape`. -/
structure SmoothWedgeShape where
  ax : ℚ
  ay : ℚ
  bx : ℚ
  by_ : ℚ
  aw : ℚ
  bw : ℚ
  color : Color
  extents : Box

/-- The constructor `SmoothWedgeShape::SmoothWedgeShape`. -/
def SmoothWedgeShape.make (env : Env) (a : FpPoint) (a_width : ℚ) (b : FpPoint)
    (b_width : ℚ) (color : Color) : SmoothWedgeShape :=
  let x0 := toInt16 (toInt32 ⌊min (env.fl (a.x - a_width)) (env.fl (b.x - b_width))⌋)
  let y0 := toInt16 (toInt32 ⌊min (env.fl (a.y - a_width)) (env.fl (b.y - b_width))⌋)
  let x1 := toInt16 (toInt32 ⌈max (env.fl (a.x + a_width)) (env.fl (b.x + b_width))⌉)
  let y1 := toInt16 (toInt32 ⌈max (env.fl (a.y + a_width)) (env.fl (b.y + b_width))⌉)
  { ax := a.x, ay := a.y, bx := b.x, by_ := b.y, aw := a_width, bw := b_width,
    color := color, extents := ⟨x0, y0, x1, y1⟩ }

/-- The locals `alpha` and `xs` of `drawInteriorTo`, together with the writes
issued so far. -/
structure ScanState where
  alpha : ℕ
  xs : ℤ
  out : List WriteOp

/-- The coverage `getAlpha(ar, xpax, ypay, bax, bay, rdt, max_alpha)` that
`drawInteriorTo` computes for the pixel `(xp, yp)`, with `ar = aw_ + 0.5f`,
`xpax = xp - ax`, `ypay = yp - ay`, `bax = bx - ax`, `bay = by - ay`,
`rdt = aw_ - bw_` and `max_alpha = color_.a()`; the `int32_t` coordinates are
converted to `float` before the subtraction. -/
def SmoothWedgeShape.coverage (env : Env) (w : SmoothWedgeShape) (xp yp : ℤ) : ℕ :=
  getAlpha env (env.fl (w.aw + 1 / 2)) (env.fl (env.fl xp - w.ax))
    (env.fl (env.fl yp - w.ay)) (env.fl (w.bx - w.ax)) (env.fl (w.by_ - w.ay))
    (env.fl (w.aw - w.bw)) w.color.a

/-- The colour `drawInteriorTo` writes for a pixel of coverage `alpha`. -/
def SmoothWedgeShape.pixelColor (env : Env) (w : SmoothWedgeShape) (s : Surface)
    (alpha : ℕ) : Color :=
  if alpha = w.color.a then env.AlphaBlend s.bgcolor w.color
  else env.AlphaBlend s.bgcolor (w.color.withA alpha)

/-- The inner loop `for (xp = xs; xp <= box.xMax(); xp++)` of `drawInteriorTo`
on row `yp`; the first argument counts the values of `xp` still to visit. -/
def scanRowLoop (env : Env) (w : SmoothWedgeShape) (s : Surface) (yp : ℤ) :
    ℕ → ℤ → Bool → ScanState → ScanState
  | 0, _, _, st => st
  | n + 1, xp, endX, st =>
    if endX && decide (st.alpha = 0) then st
    else
      let alpha := w.coverage env xp yp
      if alpha = 0 then
        scanRowLoop env w s yp n (xp + 1) endX { st with alpha := alpha }
      else
        scanRowLoop env w s yp n (xp + 1) true
          { alpha := alpha
            xs := if endX then st.xs else xp
            out := st.out ++
              [WriteOp.writePixel s.paint_mode (xp + s.dx) (yp + s.dy)
                (w.pixelColor env s alpha)] }

/-- One row of either scan of `drawInteriorTo`: `endX` starts false and `xp`
starts at the current `xs`. -/
def scanRow (env : Env) (w : SmoothWedgeShape) (s : Surface) (box : Box) (yp : ℤ)
    (st : ScanState) : ScanState :=
  scanRowLoop env w s yp (box.xMax - st.xs + 1).toNat st.xs false st

/-- The loop `for (yp = ys; yp <= box.yMax(); yp++)`; the first argument
counts the rows still to visit. -/
def scanDown (env : Env) (w : SmoothWedgeShape) (s : Surface) (box : Box) :
    ℕ → ℤ → ScanState → ScanState
  | 0, _, st => st
  | n + 1, yp, st => scanDown env w s box n (yp + 1) (scanRow env w s box yp st)

/-- The loop `for (yp = ys - 1; yp >= box.yMin(); yp--)`; the first argument
counts the rows still to visit. -/
def scanUp (env : Env) (w : SmoothWedgeShape) (s : Surface) (box : Box) :
    ℕ → ℤ → ScanState → ScanState
  | 0, _, st => st
  | n + 1, yp, st => scanUp env w s box n (yp - 1) (scanRow env w s box yp st)

/-- The box `SmoothWedgeShape::drawInteriorTo` scans:
`Box::Intersect(extents_, s.clip_box().translate(-s.dx(), -s.dy()))`. -/
def SmoothWedgeShape.drawBox (w : SmoothWedgeShape) (s : Surface) : Box :=
  Box.Intersect w.extents (s.clip_box.translate (-s.dx) (-s.dy))

/-- The start row `ys` of `drawInteriorTo` (an `int32_t` initialised from a
`float`), after the clamp to `box.yMin()`. -/
def SmoothWedgeShape.startRow (env : Env) (w : SmoothWedgeShape) (box : Box) : ℤ :=
  let ys :=
    if env.fl (w.ax - w.aw) > env.fl (w.bx - w.bw) then toInt32 (truncf w.by_)
    else toInt32 (truncf w.ay)
  if ys < box.yMin then box.yMin else ys

/-- The method `SmoothWedgeShape::drawInteriorTo`: the writes it issues. -/
def SmoothWedgeShape.drawInteriorTo (env : Env) (w : SmoothWedgeShape) (s : Surface) :
    List WriteOp :=
  let box := w.drawBox s
  if box.empty then []
  else
    let ys := w.startRow env box
    let down := scanDown env w s box (box.yMax - ys + 1).toNat ys
      { alpha := w.color.a, xs := box.xMin, out := [] }
    let up := scanUp env w s box (ys - 1 - box.yMin + 1).toNat (ys - 1)
      { down with xs := box.xMin }
    up.out

/-! ## SmoothRoundRectShape -/

/-- The data members of `SmoothRoundRectShape`. -/
structure SmoothRoundRectShape where
  x0 : ℚ
  y0 : ℚ
  x1 : ℚ
  y1 : ℚ
  r : ℚ
  ri : ℚ
  outline_color : Color
  interior_color : Color
  extents : Box
  inner_mid : Box
  inner_wide : Box
  inner_tall : Box

/-- The constructor `SmoothRoundRectShape::SmoothRoundRectShape`. -/
def SmoothRoundRectShape.make (env : Env) (x0 y0 x1 y1 radius interior_radius : ℚ)
    (outline_color interior_color : Color) : SmoothRoundRectShape :=
  let d := env.fl (env.sqrtf (1 / 2) * interior_radius)
  { x0 := x0, y0 := y0, x1 := x1, y1 := y1, r := radius, ri := interior_radius,
    outline_color := outline_color, interior_color := interior_color,
    extents := ⟨toInt16 (roundf (env.fl (x0 - radius))),
                toInt16 (roundf (env.fl (y0 - radius))),
                toInt16 (roundf (env.fl (x1 + radius))),
                toInt16 (roundf (env.fl (y1 + radius)))⟩,
    inner_wide := ⟨toInt16 ⌈env.fl (env.fl (x0 - interior_radius) + 1 / 2)⌉,
                   toInt16 ⌈env.fl (y0 + 1 / 2)⌉,
                   toInt16 ⌊env.fl (env.fl (x1 + interior_radius) - 1 / 2)⌋,
                   toInt16 ⌊env.fl (y1 - 1 / 2)⌋⟩,
    inner_tall := ⟨toInt16 ⌈env.fl (x0 + 1 / 2)⌉,
                   toInt16 ⌈env.fl (env.fl (y0 - interior_radius) + 1 / 2)⌉,
                   toInt16 ⌊env.fl (x1 - 1 / 2)⌋,
                   toInt16 ⌊env.fl (env.fl (y1 + interior_radius) - 1 / 2)⌋⟩,
    inner_mid := ⟨toInt16 ⌈env.fl (env.fl (x0 - d) + 1 / 2)⌉,
                  toInt16 ⌈env.fl (env.fl (y0 - d) + 1 / 2)⌉,
                  toInt16 ⌊env.fl (env.fl (x1 + d) - 1 / 2)⌋,
                  toInt16 ⌊env.fl (env.fl (y1 + d) - 1 / 2)⌋⟩ }

/-- The clamping shared by `calcDistSq`, `getColorPreChecked`,
`GetSmoothRoundRectShapeColor` and `CalcSmoothRoundRectDistSq`: the squared
distance from pixel `(x, y)` to the rectangle `[x0, x1] × [y0, y1]`. -/
def distSq (env : Env) (x0 y0 x1 y1 : ℚ) (x y : ℤ) : ℚ :=
  let ref_x : ℚ := x
  let ref_x := if ref_x < x0 then x0 else ref_x
  let ref_x := if ref_x > x1 then x1 else ref_x
  let ref_y : ℚ := y
  let ref_y := if ref_y < y0 then y0 else ref_y
  let ref_y := if ref_y > y1 then y1 else ref_y
  let dx := env.fl ((x : ℚ) - ref_x)
  let dy := env.fl ((y : ℚ) - ref_y)
  env.fl (env.fl (dx * dx) + env.fl (dy * dy))

/-- The method `SmoothRoundRectShape::calcDistSq`. -/
def SmoothRoundRectShape.calcDistSq (env : Env) (sh : SmoothRoundRectShape) (x y : ℤ) :
    ℚ :=
  distSq env sh.x0 sh.y0 sh.x1 sh.y1 x y

/-- The method `SmoothRoundRectShape::getColorPreChecked`. -/
def SmoothRoundRectShape.getColorPreChecked (env : Env) (sh : SmoothRoundRectShape)
    (x y : ℤ) : Color :=
  let d_squared := distSq env sh.x0 sh.y0 sh.x1 sh.y1 x y
  let ri_squared_adjusted := env.fl (env.fl (sh.ri * sh.ri) + 1 / 4)
  if d_squared ≤ env.fl (env.fl (ri_squared_adjusted - sh.ri) - 1) then sh.interior_color
  else
    let r_squared_adjusted := env.fl (env.fl (sh.r * sh.r) + 1 / 4)
    if d_squared ≥ env.fl (r_squared_adjusted + sh.r) then Color.Transparent
    else
      let fully_within_outer : Bool :=
        decide (d_squared ≤ env.fl (r_squared_adjusted - sh.r))
      let fully_outside_inner : Bool :=
        decide (sh.r = sh.ri) || decide (d_squared ≥ env.fl (ri_squared_adjusted + sh.ri))
      if fully_within_outer && fully_outside_inner then sh.outline_color
      else
        let d := env.sqrtf d_squared
        if fully_outside_inner then
          sh.outline_color.withA
            (env.toUint8 (env.fl (sh.outline_color.a * env.fl (env.fl (sh.r - d) + 1 / 2))))
        else if fully_within_outer then
          env.AlphaBlend sh.interior_color
            (sh.outline_color.withA
              (env.toUint8 (env.fl (sh.outline_color.a *
                env.fl (1 - env.fl (env.fl (sh.ri - d) + 1 / 2))))))
        else
          env.AlphaBlend sh.interior_color
            (sh.outline_color.withA
              (env.toUint8 (env.fl (sh.outline_color.a *
                max 0 (env.fl (env.fl (env.fl (sh.r - d) + 1 / 2)
                  - env.fl (env.fl (sh.ri - d) + 1 / 2)))))))

/-- The method `SmoothRoundRectShape::getColor`. -/
def SmoothRoundRectShape.getColor (env : Env) (sh : SmoothRoundRectShape) (x y : ℤ) :
    Color :=
  if sh.inner_mid.containsPt x y || sh.inner_wide.containsPt x y ||
      sh.inner_tall.containsPt x y then sh.interior_color
  else sh.getColorPreChecked env x y

/-- The method `SmoothRoundRectShape::readColorRect`: the returned flag and
the colours stored through `result` (one colour when the flag is true, the
per-pixel colours in raster order otherwise). The squares `r_min_sq` and
`r_max_sq` are computed in `double` (the literal `0.5`) and stored as `float`.
The `int16_t` counters of the two loops end for `xMax, yMax < 32767`. -/
def SmoothRoundRectShape.readColorRect (env : Env) (sh : SmoothRoundRectShape)
    (xMin yMin xMax yMax : ℤ) : Bool × List Color :=
  let box : Box := ⟨xMin, yMin, xMax, yMax⟩
  if sh.inner_mid.contains box || sh.inner_wide.contains box || sh.inner_tall.contains box
  then (true, [sh.interior_color])
  else
    let dtl := sh.calcDistSq env xMin yMin
    let dtr := sh.calcDistSq env xMax yMin
    let dbl := sh.calcDistSq env xMin yMax
    let dbr := sh.calcDistSq env xMax yMax
    let r_min_sq := env.fl (env.fd (env.fd (sh.ri - 1 / 2) * env.fd (sh.ri - 1 / 2)))
    if dtl < r_min_sq ∧ dtr < r_min_sq ∧ dbl < r_min_sq ∧ dbr < r_min_sq then
      (true, [sh.interior_color])
    else
      let r_max_sq := env.fl (env.fd (env.fd (sh.r + 1 / 2) * env.fd (sh.r + 1 / 2)))
      let perPixel : Bool × List Color :=
        (false, (rasterPixels xMin yMin xMax yMax).map
          (fun p => sh.getColorPreChecked env p.1 p.2))
      if (xMax : ℚ) < sh.x0 then
        if (yMax : ℚ) < sh.y0 then
          if dbr ≥ r_max_sq then (true, [Color.Transparent]) else perPixel
        else if (yMax : ℚ) > sh.y1 then
          if dtr ≥ r_max_sq then (true, [Color.Transparent]) else perPixel
        else perPixel
      else if (xMax : ℚ) > sh.x1 then
        if (yMax : ℚ) < sh.y0 then
          if dbl ≥ r_max_sq then (true, [Color.Transparent]) else perPixel
        else if (yMax : ℚ) > sh.y1 then
          if dtl ≥ r_max_sq then (true, [Color.Transparent]) else perPixel
        else perPixel
      else perPixel

/-- The struct `SmoothRoundRectSpec` (the `out` pointer is represented by the
returned list of writes). -/
structure SmoothRoundRectSpec where
  fill_mode : FillMode
  paint_mode : PaintMode
  x0 : ℚ
  y0 : ℚ
  x1 : ℚ
  y1 : ℚ
  r : ℚ
  r_squared_adjusted : ℚ
  ri : ℚ
  ri_squared_adjusted : ℚ
  color : Color
  bgcolor : Color
  interior : Color
  pre_blended_outline : Color
  pre_blended_interior : Color
  inner_wide : Box
  inner_mid : Box
  inner_tall : Box

/-- The function `GetSmoothRoundRectShapeColor`. -/
def GetSmoothRoundRectShapeColor (env : Env) (spec : SmoothRoundRectSpec) (x y : ℤ) :
    Color :=
  let d_squared := distSq env spec.x0 spec.y0 spec.x1 spec.y1 x y
  if d_squared ≤ env.fl (env.fl (spec.ri_squared_adjusted - spec.ri) - 1) then spec.interior
  else if d_squared ≥ env.fl (spec.r_squared_adjusted + spec.r) then Color.Transparent
  else
    let fully_within_outer : Bool :=
      decide (d_squared ≤ env.fl (spec.r_squared_adjusted - spec.r))
    let fully_outside_inner : Bool :=
      decide (spec.r = spec.ri) ||
        decide (d_squared ≥ env.fl (spec.ri_squared_adjusted + spec.ri))
    if fully_within_outer && fully_outside_inner then spec.color
    else
      let d := env.sqrtf d_squared
      if fully_outside_inner then
        spec.color.withA
          (env.toUint8 (env.fl (spec.color.a * env.fl (env.fl (spec.r - d) + 1 / 2))))
      else if fully_within_outer then
        env.AlphaBlend spec.interior
          (spec.color.withA
            (env.toUint8 (env.fl (spec.color.a *
              env.fl (1 - env.fl (env.fl (spec.ri - d) + 1 / 2))))))
      else
        env.AlphaBlend spec.interior
          (spec.color.withA
            (env.toUint8 (env.fl (spec.color.a *
              max 0 (env.fl (env.fl (env.fl (spec.r - d) + 1 / 2)
                - env.fl (env.fl (spec.ri - d) + 1 / 2)))))))

/-- The function `CalcSmoothRoundRectDistSq`. -/
def CalcSmoothRoundRectDistSq (env : Env) (spec : SmoothRoundRectSpec) (x y : ℤ) : ℚ :=
  distSq env spec.x0 spec.y0 spec.x1 spec.y1 x y

/-- The colour that the per-pixel branch of `FillSmoothRoundRectRectInternal`
sends for a shape colour `c` with non-zero alpha. -/
def blendedPixel (env : Env) (spec : SmoothRoundRectSpec) (c : Color) : Color :=
  if c = spec.interior then spec.pre_blended_interior
  else if c = spec.color then spec.pre_blended_outline
  else env.AlphaBlend spec.bgcolor c

/-- The decision taken by `FillSmoothRoundRectRectInternal` for a tile. -/
inductive TilePath where
  | innerBox
  | innerCorners
  | outside
  | perPixel
deriving DecidableEq

/-- The branch of `FillSmoothRoundRectRectInternal` taken for the tile
`(xMin, yMin, xMax, yMax)`. The squares `r_min_sq` and `r_max_sq` are computed
in `double` (the literal `0.5`) and stored as `float`. -/
def tilePath (env : Env) (spec : SmoothRoundRectSpec) (xMin yMin xMax yMax : ℤ) :
    TilePath :=
  let box : Box := ⟨xMin, yMin, xMax, yMax⟩
  if spec.inner_mid.contains box || spec.inner_wide.contains box ||
      spec.inner_tall.contains box then TilePath.innerBox
  else
    let dtl := CalcSmoothRoundRectDistSq env spec xMin yMin
    let dtr := CalcSmoothRoundRectDistSq env spec xMax yMin
    let dbl := CalcSmoothRoundRectDistSq env spec xMin yMax
    let dbr := CalcSmoothRoundRectDistSq env spec xMax yMax
    let r_min_sq := env.fl (env.fd (env.fd (spec.ri - 1 / 2) * env.fd (spec.ri - 1 / 2)))
    if dtl < r_min_sq ∧ dtr < r_min_sq ∧ dbl < r_min_sq ∧ dbr < r_min_sq then
      TilePath.innerCorners
    else
      let r_max_sq := env.fl (env.fd (env.fd (spec.r + 1 / 2) * env.fd (spec.r + 1 / 2)))
      if (xMax : ℚ) < spec.x0 then
        if (yMax : ℚ) < spec.y0 then
          if dbr ≥ r_max_sq then TilePath.outside else TilePath.perPixel
        else if (yMin : ℚ) > spec.y1 then
          if dtr ≥ r_max_sq then TilePath.outside else TilePath.perPixel
        else TilePath.perPixel
      else if (xMin : ℚ) > spec.x1 then
        if (yMax : ℚ) < spec.y0 then
          if dbl ≥ r_max_sq then TilePath.outside else TilePath.perPixel
        else if (yMin : ℚ) > spec.y1 then
          if dtl ≥ r_max_sq then TilePath.outside else TilePath.perPixel
        else TilePath.perPixel
      else TilePath.perPixel

/-- The function `FillSmoothRoundRectRectInternal`: the writes it issues. The
two per-pixel branches loop with `int16_t` counters `x <= xMax`, `y <= yMax`;
the pixels listed are those the loops visit when `xMax < 32767` and
`yMax < 32767` (`int16Loop_eq_intRange`). At 32767 the counter wraps to -32768
and the loop does not end (`int16Loop_never_ends`); the list says nothing about
that case. -/
def FillSmoothRoundRectRectInternal (env : Env) (spec : SmoothRoundRectSpec)
    (xMin yMin xMax yMax : ℤ) : List WriteOp :=
  let box : Box := ⟨xMin, yMin, xMax, yMax⟩
  match tilePath env spec xMin yMin xMax yMax with
  | TilePath.innerBox => [WriteOp.fillRect spec.paint_mode box spec.pre_blended_interior]
  | TilePath.innerCorners =>
    if spec.fill_mode = FillMode.FILL_MODE_RECTANGLE ∨ spec.interior.a > 0 then
      [WriteOp.fillRect spec.paint_mode box spec.pre_blended_interior]
    else []
  | TilePath.outside =>
    if spec.fill_mode = FillMode.FILL_MODE_RECTANGLE then
      [WriteOp.fillRect PaintMode.PAINT_MODE_REPLACE box spec.bgcolor]
    else []
  | TilePath.perPixel =>
    if spec.fill_mode = FillMode.FILL_MODE_VISIBLE then
      (rasterPixels xMin yMin xMax yMax).filterMap (fun p =>
        let c := GetSmoothRoundRectShapeColor env spec p.1 p.2
        if c.a = 0 then none
        else some (WriteOp.writePixel spec.paint_mode p.1 p.2 (blendedPixel env spec c)))
    else
      [WriteOp.write spec.paint_mode box
        ((rasterPixels xMin yMin xMax yMax).map (fun p =>
          let c := GetSmoothRoundRectShapeColor env spec p.1 p.2
          if c.a = 0 then spec.bgcolor else blendedPixel env spec c))]

/-- The loop `for (v = lo; v < hi; v += 8)` of `drawTo`: the values of `v`
visited; the first argument bounds the number of iterations. -/
def tileStartsLoop (hi : ℤ) : ℕ → ℤ → List ℤ
  | 0, _ => []
  | n + 1, v => if v < hi then v :: tileStartsLoop hi n (v + 8) else []

/-- The values visited by `for (v = lo; v < hi; v += 8)` when the `int16_t`
counter does not wrap, that is when the last value visited is below 32760;
`hi - lo` iterations then suffice. -/
def tileStarts (lo hi : ℤ) : List ℤ := tileStartsLoop hi (hi - lo).toNat lo

/-- A loop `for (int16_t v = lo; continues(v); v += step)`: the values of `v`
for which the body runs. The counter is updated in `int16_t`, where the sum
wraps around. The result is `none` when the loop has not ended after the given
number of evaluations of its condition. -/
def int16Loop (step : ℤ) (continues : ℤ → Bool) : ℕ → ℤ → Option (List ℤ)
  | 0, _ => none
  | n + 1, v =>
    if continues v then
      (int16Loop step continues n (toInt16 (v + step))).map (fun l => v :: l)
    else some []

/-- The `SmoothRoundRectSpec` that `SmoothRoundRectShape::drawTo` builds for a
surface. -/
def SmoothRoundRectShape.toSpec (env : Env) (sh : SmoothRoundRectShape) (s : Surface) :
    SmoothRoundRectSpec :=
  let spec : SmoothRoundRectSpec :=
    { fill_mode := s.fill_mode, paint_mode := s.paint_mode,
      x0 := sh.x0, y0 := sh.y0, x1 := sh.x1, y1 := sh.y1,
      r := sh.r, r_squared_adjusted := env.fl (env.fl (sh.r * sh.r) + 1 / 4),
      ri := sh.ri, ri_squared_adjusted := env.fl (env.fl (sh.ri * sh.ri) + 1 / 4),
      color := sh.outline_color, bgcolor := s.bgcolor, interior := sh.interior_color,
      pre_blended_outline :=
        env.AlphaBlend (env.AlphaBlend s.bgcolor sh.interior_color) sh.outline_color,
      pre_blended_interior := env.AlphaBlend s.bgcolor sh.interior_color,
      inner_wide := sh.inner_wide, inner_mid := sh.inner_mid, inner_tall := sh.inner_tall }
  if s.dx ≠ 0 ∨ s.dy ≠ 0 then
    { spec with
      x0 := env.fl (spec.x0 + s.dx), y0 := env.fl (spec.y0 + s.dy),
      x1 := env.fl (spec.x1 + s.dx), y1 := env.fl (spec.y1 + s.dy),
      inner_wide := spec.inner_wide.translate s.dx s.dy,
      inner_mid := spec.inner_mid.translate s.dx s.dy,
      inner_tall := spec.inner_tall.translate s.dx s.dy }
  else spec

/-- The box `SmoothRoundRectShape::drawTo` fills:
`Box::Intersect(extents_.translate(s.dx(), s.dy()), s.clip_box())`. -/
def SmoothRoundRectShape.drawBox (sh : SmoothRoundRectShape) (s : Surface) : Box :=
  Box.Intersect (sh.extents.translate s.dx s.dy) s.clip_box

/-- The tiles `(xMin, yMin, xMax, yMax)` passed to
`FillSmoothRoundRectRectInternal` by `drawTo` for a non-empty box, in call
order. `pixel_count` is a `uint32_t`; `/` on `int16_t` truncates toward zero.
The two tile loops step an `int16_t` counter by 8: for `xMax < 32760` and
`yMax < 32760` they end and visit the tiles listed (`int16Loop_eq_tileStarts`);
from 32760 on the counter wraps and the loop does not end, and the list says
nothing about that case. -/
def drawTiles (box : Box) : List Box :=
  let xMin := box.xMin
  let xMax := box.xMax
  let yMin := box.yMin
  let yMax := box.yMax
  let pixel_count := ((xMax - xMin + 1) * (yMax - yMin + 1)) % 4294967296
  if pixel_count ≤ 64 then [⟨xMin, yMin, xMax, yMax⟩]
  else
    let xMinOuter := Int.tdiv xMin 8 * 8
    let yMinOuter := Int.tdiv yMin 8 * 8
    let xMaxOuter := Int.tdiv xMax 8 * 8 + 7
    let yMaxOuter := Int.tdiv yMax 8 * 8 + 7
    (tileStarts yMinOuter yMaxOuter).flatMap (fun y =>
      (tileStarts xMinOuter xMaxOuter).map (fun x =>
        (⟨max x xMin, max y yMin, min (x + 7) xMax, min (y + 7) yMax⟩ : Box)))

/-- The method `SmoothRoundRectShape::drawTo`: the writes it issues. -/
def SmoothRoundRectShape.drawTo (env : Env) (sh : SmoothRoundRectShape) (s : Surface) :
    List WriteOp :=
  let box := sh.drawBox s
  if box.empty then []
  else
    let spec := sh.toSpec env s
    (drawTiles box).flatMap (fun t =>
      FillSmoothRoundRectRectInternal env spec t.xMin t.yMin t.xMax t.yMax)

/-! ## Binary32 arithmetic -/

/-- The power `2 ^ e` for an integer exponent. -/
def pow2 (e : ℤ) : ℚ :=
  if 0 ≤ e then ((2 ^ e.toNat : ℕ) : ℚ) else 1 / ((2 ^ (-e).toNat : ℕ) : ℚ)

/-- Rounding to the nearest integer, ties to the even one. -/
def rne (x : ℚ) : ℤ :=
  if x - ⌊x⌋ < 1 / 2 then ⌊x⌋
  else if 1 / 2 < x - ⌊x⌋ then ⌊x⌋ + 1
  else if ⌊x⌋ % 2 = 0 then ⌊x⌋ else ⌊x⌋ + 1

/-- Binary search for the integer logarithm: the bits `k - 1, ..., 0` of the
exponent are tried in turn. -/
def ilog2Aux (n : ℕ) : ℕ → ℕ → ℕ
  | 0, acc => acc
  | k + 1, acc =>
    if 2 ^ (acc + 2 ^ k) ≤ n then ilog2Aux n k (acc + 2 ^ k) else ilog2Aux n k acc

/-- The integer logarithm `⌊log₂ n⌋` (and 0 for `n = 0`); the search covers
the bits of the exponent that the size of `n` allows. -/
def ilog2 (n : ℕ) : ℕ :=
  if n < 2 ^ 64 then ilog2Aux n 6 0
  else if n < 2 ^ 512 then ilog2Aux n 9 0
  else if n < 2 ^ 2048 then ilog2Aux n 11 0
  else Nat.log2 n

/-- The exponent `⌊log₂ (a / b)⌋` for positive `a` and `b`: it is
`⌊log₂ a⌋ - ⌊log₂ b⌋` or one less; the two are told apart by comparing
`2 ^ e * b` with `a` in the natural numbers. -/
def floorLog2 (a b : ℕ) : ℤ :=
  let e0 : ℤ := (ilog2 a : ℤ) - (ilog2 b : ℤ)
  let reached : Bool :=
    if 0 ≤ e0 then decide (2 ^ e0.toNat * b ≤ a) else decide (b ≤ a * 2 ^ (-e0).toNat)
  if reached then e0 else e0 - 1

/-- The binade of `|q|` among the exponents `lo, ..., lo + n`: the largest
exponent `e` of that range with `2 ^ e ≤ |q|`, and `lo` when there is none. -/
def binade (q : ℚ) (lo : ℤ) (n : ℕ) : ℤ :=
  if q.num = 0 then lo else max lo (min (floorLog2 q.num.natAbs q.den) (lo + (n : ℤ)))

/-- The unit in the last place of `q` in a binary floating-point format with
`p` significant bits whose normal exponents are `emin, ..., emin + span`. -/
def ulp (p : ℕ) (emin : ℤ) (span : ℕ) (q : ℚ) : ℚ :=
  pow2 (binade q emin span - ((p : ℤ) - 1))

/-- The integer nearest to `N / D`, the even one at a tie. -/
def rneNat (N D : ℕ) : ℕ :=
  if 2 * (N % D) < D then N / D
  else if D < 2 * (N % D) then N / D + 1
  else if (N / D) % 2 = 0 then N / D else N / D + 1

/-- Rounding to a binary floating-point format with `p` significant bits whose
normal exponents are `emin, ..., emin + span`: the magnitude is rounded to the
nearest multiple of the unit in the last place `2 ^ k` of its binade, ties to
even. Below `2 ^ emin` the unit is that of the subnormal numbers. The quotient
of `|q| = n / d` by `2 ^ k` is rounded on numerators and denominators; by
`roundBinary_eq` the result is `rne (q / ulp q) * ulp q`. -/
def roundBinary (p : ℕ) (emin : ℤ) (span : ℕ) (q : ℚ) : ℚ :=
  let k := binade q emin span - ((p : ℤ) - 1)
  let mag : ℚ :=
    if 0 ≤ k then
      ((rneNat q.num.natAbs (q.den * 2 ^ k.toNat) * 2 ^ k.toNat : ℕ) : ℚ)
    else mkRat (rneNat (q.num.natAbs * 2 ^ (-k).toNat) q.den : ℕ) (2 ^ (-k).toNat)
  if 0 ≤ q.num then mag else -mag

/-- Rounding to binary32 (`float`). -/
def roundF32 (q : ℚ) : ℚ := roundBinary 24 (-126) 253 q

/-- Rounding to binary64 (`double`). -/
def roundF64 (q : ℚ) : ℚ := roundBinary 53 (-1022) 2045 q

/-! ## The reference instance of the platform primitives -/

/-- Bitwise integer square root: the bits `b - 1, ..., 0` are tried in turn. -/
def isqrtAux (n : ℕ) : ℕ → ℕ → ℕ
  | 0, acc => acc
  | b + 1, acc =>
    if (acc + 2 ^ b) * (acc + 2 ^ b) ≤ n then isqrtAux n b (acc + 2 ^ b)
    else isqrtAux n b acc

/-- The integer square root `⌊√n⌋`; the search covers the bits of the root
that the size of `n` allows. -/
def isqrt (n : ℕ) : ℕ :=
  if n < 2 ^ 48 then isqrtAux n 24 0
  else if n < 2 ^ 96 then isqrtAux n 48 0
  else Nat.sqrt n

/-- The unit in the last place of the binary32 square root of `q > 0`: the
root of a number of binade `b` has binade `⌊b / 2⌋`. -/
def sqrtUlp (q : ℚ) : ℚ := pow2 (binade q (-150) 277 / 2 - 23)

/-- Of the neighbours `t` and `t + 1`, the one nearer to `√c / 2`, the even one
at a tie: `t + 1/2` is compared with `√c / 2` through the squares. -/
def nearestRoot (t : ℕ) (c : ℚ) : ℕ :=
  let m : ℚ := ((2 * t + 1) * (2 * t + 1) : ℕ)
  if m < c then t + 1 else if c < m then t else if t % 2 = 0 then t else t + 1

/-- The correctly rounded binary32 square root, as IEEE 754 requires of
`sqrtf`: with `u` the unit in the last place of the result and `t` the integer
part of `√q / u`, the result is `t * u` or `(t + 1) * u`, whichever is nearer
to `√q`. -/
def sqrtF32 (q : ℚ) : ℚ :=
  if q ≤ 0 then 0
  else
    (nearestRoot (isqrt ⌊q / (sqrtUlp q * sqrtUlp q)⌋.toNat)
      (4 * q / (sqrtUlp q * sqrtUlp q)) : ℚ) * sqrtUlp q

/-- A reference `(uint8_t)` conversion: truncation toward zero, reduced modulo
256 outside the range of `uint8_t` (where C++ leaves the result undefined). -/
def toUint8Ref (v : ℚ) : ℕ := (truncf v % 256).toNat

/-- Modelled from the spec: `AlphaBlend(bg, fg)` of `core/color.h`. With `α`
the alpha of the foreground, each colour channel is `bg * (1 - α) + fg * α`;
the alpha channel is the coverage of the foreground over the background. -/
def AlphaBlendRef (bg fg : Color) : Color :=
  { a := min 255 (fg.a + bg.a * (255 - fg.a) / 255)
    r := (bg.r * (255 - fg.a) + fg.r * fg.a) / 255
    g := (bg.g * (255 - fg.a) + fg.g * fg.a) / 255
    b := (bg.b * (255 - fg.a) + fg.b * fg.a) / 255 }

/-- The reference primitives, those of a platform with IEEE 754 arithmetic:
every `float` operation rounds to binary32 and every `double` operation to
binary64, to nearest, ties to even, and `sqrtf` is correctly rounded. -/
def refEnv : Env :=
  { fl := roundF32, fd := roundF64, sqrtf := sqrtF32, toUint8 := toUint8Ref,
    AlphaBlend := AlphaBlendRef }

/-! ## Pixels reached by a write, and the pixel buffer -/

/-- The colour a write request sends to pixel `(x, y)`, if it covers that
pixel. A `write` fills its address window in raster order. -/
def WriteOp.colorAt : WriteOp → ℤ → ℤ → Option Color
  | WriteOp.fillRect _ box c, x, y => if box.containsPt x y then some c else none
  | WriteOp.writePixel _ px py c, x, y => if px = x ∧ py = y then some c else none
  | WriteOp.write _ box colors, x, y =>
    if box.containsPt x y then
      colors.get? ((y - box.yMin) * (box.xMax - box.xMin + 1) + (x - box.xMin)).toNat
    else none

/-- Whether a write request covers pixel `(x, y)`. -/
def WriteOp.covers (op : WriteOp) (x y : ℤ) : Bool := (op.colorAt x y).isSome

/-- The paint mode of a write request. -/
def WriteOp.mode : WriteOp → PaintMode
  | WriteOp.fillRect m _ _ => m
  | WriteOp.writePixel m _ _ _ => m
  | WriteOp.write m _ _ => m

/-- The number of write requests of a list that cover pixel `(x, y)`. -/
def writeCount (ops : List WriteOp) (x y : ℤ) : ℕ := (ops.filter (fun op => op.covers x y)).length

/-- A pixel buffer: the colour stored at every coordinate. -/
abbrev PixelBuffer := ℤ → ℤ → Color

/-- Modelled from the spec: the effect of one write on a compositing output.
`PAINT_MODE_REPLACE` overwrites the stored colour, `PAINT_MODE_BLEND`
alpha-composites the written colour over it. -/
def applyWrite (env : Env) (buf : PixelBuffer) (op : WriteOp) : PixelBuffer :=
  fun x y =>
    match op.colorAt x y with
    | none => buf x y
    | some c =>
      match op.mode with
      | PaintMode.PAINT_MODE_REPLACE => c
      | PaintMode.PAINT_MODE_BLEND => env.AlphaBlend (buf x y) c

/-- Modelled from the spec: the pixel buffer after a sequence of writes. -/
def applyWrites (env : Env) (buf : PixelBuffer) (ops : List WriteOp) : PixelBuffer :=
  ops.foldl (applyWrite env) buf

/-! ## Conditions on the platform primitives and on the inputs -/

/-- The value is representable as `int16_t`. -/
def fitsInt16 (z : ℤ) : Prop := -32768 ≤ z ∧ z ≤ 32767

instance (z : ℤ) : Decidable (fitsInt16 z) := by unfold fitsInt16; infer_instance

/-- The function `sqrtf` is monotone. -/
def Env.SqrtMono (env : Env) : Prop := ∀ v w : ℚ, v ≤ w → env.sqrtf v ≤ env.sqrtf w

/-- The `(uint8_t)` conversion of a value in `[0, 256)` is its integer part. -/
def Env.CastFloor (env : Env) : Prop :=
  ∀ v : ℚ, 0 ≤ v → v < 256 → env.toUint8 v = ⌊v⌋.toNat

/-- The `(uint8_t)` conversion discards the fractional part: it is defined for
every value in `(-1, 256)`. -/
def Env.CastTrunc (env : Env) : Prop :=
  ∀ v : ℚ, -1 < v → v < 256 → env.toUint8 v = (truncf v).toNat

/-- The rounding of `float` results is monotone. -/
def Env.RoundMono (env : Env) : Prop := ∀ v w : ℚ, v ≤ w → env.fl v ≤ env.fl w

/-- A rounded `float` result is not rounded again. -/
def Env.RoundIdem (env : Env) : Prop := ∀ v : ℚ, env.fl (env.fl v) = env.fl v

/-- The integers `0, ..., 256` are `float` values. -/
def Env.RoundSmallNat (env : Env) : Prop := ∀ n : ℕ, n ≤ 256 → env.fl n = n

/-- Blending over an opaque background gives an opaque colour. -/
def Env.BlendOpaqueBg (env : Env) : Prop :=
  ∀ bg fg : Color, bg.a = 255 → (env.AlphaBlend bg fg).a = 255

/-- Blending an opaque foreground gives the foreground. -/
def Env.BlendOpaqueFg (env : Env) : Prop :=
  ∀ bg fg : Color, fg.a = 255 → env.AlphaBlend bg fg = fg

/-! ## Concrete inputs -/

/-- Opaque red. -/
def red : Color := ⟨255, 255, 0, 0⟩

/-- Opaque blue. -/
def blue : Color := ⟨255, 0, 0, 255⟩

/-- Opaque white. -/
def white : Color := ⟨255, 255, 255, 255⟩

/-- A surface without offset, clipped to `[0, 100] × [0, 100]`, with a white
background hint, in visible-only fill mode. -/
def visibleSurface : Surface :=
  ⟨0, 0, ⟨0, 0, 100, 100⟩, white, FillMode.FILL_MODE_VISIBLE, PaintMode.PAINT_MODE_REPLACE⟩

/-- A round rectangle with inner rectangle `[10, 20] × [10, 20]`, outer radius
3 and interior radius 0, red outline and blue interior. -/
def sharpInteriorShape : SmoothRoundRectShape :=
  SmoothRoundRectShape.make refEnv 10 10 20 20 3 0 red blue

/-- A round rectangle with inner rectangle `[10, 30] × [10, 30]`, radii 3 and
2, red outline and a fully transparent interior. -/
def hollowShape : SmoothRoundRectShape :=
  SmoothRoundRectShape.make refEnv 10 10 30 30 3 2 red Color.Transparent

/-- A visible-only surface clipped to the 4 × 4 box `[14, 17] × [14, 17]`. -/
def smallClipSurface : Surface :=
  ⟨0, 0, ⟨14, 14, 17, 17⟩, white, FillMode.FILL_MODE_VISIBLE, PaintMode.PAINT_MODE_REPLACE⟩

/-- A round rectangle with inner rectangle `[0, 20] × [0, 20]`, radii 3 and 2;
its extents are `[-3, 23] × [-3, 23]`. -/
def originShape : SmoothRoundRectShape :=
  SmoothRoundRectShape.make refEnv 0 0 20 20 3 2 red blue

/-- A full-rectangle surface without offset, clipped to
`[-100, 100] × [-100, 100]`. -/
def wideRectSurface : Surface :=
  ⟨0, 0, ⟨-100, -100, 100, 100⟩, white, FillMode.FILL_MODE_RECTANGLE,
    PaintMode.PAINT_MODE_REPLACE⟩

/-- A round rectangle with inner rectangle `[10, 20] × [10, 20]`, radii 2 and 1. -/
def smallShape : SmoothRoundRectShape :=
  SmoothRoundRectShape.make refEnv 10 10 20 20 2 1 red blue

/-- A horizontal capsule from `(10, 10.875)` to `(20, 10.875)` of half-width
2.625, opaque red. -/
def fractionalRowWedge : SmoothWedgeShape :=
  SmoothWedgeShape.make refEnv ⟨10, 87 / 8⟩ (21 / 8) ⟨20, 87 / 8⟩ (21 / 8) red

/-- A surface whose clip box `[200, 210] × [200, 210]` is far from the shapes
above. -/
def farSurface : Surface :=
  ⟨0, 0, ⟨200, 200, 210, 210⟩, white, FillMode.FILL_MODE_RECTANGLE,
    PaintMode.PAINT_MODE_REPLACE⟩

/-- A degenerate wedge: both endpoints at `(10, 10)`, both half-widths 3. -/
def discWedge : SmoothWedgeShape :=
  SmoothWedgeShape.make refEnv ⟨10, 10⟩ 3 ⟨10, 10⟩ 3 red

/-- The closed disc of radius `w` around `c`, as a set of points with rational
coordinates. -/
def inDisc (c : FpPoint) (w : ℚ) (px py : ℚ) : Prop :=
  (px - c.x) * (px - c.x) + (py - c.y) * (py - c.y) ≤ w * w

/-- The box whose corners are the outward-rounded bounds of the two endpoint
discs. -/
def discsBox (a : FpPoint) (a_width : ℚ) (b : FpPoint) (b_width : ℚ) : Box :=
  ⟨⌊min (a.x - a_width) (b.x - b_width)⌋, ⌊min (a.y - a_width) (b.y - b_width)⌋,
   ⌈max (a.x + a_width) (b.x + b_width)⌉, ⌈max (a.y + a_width) (b.y + b_width)⌉⟩

/-- A wedge at the left edge of the `int16_t` range: both endpoints at
`(-32768, 0)`, both half-widths 1. -/
def leftEdgeWedge : SmoothWedgeShape :=
  SmoothWedgeShape.make refEnv ⟨-32768, 0⟩ 1 ⟨-32768, 0⟩ 1 red

/-- A round rectangle with inner rectangle `[10, 20] × [10, 20]`, radii 4 and
2, opaque red outline and fully transparent interior. -/
def ringShape : SmoothRoundRectShape :=
  SmoothRoundRectShape.make refEnv 10 10 20 20 4 2 red Color.Transparent

/-- The colour of the last write of a list that covers pixel `(x, y)`. -/
def lastColor : List WriteOp → ℤ → ℤ → Option Color
  | [], _, _ => none
  | op :: ops, x, y =>
    match lastColor ops x y with
    | some c => some c
    | none => op.colorAt x y

/-- A write whose effect does not depend on the stored colours: it replaces,
or every colour it sends is opaque. -/
def WriteOp.Absolute (op : WriteOp) : Prop :=
  op.mode = PaintMode.PAINT_MODE_REPLACE ∨ ∀ x y c, op.colorAt x y = some c → c.a = 255

/-- A blending surface with a fully transparent background hint, clipped to
`[0, 100] × [0, 100]`. -/
def blendSurface : Surface :=
  ⟨0, 0, ⟨0, 0, 100, 100⟩, Color.Transparent, FillMode.FILL_MODE_VISIBLE,
    PaintMode.PAINT_MODE_BLEND⟩

/-- A blending surface with an opaque white background hint. -/
def blendOnWhiteSurface : Surface :=
  ⟨0, 0, ⟨0, 0, 100, 100⟩, white, FillMode.FILL_MODE_RECTANGLE,
    PaintMode.PAINT_MODE_BLEND⟩

/-- The pixel buffer that stores opaque white everywhere. -/
def whiteBuffer : PixelBuffer := fun _ _ => white

/-! ## Touch input and display nesting (`roo_display.cpp`) -/

/-- Modelled from the spec: `Orientation`, one of 8 values combining the axis
swap with the two mirroring flags. -/
structure Orientation where
  isXYswapped : Bool
  isRightToLeft : Bool
  isBottomToTop : Bool
deriving DecidableEq

/-- Modelled from the spec: the geometry of a `DisplayDevice`, its current
orientation and its native width and height; the effective width and height
are exchanged when the orientation swaps the axes. -/
structure DisplayDevice where
  orientation : Orientation
  raw_width : ℤ
  raw_height : ℤ
deriving DecidableEq

/-- Modelled from the spec: `DisplayDevice::effective_width`. -/
def DisplayDevice.effective_width (d : DisplayDevice) : ℤ :=
  if d.orientation.isXYswapped then d.raw_height else d.raw_width

/-- Modelled from the spec: `DisplayDevice::effective_height`. -/
def DisplayDevice.effective_height (d : DisplayDevice) : ℤ :=
  if d.orientation.isXYswapped then d.raw_width else d.raw_height

/-- What `TouchDevice::getTouch(raw_x, raw_y, raw_z)` reports: the returned
flag and the values stored through the three references. -/
structure TouchReading where
  touched : Bool
  raw_x : ℤ
  raw_y : ℤ
  raw_z : ℤ

/-- The members of `TouchDisplay`: the display device, the reading that the
touch device delivers, and `touch_calibration_.Calibrate`, which updates the
three raw values in place. -/
structure TouchDisplay where
  display_device : DisplayDevice
  touch_device : TouchReading
  Calibrate : ℤ × ℤ × ℤ → ℤ × ℤ × ℤ

/-- The expression `((int32_t)raw * (effective_size - 1)) / 4095` assigned to
an `int16_t`; `/` truncates toward zero. -/
def touchScale (raw size : ℤ) : ℤ := toInt16 (Int.tdiv (toInt32 (raw * (size - 1))) 4095)

/-- The method `TouchDisplay::getTouch(int16_t& x, int16_t& y)`: the returned
flag and the values of `x` and `y` after the call. -/
def TouchDisplay.getTouch (td : TouchDisplay) (x y : ℤ) : Bool × ℤ × ℤ :=
  if td.touch_device.touched = false then (false, x, y)
  else
    let cal := td.Calibrate (td.touch_device.raw_x, td.touch_device.raw_y,
      td.touch_device.raw_z)
    let raw_x := cal.1
    let raw_y := cal.2.1
    let orientation := td.display_device.orientation
    let raw_x := if orientation.isRightToLeft then toInt16 (4095 - raw_x) else raw_x
    let raw_y := if orientation.isBottomToTop then toInt16 (4095 - raw_y) else raw_y
    let swapped : ℤ × ℤ := if orientation.isXYswapped then (raw_y, raw_x) else (raw_x, raw_y)
    (true, touchScale swapped.1 td.display_device.effective_width,
      touchScale swapped.2 td.display_device.effective_height)

/-- A call received by the display device. `write` stands for the writes of
one draw operation. -/
inductive DeviceCall where
  | begin_
  | end_
  | setOrientation (o : Orientation)
  | write
deriving DecidableEq

/-- The members of `Display` that the nesting and orientation code touches,
together with the calls received by its device so far. -/
structure Display where
  display_device : DisplayDevice
  nest_level : ℤ
  orientation : Orientation
  extents : Box
  calls : List DeviceCall
deriving DecidableEq

/-- Modelled from the spec: `Display::nest`, which increments the nesting
counter; the device's `begin()` fires only on the transition 0 → 1. -/
def Display.nest (d : Display) : Display :=
  { d with
    calls := if d.nest_level = 0 then d.calls ++ [DeviceCall.begin_] else d.calls
    nest_level := d.nest_level + 1 }

/-- Modelled from the spec: `Display::unnest`, which decrements the nesting
counter; the device's `end()` fires only on the transition 1 → 0. -/
def Display.unnest (d : Display) : Display :=
  { d with
    calls := if d.nest_level - 1 = 0 then d.calls ++ [DeviceCall.end_] else d.calls
    nest_level := d.nest_level - 1 }

/-- Modelled from the spec: `Display::resetExtents`, which recomputes the cached
extents from the device's effective width and height. -/
def Display.resetExtents (d : Display) : Display :=
  { d with
    extents := ⟨0, 0, d.display_device.effective_width - 1,
      d.display_device.effective_height - 1⟩ }

/-- Modelled from the spec: `DisplayDevice::setOrientation` as seen by the
display: the call is received and the device takes the new orientation. -/
def Display.deviceSetOrientation (d : Display) (o : Orientation) : Display :=
  { d with
    display_device := { d.display_device with orientation := o }
    calls := d.calls ++ [DeviceCall.setOrientation o] }

/-- The method `Display::setOrientation`. -/
def Display.setOrientation (d : Display) (orientation : Orientation) : Display :=
  if d.orientation = orientation then d
  else
    let d := { d with orientation := orientation }
    let d := d.nest
    let d := d.deviceSetOrientation orientation
    let d := d.unnest
    d.resetExtents

/-- Modelled from the spec: the constructor of `DrawingContext`, which
increments the nesting of its display. -/
def Display.contextConstructed (d : Display) : Display := d.nest

/-- The destructor `DrawingContext::~DrawingContext`, which calls `unnest_()`,
bound to `Display::unnest` of its display. -/
def Display.contextDestroyed (d : Display) : Display := d.unnest

/-- The method `Display::clear`: a drawing context is constructed, `dc.clear()`
draws through it, and the context is destroyed at the end of the scope. -/
def Display.clear (d : Display) : Display :=
  let d := d.contextConstructed
  let d := { d with calls := d.calls ++ [DeviceCall.write] }
  d.contextDestroyed

/-- One step of a client of the display. -/
inductive DisplayAction where
  | construct
  | destroy
  | setOrientation (o : Orientation)
  | clear
deriving DecidableEq

/-- The effect of one client step on the display. -/
def Display.step (d : Display) : DisplayAction → Display
  | DisplayAction.construct => d.contextConstructed
  | DisplayAction.destroy => d.contextDestroyed
  | DisplayAction.setOrientation o => d.setOrientation o
  | DisplayAction.clear => d.clear

/-- The effect of a sequence of client steps. -/
def Display.run (d : Display) (actions : List DisplayAction) : Display :=
  actions.foldl Display.step d

/-- Whether a sequence of client steps is properly nested when `depth`
contexts are alive at its start: no step destroys a context that was not
constructed. -/
def properlyNested : ℕ → List DisplayAction → Bool
  | _, [] => true
  | depth, a :: rest =>
    match a with
    | DisplayAction.construct => properlyNested (depth + 1) rest
    | DisplayAction.destroy =>
      match depth with
      | 0 => false
      | n + 1 => properlyNested n rest
    | _ => properlyNested depth rest

/-- The number of contexts alive after a sequence of client steps that starts
with `depth` contexts alive. -/
def openContexts : ℕ → List DisplayAction → ℕ
  | depth, [] => depth
  | depth, a :: rest =>
    match a with
    | DisplayAction.construct => openContexts (depth + 1) rest
    | DisplayAction.destroy => openContexts (depth - 1) rest
    | _ => openContexts depth rest

/-- The `begin()` and `end()` calls of a call sequence, in order: `true` for
`begin()`, `false` for `end()`. -/
def beginEndCalls : List DeviceCall → List Bool
  | [] => []
  | DeviceCall.begin_ :: rest => true :: beginEndCalls rest
  | DeviceCall.end_ :: rest => false :: beginEndCalls rest
  | _ :: rest => beginEndCalls rest

/-- The strictly alternating sequence of `k` begin/end pairs, followed by one
more `begin()` when `pending`. -/
def alternation (k : ℕ) (pending : Bool) : List Bool :=
  (List.replicate k [true, false]).flatten ++ (if pending then [true] else [])

/-- The nesting invariant: the nest level is the number of live contexts, and
the `begin()`/`end()` calls alternate, with a `begin()` pending exactly when
the level is positive. -/
def nestingInvariant (d : Display) (depth : ℕ) : Prop :=
  d.nest_level = depth ∧ ∃ k, beginEndCalls d.calls = alternation k (decide (0 < depth))

/-- A 320 × 240 device in the orientation that swaps the axes and mirrors
the horizontal direction. -/
def rotatedDevice : DisplayDevice := ⟨⟨true, true, false⟩, 320, 240⟩

/-- A touch display whose device reports no touch. -/
def untouchedDisplay : TouchDisplay := ⟨rotatedDevice, ⟨false, 7, 8, 9⟩, fun p => p⟩

/-- A touch display whose device reports a touch at raw `(1000, 3000)`, with a
calibration that leaves the values as they are. -/
def touchedDisplay : TouchDisplay := ⟨rotatedDevice, ⟨true, 1000, 3000, 50⟩, fun p => p⟩

/-- A display at nest level 0 whose device has received no call. -/
def idleDisplay : Display :=
  ⟨⟨⟨false, false, false⟩, 320, 240⟩, 0, ⟨false, false, false⟩, ⟨0, 0, 319, 239⟩, []⟩

/-! ## The TFT_eSPI adapter (`driver/TFT_eSPI_adapter.h`) -/

/-- A call received by the `TFT_eSPI` object `tft_`. `pushBlock color len`
sends the one raw colour `len` times (as in `fillRects`, which fills a window
with it); `pushPixels data` sends the raw colours of `data` in order. -/
inductive TftCall where
  | setWindow (x0 y0 x1 y1 : ℤ)
  | pushBlock (color : ℕ) (len : ℕ)
  | setSwapBytes (swap : Bool)
  | pushPixels (data : List ℕ)
deriving DecidableEq

/-- The raw colours that a call streams into the active address window. -/
def TftCall.pixels : TftCall → List ℕ
  | TftCall.pushBlock color len => List.replicate len color
  | TftCall.pushPixels data => data
  | _ => []

/-- The raw colours streamed into the active address window by a sequence of
calls, in order. -/
def pushedPixels (calls : List TftCall) : List ℕ := calls.flatMap TftCall.pixels

/-- The members `bgcolor_` and `paint_mode_` of `TFT_eSPI_Adapter`, and the
conversion `to_raw_color` (`Rgb565().fromArgbColor`). -/
structure TFT_eSPI_Adapter where
  bgcolor : Color
  paint_mode : PaintMode
  to_raw_color : Color → ℕ

/-- The raw colour that `processColorSequence` stores for one colour. -/
def TFT_eSPI_Adapter.rawOf (env : Env) (a : TFT_eSPI_Adapter) (mode : PaintMode)
    (c : Color) : ℕ :=
  match mode with
  | PaintMode.PAINT_MODE_REPLACE => a.to_raw_color c
  | PaintMode.PAINT_MODE_BLEND => a.to_raw_color (env.AlphaBlend a.bgcolor c)

/-- The method `TFT_eSPI_Adapter::processColorSequence`: the raw colours stored
in `dest` and the returned pointer, as the colours that remain. -/
def TFT_eSPI_Adapter.processColorSequence (env : Env) (a : TFT_eSPI_Adapter)
    (mode : PaintMode) (src : List Color) (pixel_count : ℕ) : List ℕ × List Color :=
  ((src.take pixel_count).map (a.rawOf env mode), src.drop pixel_count)

/-- The loop `while (pixel_count > 64)` of `TFT_eSPI_Adapter::write` followed by
the statements after it; the first argument bounds the number of iterations. -/
def TFT_eSPI_Adapter.writeLoop (env : Env) (a : TFT_eSPI_Adapter) :
    ℕ → List Color → ℕ → List TftCall
  | fuel + 1, color, pixel_count =>
    if pixel_count > 64 then
      let r := a.processColorSequence env a.paint_mode color 64
      TftCall.pushBlock (r.1.headD 0) 64 :: a.writeLoop env fuel r.2 (pixel_count - 64)
    else
      [TftCall.setSwapBytes true,
        TftCall.pushPixels (a.processColorSequence env a.paint_mode color pixel_count).1,
        TftCall.setSwapBytes false]
  | 0, color, pixel_count =>
    [TftCall.setSwapBytes true,
      TftCall.pushPixels (a.processColorSequence env a.paint_mode color pixel_count).1,
      TftCall.setSwapBytes false]

/-- The method `TFT_eSPI_Adapter::write(color, pixel_count)`: the calls made on
`tft_`. The loop runs at most `pixel_count` times. -/
def TFT_eSPI_Adapter.write (env : Env) (a : TFT_eSPI_Adapter) (color : List Color)
    (pixel_count : ℕ) : List TftCall :=
  a.writeLoop env pixel_count color pixel_count

/-- Modelled from the spec: the RGB565 colour mode, 5 bits of red, 6 of green
and 5 of blue. -/
def rgb565 (c : Color) : ℕ := c.r / 8 * 2048 + c.g / 4 * 32 + c.b / 8

/-- An adapter in `PAINT_MODE_REPLACE` with a white background hint. -/
def replaceAdapter : TFT_eSPI_Adapter := ⟨white, PaintMode.PAINT_MODE_REPLACE, rgb565⟩

/-- Sixty-five colours: one red followed by 64 blue. -/
def redThenBlue : List Color := red :: List.replicate 64 blue

/-! ## DrawingContext (`roo_display.cpp`) -/

/-- Modelled from the spec: `Transformation`, an axis swap followed by a scale
and a translation. -/
structure Transformation where
  xy_swap : Bool
  x_scale : ℤ
  y_scale : ℤ
  x_offset : ℤ
  y_offset : ℤ
deriving DecidableEq

/-- Modelled from the spec: `Transformation::is_rescaled`. -/
def Transformation.is_rescaled (t : Transformation) : Bool :=
  decide (t.x_scale ≠ 1) || decide (t.y_scale ≠ 1)

/-- A `DisplayOutput` as a chain: the device output, or a filter constructed
around another output. A write issued to a filter is processed by it and then
forwarded to the output it was constructed around. The clip mask and the
background raster are identified by a number. -/
inductive Output where
  | device
  | frontToBackWriter (inner : Output)
  | clipMaskFilter (mask : ℕ) (inner : Output)
  | backgroundFilter (background : ℕ) (inner : Output)
  | erasureFilter (inner : Output)
deriving DecidableEq

/-- The kinds of the stages of an output chain. -/
inductive OutputKind where
  | device
  | frontToBackWriter
  | clipMask
  | background
  | erasure
deriving DecidableEq

/-- The stages that a write issued to an output traverses, the first to
receive it first. -/
def Output.chain : Output → List OutputKind
  | Output.device => [OutputKind.device]
  | Output.frontToBackWriter inner => OutputKind.frontToBackWriter :: inner.chain
  | Output.clipMaskFilter _ inner => OutputKind.clipMask :: inner.chain
  | Output.backgroundFilter _ inner => OutputKind.background :: inner.chain
  | Output.erasureFilter inner => OutputKind.erasure :: inner.chain

/-- Modelled from the spec: the full `Surface`, the fields of `Surface` above
together with the output reference and the write-once flag. -/
structure OutSurface extends Surface where
  out : Output
  is_write_once : Bool

/-- The members of `DrawingContext` used by the drawing dispatch; `output` is
what `output()` returns. -/
structure DrawingContext where
  output : Output
  front_to_back_writer_ : Option Output
  dx_ : ℤ
  dy_ : ℤ
  clip_box_ : Box
  write_once_ : Bool
  fill_mode_ : FillMode
  paint_mode_ : PaintMode
  bgcolor_ : Color
  clip_mask_ : Option ℕ
  background_ : Option ℕ
  transformed_ : Bool
  transformation_ : Transformation

/-- The object passed to `Surface::drawObject`: the drawable itself, or
`TransformedDrawable(transformation_, &object)`. -/
inductive DrawnObject (α : Type) where
  | plain (object : α)
  | transformed (t : Transformation) (object : α)

/-- The call `s.drawObject(...)` that ends the drawing dispatch: the surface
and the object drawn on it. -/
structure DrawCall (α : Type) where
  s : OutSurface
  object : DrawnObject α

/-- The method `DrawingContext::drawInternalTransformed`. -/
def DrawingContext.drawInternalTransformed {α : Type} (ctx : DrawingContext)
    (s : OutSurface) (object : α) : DrawCall α :=
  if ctx.transformed_ = false then ⟨s, DrawnObject.plain object⟩
  else if (!ctx.transformation_.is_rescaled && !ctx.transformation_.xy_swap) = true then
    ⟨{ s with dx := s.dx + ctx.transformation_.x_offset,
              dy := s.dy + ctx.transformation_.y_offset }, DrawnObject.plain object⟩
  else ⟨s, DrawnObject.transformed ctx.transformation_ object⟩

/-- The method `DrawingContext::drawInternalWithBackground`. -/
def DrawingContext.drawInternalWithBackground {α : Type} (ctx : DrawingContext)
    (s : OutSurface) (object : α) : DrawCall α :=
  match ctx.background_ with
  | none => ctx.drawInternalTransformed s object
  | some background =>
    ctx.drawInternalTransformed { s with out := Output.backgroundFilter background s.out }
      object

/-- The method `DrawingContext::drawInternal`. The offsets are added as
integers: the coordinates are taken to be within `int16_t` range. -/
def DrawingContext.drawInternal {α : Type} (ctx : DrawingContext) (object : α)
    (dx dy : ℤ) (bgcolor : Color) : DrawCall α :=
  let out : Output :=
    match ctx.front_to_back_writer_ with
    | some writer => writer
    | none => ctx.output
  let s : OutSurface :=
    { out := out, dx := dx + ctx.dx_, dy := dy + ctx.dy_,
      clip_box := ctx.clip_box_.translate ctx.dx_ ctx.dy_,
      is_write_once := ctx.write_once_, bgcolor := bgcolor,
      fill_mode := ctx.fill_mode_, paint_mode := ctx.paint_mode_ }
  match ctx.clip_mask_ with
  | none => ctx.drawInternalWithBackground s object
  | some mask =>
    ctx.drawInternalWithBackground { s with out := Output.clipMaskFilter mask out } object

/-- Modelled from the spec: `DrawingContext::draw(object, dx, dy)`, which
dispatches to `drawInternal` with the context's background colour;
`draw(object)` is `draw(object, 0, 0)`. -/
def DrawingContext.draw {α : Type} (ctx : DrawingContext) (object : α) (dx dy : ℤ) :
    DrawCall α :=
  ctx.drawInternal object dx dy ctx.bgcolor_

/-- Modelled from the spec: a `Drawable` as far as its reported boxes go: what
`extents()` and `anchorExtents()` return. -/
structure Drawable where
  extents : Box
  anchorExtents : Box
deriving DecidableEq

/-- The class `ErasedDrawable`. -/
structure ErasedDrawable where
  delegate : Drawable

/-- The method `ErasedDrawable::extents`. -/
def ErasedDrawable.extents (e : ErasedDrawable) : Box := e.delegate.extents

/-- The method `ErasedDrawable::anchorExtents`. -/
def ErasedDrawable.anchorExtents (e : ErasedDrawable) : Box := e.delegate.anchorExtents

/-- The method `ErasedDrawable::drawTo`: the surface `news` and the drawable of
its call `news.drawObject(*delegate_)`. -/
def ErasedDrawable.drawTo (e : ErasedDrawable) (s : OutSurface) : OutSurface × Drawable :=
  let news := s
  let news := { news with out := Output.erasureFilter s.out }
  let news := { news with paint_mode := PaintMode.PAINT_MODE_REPLACE }
  (news, e.delegate)

/-- The method `DrawingContext::erase(object)`. -/
def DrawingContext.erase (ctx : DrawingContext) (object : Drawable) :
    DrawCall ErasedDrawable :=
  ctx.draw (ErasedDrawable.mk object) 0 0

/-- Modelled from the spec: `SolidRect(x0, y0, x1, y1, color)`, the filled
rectangle with the inclusive corners `(x0, y0)` and `(x1, y1)`. -/
structure SolidRect where
  x0 : ℤ
  y0 : ℤ
  x1 : ℤ
  y1 : ℤ
  color : Color

/-- Modelled from the spec: the extents of a `SolidRect`. -/
def SolidRect.extents (r : SolidRect) : Box := ⟨r.x0, r.y0, r.x1, r.y1⟩

/-- The class `Pixels`: `fn_` is represented by the `writePixel(x, y, color)`
calls it makes on the writer it is given, in order. -/
structure Pixels where
  fn : List (ℤ × ℤ × Color)
  extents : Box
  paint_mode : PaintMode

/-- Modelled from the spec: the requests that reach the output of a
`ClippingBufferedPixelWriter(out, clip, mode)` when `fn` runs on it: the pixels
inside `clip`, in order. -/
def clippedPixelWrites (fn : List (ℤ × ℤ × Color)) (clip : Box) (mode : PaintMode) :
    List WriteOp :=
  fn.filterMap (fun p =>
    if clip.containsPt p.1 p.2.1 then some (WriteOp.writePixel mode p.1 p.2.1 p.2.2)
    else none)

/-- Modelled from the spec: `TransformedDisplayOutput` for
`Transformation().translate(dx, dy)`: the coordinates of a write are shifted
by the offset before it is forwarded. -/
def WriteOp.translate (dx dy : ℤ) : WriteOp → WriteOp
  | WriteOp.fillRect m box c => WriteOp.fillRect m (box.translate dx dy) c
  | WriteOp.writePixel m x y c => WriteOp.writePixel m (x + dx) (y + dy) c
  | WriteOp.write m box colors => WriteOp.write m (box.translate dx dy) colors

/-- The method `Pixels::drawTo`: the requests received by `s.out()`. -/
def Pixels.drawTo (p : Pixels) (s : OutSurface) : List WriteOp :=
  if s.dx = 0 ∧ s.dy = 0 then clippedPixelWrites p.fn p.extents p.paint_mode
  else (clippedPixelWrites p.fn p.extents p.paint_mode).map (WriteOp.translate s.dx s.dy)

/-- The method `DrawingContext::drawPixels`. The function
`Transformation::smallestEnclosingRect` is received as an argument. -/
def DrawingContext.drawPixels (ctx : DrawingContext)
    (smallestEnclosingRect : Transformation → Box → Box) (fn : List (ℤ × ℤ × Color))
    (paint_mode : PaintMode) : DrawCall Pixels :=
  ctx.draw (Pixels.mk fn (smallestEnclosingRect ctx.transformation_ ctx.clip_box_) paint_mode)
    0 0

/-- The identity transformation. -/
def identityTransformation : Transformation := ⟨false, 1, 1, 0, 0⟩

/-- An untransformed context on a 10 × 11 screen, with a clip mask (number 1)
and a background (number 2) set. -/
def maskedContext : DrawingContext :=
  { output := Output.device, front_to_back_writer_ := none, dx_ := 0, dy_ := 0,
    clip_box_ := ⟨0, 0, 9, 10⟩, write_once_ := false,
    fill_mode_ := FillMode.FILL_MODE_VISIBLE, paint_mode_ := PaintMode.PAINT_MODE_BLEND,
    bgcolor_ := Color.Transparent, clip_mask_ := some 1, background_ := some 2,
    transformed_ := false, transformation_ := identityTransformation }

/-- The rectangle `SolidRect(1, 2, 3, 4, color::White)` of the tests. -/
def testRect : SolidRect := ⟨1, 2, 3, 4, white⟩

/-- The context of the test `DrawPixelsWithOffset`: the transformation
`translate(1, 2)` and the clip box `(3, 3, 7, 5)` on a 10 × 7 screen. -/
def translatedContext : DrawingContext :=
  { output := Output.device, front_to_back_writer_ := none, dx_ := 0, dy_ := 0,
    clip_box_ := ⟨3, 3, 7, 5⟩, write_once_ := false,
    fill_mode_ := FillMode.FILL_MODE_VISIBLE, paint_mode_ := PaintMode.PAINT_MODE_REPLACE,
    bgcolor_ := Color.Transparent, clip_mask_ := none, background_ := none,
    transformed_ := true, transformation_ := ⟨false, 1, 1, 1, 2⟩ }

/-- The grey `Color(0xFF000000 + 0x010101 * v)`. -/
def grey (v : ℕ) : Color := ⟨255, v, v, v⟩

/-- The nine `writePixel` calls of the test `DrawPixelsWithOffset`. -/
def testPixels : List (ℤ × ℤ × Color) :=
  [(4, 1, grey 34), (3, 2, grey 34), (4, 2, grey 51), (5, 2, grey 34), (2, 3, grey 34),
   (3, 3, grey 51), (4, 3, grey 68), (5, 3, grey 51), (6, 3, grey 34)]

/-- A `smallestEnclosingRect` that, for a transformation that only translates,
shifts the rectangle back by the offset. -/
def translationEnclosingRect (t : Transformation) (rect : Box) : Box :=
  rect.translate (-t.x_offset) (-t.y_offset)

/-- The black pixel buffer. -/
def blackBuffer : PixelBuffer := fun _ _ => ⟨255, 0, 0, 0⟩

/-! ## BackgroundFilter and ForegroundFilter -/

/-- Modelled from the spec: a rasterizable with bounded extents, as built by
`MakeRasterizable(bounds, getter, transparency)` in the filter tests. -/
structure Rasterizable where
  extents : Box
  getter : ℤ → ℤ → Color

/-- Modelled from the spec: the colour a filter samples from its raster at
`(x, y)`. The getter is called only for coordinates inside the extents; outside
them the raster counts as transparent. -/
def Rasterizable.colorAt (raster : Rasterizable) (x y : ℤ) : Color :=
  if raster.extents.containsPt x y then raster.getter x y else Color.Transparent

/-- Modelled from the spec: a filter that composites every written colour with
a colour that depends on the coordinate, and forwards the write with the same
paint mode. A pixel write stays a pixel write; a fill of a rectangle and a
stream of colours into an address window are forwarded as a stream of the
composited colours into the same window, in raster order. -/
def filterWrite (blend : ℤ → ℤ → Color → Color) : WriteOp → WriteOp
  | WriteOp.writePixel m x y c => WriteOp.writePixel m x y (blend x y c)
  | WriteOp.fillRect m box c =>
    WriteOp.write m box
      ((rasterPixels box.xMin box.yMin box.xMax box.yMax).map (fun p => blend p.1 p.2 c))
  | WriteOp.write m box colors =>
    WriteOp.write m box
      (List.zipWith (fun p c => blend p.1 p.2 c)
        (rasterPixels box.xMin box.yMin box.xMax box.yMax) colors)

/-- Modelled from the spec: `BackgroundFilter`, which composites the written
colour over the colour of the background raster at the same coordinate. -/
def BackgroundFilter.write (env : Env) (raster : Rasterizable) (op : WriteOp) : WriteOp :=
  filterWrite (fun x y c => env.AlphaBlend (raster.colorAt x y) c) op

/-- Modelled from the spec: `ForegroundFilter`, which composites the colour of
the foreground raster at the same coordinate over the written colour. -/
def ForegroundFilter.write (env : Env) (raster : Rasterizable) (op : WriteOp) : WriteOp :=
  filterWrite (fun x y c => env.AlphaBlend c (raster.colorAt x y)) op

/-- The method `SimpleRoundBg::writePixel` of `background_filter_test.cpp`, the
reference rule of the background filter, for a raster with the given extents
and getter: `bgcolor` is transparent unless the extents contain `(x, y)`, and
the pixel written is `AlphaBlend(bgcolor, color)`. -/
def SimpleRoundBg.writePixel (env : Env) (raster : Rasterizable) (mode : PaintMode)
    (x y : ℤ) (color : Color) : WriteOp :=
  let bgcolor :=
    if raster.extents.containsPt x y then raster.getter x y else Color.Transparent
  WriteOp.writePixel mode x y (env.AlphaBlend bgcolor color)

/-- The method `SimpleRoundFg::writePixel` of `foreground_filter_test.cpp`, the
reference rule of the foreground filter: `fgcolor` is transparent unless the
extents contain `(x, y)`, and the pixel written is `AlphaBlend(color, fgcolor)`. -/
def SimpleRoundFg.writePixel (env : Env) (raster : Rasterizable) (mode : PaintMode)
    (x y : ℤ) (color : Color) : WriteOp :=
  let fgcolor :=
    if raster.extents.containsPt x y then raster.getter x y else Color.Transparent
  WriteOp.writePixel mode x y (env.AlphaBlend color fgcolor)

/-- Modelled from the spec: the pixels of a write taken one at a time, with the
colour each receives, in the order the write visits them. A stream into an
address window reaches as many pixels as it has colours. -/
def WriteOp.pixels : WriteOp → List (ℤ × ℤ × Color)
  | WriteOp.writePixel _ x y c => [(x, y, c)]
  | WriteOp.fillRect _ box c =>
    (rasterPixels box.xMin box.yMin box.xMax box.yMax).map (fun p => (p.1, p.2, c))
  | WriteOp.write _ box colors =>
    List.zipWith (fun p c => (p.1, p.2, c))
      (rasterPixels box.xMin box.yMin box.xMax box.yMax) colors

/-- Modelled from the spec: the reference device of the filter tests, which
takes every write apart into its pixels and passes each through the reference
rule. -/
def referenceWrites (rule : PaintMode → ℤ → ℤ → Color → WriteOp) (ops : List WriteOp) :
    List WriteOp :=
  ops.flatMap (fun op => op.pixels.map (fun q => rule op.mode q.1 q.2.1 q.2.2))

/-- The colour that the first occurrence of pixel `q` in a list of pixels
receives when the colours of a stream are dealt to the pixels in order. -/
def lookupZip : List (ℤ × ℤ) → List Color → ℤ × ℤ → Option Color
  | p :: ps, c :: cs, q => if p = q then some c else lookupZip ps cs q
  | _, _, _ => none

/-- A raster with the extents `(1, 2, 16, 8)` of the filter tests: a grey
checkerboard, transparent on the odd squares. -/
def checkerRaster : Rasterizable :=
  ⟨⟨1, 2, 16, 8⟩, fun x y => if (x + y) % 2 = 0 then grey 119 else Color.Transparent⟩

/-- A half-transparent red. -/
def halfRed : Color := ⟨128, 255, 0, 0⟩

/-- One write of each kind, across the top left corner of the raster: a
rectangle fill, a pixel write and a stream of four colours into a 2 × 2
address window. -/
def mixedWrites : List WriteOp :=
  [WriteOp.fillRect PaintMode.PAINT_MODE_REPLACE ⟨0, 1, 2, 3⟩ halfRed,
   WriteOp.writePixel PaintMode.PAINT_MODE_REPLACE 3 2 halfRed,
   WriteOp.write PaintMode.PAINT_MODE_REPLACE ⟨0, 2, 1, 3⟩ [halfRed, blue, blue, halfRed]]

/-! ## Values converted to an 8-bit alpha, and further inputs -/

/-- The value that `getColorPreChecked` converts with `(uint8_t)` for the pixel
`(x, y)`, if it converts one. The branches are those of `getColorPreChecked`;
the three results are the arguments of its three `(uint8_t)` conversions. -/
def SmoothRoundRectShape.coverageValue (env : Env) (sh : SmoothRoundRectShape)
    (x y : ℤ) : Option ℚ :=
  let d_squared := distSq env sh.x0 sh.y0 sh.x1 sh.y1 x y
  let ri_squared_adjusted := env.fl (env.fl (sh.ri * sh.ri) + 1 / 4)
  if d_squared ≤ env.fl (env.fl (ri_squared_adjusted - sh.ri) - 1) then none
  else
    let r_squared_adjusted := env.fl (env.fl (sh.r * sh.r) + 1 / 4)
    if d_squared ≥ env.fl (r_squared_adjusted + sh.r) then none
    else
      let fully_within_outer : Bool :=
        decide (d_squared ≤ env.fl (r_squared_adjusted - sh.r))
      let fully_outside_inner : Bool :=
        decide (sh.r = sh.ri) || decide (d_squared ≥ env.fl (ri_squared_adjusted + sh.ri))
      if fully_within_outer && fully_outside_inner then none
      else
        let d := env.sqrtf d_squared
        if fully_outside_inner then
          some (env.fl (sh.outline_color.a * env.fl (env.fl (sh.r - d) + 1 / 2)))
        else if fully_within_outer then
          some (env.fl (sh.outline_color.a *
            env.fl (1 - env.fl (env.fl (sh.ri - d) + 1 / 2))))
        else
          some (env.fl (sh.outline_color.a *
            max 0 (env.fl (env.fl (env.fl (sh.r - d) + 1 / 2)
              - env.fl (env.fl (sh.ri - d) + 1 / 2)))))

/-- The number of pixels of a box; zero when the box is empty. -/
def Box.pixelCount (b : Box) : ℕ :=
  (b.xMax - b.xMin + 1).toNat * (b.yMax - b.yMin + 1).toNat

/-- A wedge along the row `y = 10`, from `(10, 10)` to `(20, 10)`, of half-width
3, opaque red; its extents are `[7, 23] × [7, 13]`. -/
def flatWedge : SmoothWedgeShape :=
  SmoothWedgeShape.make refEnv ⟨10, 10⟩ 3 ⟨20, 10⟩ 3 red

/-- A surface without offset whose clip box `[0, 100] × [0, 8]` ends above the
axis of `flatWedge`. -/
def topStripSurface : Surface :=
  ⟨0, 0, ⟨0, 0, 100, 8⟩, white, FillMode.FILL_MODE_VISIBLE, PaintMode.PAINT_MODE_REPLACE⟩

/-- A round rectangle with inner rectangle `[10, 20] × [10, 20]`, radii 4 and
2, a half-transparent red outline and an opaque blue interior. -/
def glazedShape : SmoothRoundRectShape :=
  SmoothRoundRectShape.make refEnv 10 10 20 20 4 2 halfRed blue

/-- A visible-only surface with a white background hint, clipped to the 8 × 8
box `[16, 23] × [8, 15]` at the right edge of `glazedShape`. -/
def rightEdgeSurface : Surface :=
  ⟨0, 0, ⟨16, 8, 23, 15⟩, white, FillMode.FILL_MODE_VISIBLE, PaintMode.PAINT_MODE_REPLACE⟩

/-- The same clip box in full-rectangle mode. -/
def rightEdgeRectSurface : Surface :=
  ⟨0, 0, ⟨16, 8, 23, 15⟩, white, FillMode.FILL_MODE_RECTANGLE, PaintMode.PAINT_MODE_REPLACE⟩

/-- The box of all `int16_t` coordinates. -/
def wholePlane : Box := ⟨-32768, -32768, 32767, 32767⟩

/-- The distance from the pixel `(xp, yp)` to the point `(ax, ay)` as
`getAlpha` computes it when `bax = bay = 0`: `sqrtf(dx * dx + dy * dy)` with
`dx = xp - ax`, `dy = yp - ay`, every operation rounded to `float`. -/
def pixelDistance (env : Env) (ax ay : ℚ) (xp yp : ℤ) : ℚ :=
  let dx := env.fl (env.fl xp - ax)
  let dy := env.fl (env.fl yp - ay)
  env.sqrtf (env.fl (env.fl (dx * dx) + env.fl (dy * dy)))

/-- The coverage of an antialiased disc of radius `w` at distance `rho` from
its centre, in `float` arithmetic: with `d = (w + 0.5) - rho` it is `max_alpha`
for `d ≥ 1`, 0 for `d ≤ 0`, and the integer part of `d * max_alpha` in between. -/
def discCoverage (env : Env) (w : ℚ) (max_alpha : ℕ) (rho : ℚ) : ℕ :=
  let d := env.fl (env.fl (w + 1 / 2) - rho)
  if 1 ≤ d then max_alpha else if d ≤ 0 then 0 else ⌊env.fl (d * max_alpha)⌋.toNat

/-- A degenerate wedge in a translucent colour: both endpoints at `(10, 10)`,
both half-widths 5.875, alpha 219. -/
def fadedDiscWedge : SmoothWedgeShape :=
  SmoothWedgeShape.make refEnv ⟨10, 10⟩ (47 / 8) ⟨10, 10⟩ (47 / 8) ⟨219, 255, 0, 0⟩

/-- A degenerate wedge whose right bound is rounded: both endpoints at
`(2.7f, 0)`, both half-widths `0.3f`, the binary32 numbers nearest to 2.7 and
0.3. Their exact sum is `3 + 2⁻²⁴`; the `float` sum is 3. -/
def roundedSumWedge : SmoothWedgeShape :=
  SmoothWedgeShape.make refEnv ⟨11324621 / 4194304, 0⟩ (5033165 / 16777216)
    ⟨11324621 / 4194304, 0⟩ (5033165 / 16777216) red

/-- The value that `getColorPreChecked` converts with `(uint8_t)` in the outer
antialiasing band, for a pixel at squared distance `d_squared`:
`outline_color_.a() * (r_ - sqrtf(d_squared) + 0.5f)`. -/
def SmoothRoundRectShape.outerCoverage (env : Env) (sh : SmoothRoundRectShape)
    (d_squared : ℚ) : ℚ :=
  env.fl (sh.outline_color.a * env.fl (env.fl (sh.r - env.sqrtf d_squared) + 1 / 2))

/-- An untransformed context without filters whose clip box `[0, 100] × [0, 8]`
ends above the axis of `flatWedge`. -/
def stripContext : DrawingContext :=
  { output := Output.device, front_to_back_writer_ := none, dx_ := 0, dy_ := 0,
    clip_box_ := ⟨0, 0, 100, 8⟩, write_once_ := false,
    fill_mode_ := FillMode.FILL_MODE_VISIBLE, paint_mode_ := PaintMode.PAINT_MODE_REPLACE,
    bgcolor_ := white, clip_mask_ := none, background_ := none,
    transformed_ := false, transformation_ := identityTransformation }

/-- A full-rectangle surface without offset whose clip box is the box of all
`int16_t` coordinates. -/
def unclippedSurface : Surface :=
  ⟨0, 0, wholePlane, white, FillMode.FILL_MODE_RECTANGLE, PaintMode.PAINT_MODE_REPLACE⟩

/-- A round rectangle that spans the coordinate range: inner rectangle
`[-32760, 32759] × [-32760, 32759]`, radii 8 and 4; its extents are the box of
all `int16_t` coordinates. -/
def planeShape : SmoothRoundRectShape :=
  SmoothRoundRectShape.make refEnv (-32760) (-32760) 32759 32759 8 4 red blue

/-- A small round rectangle at the right edge of the coordinate range: inner
rectangle `[32765, 32766] × [5, 5]`, radii 1 and 0; its extents are
`[32764, 32767] × [4, 6]`, 12 pixels. -/
def rightmostShape : SmoothRoundRectShape :=
  SmoothRoundRectShape.make refEnv 32765 5 32766 5 1 0 red blue

/-! # Properties -/

/-! ## Box arithmetic -/

theorem Box.empty_intersect_translate (e c : Box) (dx dy : ℤ) :
    (Box.Intersect e (c.translate (-dx) (-dy))).empty =
      (Box.Intersect (e.translate dx dy) c).empty := by
  simp only [Box.empty, Box.Intersect, Box.translate]
  congr 1 <;> (apply decide_eq_decide.mpr; constructor <;> intro h <;> omega)

/-! ## Integer conversions -/

theorem toInt16_of_fits (z : ℤ) (h : fitsInt16 z) : toInt16 z = z := by
  obtain ⟨h1, h2⟩ := h
  unfold toInt16
  omega

theorem toInt16_toInt32 (z : ℤ) : toInt16 (toInt32 z) = toInt16 z := by
  unfold toInt16 toInt32
  omega

/-! ## Binary floating-point rounding -/

theorem ilog2Aux_spec (n : ℕ) : ∀ (k acc : ℕ), 2 ^ acc ≤ n → n < 2 ^ (acc + 2 ^ k) →
    2 ^ ilog2Aux n k acc ≤ n ∧ n < 2 ^ (ilog2Aux n k acc + 1) := by
  intro k
  induction k with
  | zero =>
    intro acc h1 h2
    simpa [ilog2Aux] using And.intro h1 h2
  | succ k ih =>
    intro acc h1 h2
    unfold ilog2Aux
    split
    · rename_i h
      apply ih (acc + 2 ^ k) h
      have : acc + 2 ^ k + 2 ^ k = acc + 2 ^ (k + 1) := by rw [pow_succ]; omega
      rw [this]; exact h2
    · rename_i h
      exact ih acc h1 (not_le.mp h)

theorem ilog2_spec (n : ℕ) (hn : 0 < n) : 2 ^ ilog2 n ≤ n ∧ n < 2 ^ (ilog2 n + 1) := by
  unfold ilog2
  split
  · rename_i h
    apply ilog2Aux_spec n 6 0 (by simpa using hn)
    have : 0 + 2 ^ 6 = 64 := by norm_num
    rw [this]; exact h
  · split
    · rename_i h
      apply ilog2Aux_spec n 9 0 (by simpa using hn)
      have : 0 + 2 ^ 9 = 512 := by norm_num
      rw [this]; exact h
    · split
      · rename_i h
        apply ilog2Aux_spec n 11 0 (by simpa using hn)
        have : 0 + 2 ^ 11 = 2048 := by norm_num
        rw [this]; exact h
      · exact ⟨Nat.log2_self_le (by omega), Nat.lt_log2_self⟩

theorem pow2_eq (e : ℤ) : pow2 e = (2 : ℚ) ^ e := by
  unfold pow2
  split
  · rename_i h
    obtain ⟨n, rfl⟩ := Int.eq_ofNat_of_zero_le h
    simp
  · rename_i h
    obtain ⟨n, hn⟩ := Int.eq_ofNat_of_zero_le (show 0 ≤ -e by omega)
    have he : e = -(n : ℤ) := by omega
    subst he
    simp

theorem pow2_pos (e : ℤ) : 0 < pow2 e := by
  rw [pow2_eq]
  exact zpow_pos (by norm_num) e

theorem pow2_add (a b : ℤ) : pow2 (a + b) = pow2 a * pow2 b := by
  simp only [pow2_eq]
  exact zpow_add₀ (by norm_num) a b

theorem pow2_mono (a b : ℤ) (h : a ≤ b) : pow2 a ≤ pow2 b := by
  simp only [pow2_eq]
  exact zpow_le_zpow_right₀ (by norm_num) h

theorem pow2_natCast (n : ℕ) : pow2 (n : ℤ) = (((2 : ℤ) ^ n : ℤ) : ℚ) := by
  rw [pow2_eq]
  simp

theorem pow2_sub_natCast (a b : ℕ) : pow2 ((a : ℤ) - (b : ℤ)) = (2 : ℚ) ^ a / (2 : ℚ) ^ b := by
  rw [pow2_eq, zpow_sub₀ (by norm_num : (2 : ℚ) ≠ 0), zpow_natCast, zpow_natCast]

theorem floorLog2_spec (a b : ℕ) (ha0 : 0 < a) (hb0 : 0 < b) :
    pow2 (floorLog2 a b) ≤ (a : ℚ) / (b : ℚ) ∧ (a : ℚ) / (b : ℚ) < pow2 (floorLog2 a b + 1) := by
  obtain ⟨a1, a2⟩ := ilog2_spec a ha0
  obtain ⟨b1, b2⟩ := ilog2_spec b hb0
  unfold floorLog2
  simp only []
  generalize ilog2 a = la at a1 a2 ⊢
  generalize ilog2 b = lb at b1 b2 ⊢
  have a1' : (2 : ℚ) ^ la ≤ (a : ℚ) := by exact_mod_cast a1
  have a2' : (a : ℚ) < (2 : ℚ) ^ (la + 1) := by exact_mod_cast a2
  have b1' : (2 : ℚ) ^ lb ≤ (b : ℚ) := by exact_mod_cast b1
  have b2' : (b : ℚ) < (2 : ℚ) ^ (lb + 1) := by exact_mod_cast b2
  have hbq : (0 : ℚ) < (b : ℚ) := by exact_mod_cast hb0
  have haq : (0 : ℚ) < (a : ℚ) := by exact_mod_cast ha0
  have hpa : (0 : ℚ) < (2 : ℚ) ^ la := by positivity
  have hpb : (0 : ℚ) < (2 : ℚ) ^ lb := by positivity
  have hup : (a : ℚ) / (b : ℚ) < pow2 ((la : ℤ) - (lb : ℤ) + 1) := by
    have e : ((la : ℤ) - (lb : ℤ) + 1) = (((la + 1 : ℕ) : ℤ) - (lb : ℤ)) := by push_cast; ring
    rw [e, pow2_sub_natCast, div_lt_div_iff₀ hbq hpb]
    calc (a : ℚ) * 2 ^ lb ≤ (a : ℚ) * b := mul_le_mul_of_nonneg_left b1' haq.le
      _ < 2 ^ (la + 1) * (b : ℚ) := mul_lt_mul_of_pos_right a2' hbq
  have hlo : pow2 ((la : ℤ) - (lb : ℤ) - 1) ≤ (a : ℚ) / (b : ℚ) := by
    have e : ((la : ℤ) - (lb : ℤ) - 1) = ((la : ℤ) - ((lb + 1 : ℕ) : ℤ)) := by push_cast; ring
    have hpb1 : (0 : ℚ) < (2 : ℚ) ^ (lb + 1) := by positivity
    rw [e, pow2_sub_natCast, div_le_div_iff₀ hpb1 hbq]
    calc (2 : ℚ) ^ la * b ≤ (a : ℚ) * b := mul_le_mul_of_nonneg_right a1' hbq.le
      _ ≤ (a : ℚ) * 2 ^ (lb + 1) := mul_le_mul_of_nonneg_left b2'.le haq.le
  -- the comparison in the natural numbers decides `2 ^ e0 ≤ a / b`
  have htest : (if 0 ≤ (la : ℤ) - (lb : ℤ)
      then decide (2 ^ ((la : ℤ) - (lb : ℤ)).toNat * b ≤ a)
      else decide (b ≤ a * 2 ^ (-((la : ℤ) - (lb : ℤ))).toNat)) = true
      ↔ pow2 ((la : ℤ) - (lb : ℤ)) ≤ (a : ℚ) / (b : ℚ) := by
    unfold pow2
    split
    · rw [decide_eq_true_eq, le_div_iff₀ hbq]
      constructor
      · intro h
        exact_mod_cast h
      · intro h
        exact_mod_cast h
    · rw [decide_eq_true_eq, div_le_div_iff₀ (by positivity) hbq, one_mul]
      constructor
      · intro h
        exact_mod_cast h
      · intro h
        exact_mod_cast h
  generalize (if 0 ≤ (la : ℤ) - (lb : ℤ)
      then decide (2 ^ ((la : ℤ) - (lb : ℤ)).toNat * b ≤ a)
      else decide (b ≤ a * 2 ^ (-((la : ℤ) - (lb : ℤ))).toNat)) = reached at htest ⊢
  cases reached with
  | true =>
    simp only [if_true]
    exact ⟨htest.mp rfl, hup⟩
  | false =>
    simp only [Bool.false_eq_true, if_false]
    refine ⟨hlo, ?_⟩
    have e : ((la : ℤ) - (lb : ℤ) - 1 + 1) = (la : ℤ) - (lb : ℤ) := by ring
    rw [e]
    exact not_le.mp (fun hc => Bool.noConfusion (htest.mpr hc))

theorem eq_natAbs_div_den (q : ℚ) (hq : 0 ≤ q) : q = (q.num.natAbs : ℚ) / (q.den : ℚ) := by
  have hnum : 0 ≤ q.num := Rat.num_nonneg.mpr hq
  have h2 : (q.num.natAbs : ℚ) = (q.num : ℚ) := by
    rw [Nat.cast_natAbs, abs_of_nonneg hnum]
  rw [h2]
  exact (Rat.num_div_den q).symm

theorem binade_ge (q : ℚ) (lo : ℤ) (n : ℕ) : lo ≤ binade q lo n := by
  unfold binade
  split
  · exact le_refl _
  · exact le_max_left _ _

theorem binade_le (q : ℚ) (lo : ℤ) (n : ℕ) : binade q lo n ≤ lo + (n : ℤ) := by
  unfold binade
  split
  · omega
  · apply max_le
    · omega
    · exact min_le_right _ _

theorem binade_neg (q : ℚ) (lo : ℤ) (n : ℕ) : binade (-q) lo n = binade q lo n := by
  unfold binade
  simp only [Rat.neg_num, Rat.neg_den, Int.natAbs_neg, neg_eq_zero]

theorem pow2_binade_le (q : ℚ) (hq : 0 ≤ q) (lo : ℤ) (n : ℕ) (h : lo < binade q lo n) :
    pow2 (binade q lo n) ≤ q := by
  unfold binade at h ⊢
  split
  · rename_i h0
    rw [if_pos h0] at h
    exact absurd h (lt_irrefl _)
  · rename_i h0
    rw [if_neg h0] at h
    have hnum : 0 < q.num := lt_of_le_of_ne (Rat.num_nonneg.mpr hq) (Ne.symm h0)
    have s := (floorLog2_spec q.num.natAbs q.den (Int.natAbs_pos.mpr h0) q.den_pos).1
    rw [← eq_natAbs_div_den q hq] at s
    generalize floorLog2 q.num.natAbs q.den = e at s h ⊢
    have h1 : max lo (min e (lo + (n : ℤ))) ≤ e := by
      rcases le_total lo (min e (lo + (n : ℤ))) with hl | hl
      · rw [max_eq_right hl]; exact min_le_left _ _
      · rw [max_eq_left hl] at h; exact absurd h (lt_irrefl _)
    exact le_trans (pow2_mono _ _ h1) s

theorem lt_pow2_binade (q : ℚ) (hq : 0 ≤ q) (lo : ℤ) (n : ℕ)
    (h : binade q lo n < lo + (n : ℤ)) : q < pow2 (binade q lo n + 1) := by
  unfold binade at h ⊢
  split
  · rename_i h0
    have : q = 0 := Rat.zero_of_num_zero h0
    rw [this]
    exact pow2_pos _
  · rename_i h0
    rw [if_neg h0] at h
    have s := (floorLog2_spec q.num.natAbs q.den (Int.natAbs_pos.mpr h0) q.den_pos).2
    rw [← eq_natAbs_div_den q hq] at s
    generalize floorLog2 q.num.natAbs q.den = e at s h ⊢
    have h1 : e ≤ max lo (min e (lo + (n : ℤ))) := by
      have h2 : min e (lo + (n : ℤ)) < lo + (n : ℤ) := lt_of_le_of_lt (le_max_right _ _) h
      have h3 : min e (lo + (n : ℤ)) = e := by
        rcases le_total e (lo + (n : ℤ)) with hl | hl
        · exact min_eq_left hl
        · rw [min_eq_right hl] at h2; exact absurd h2 (lt_irrefl _)
      calc e = min e (lo + (n : ℤ)) := h3.symm
        _ ≤ _ := le_max_right _ _
    exact lt_of_lt_of_le s (pow2_mono _ _ (by omega))

theorem binade_unique (q : ℚ) (hq : 0 ≤ q) (lo : ℤ) (n : ℕ) (e : ℤ) (h1 : lo ≤ e)
    (h2 : e ≤ lo + (n : ℤ)) (h3 : lo < e → pow2 e ≤ q) (h4 : e < lo + (n : ℤ) → q < pow2 (e + 1)) :
    binade q lo n = e := by
  have g1 := binade_ge q lo n
  have g2 := binade_le q lo n
  rcases lt_trichotomy (binade q lo n) e with hlt | heq | hgt
  · exfalso
    have a := lt_pow2_binade q hq lo n (by omega)
    have b := h3 (by omega)
    have c := pow2_mono (binade q lo n + 1) e (by omega)
    linarith
  · exact heq
  · exfalso
    have a := h4 (by omega)
    have b := pow2_binade_le q hq lo n (by omega)
    have c := pow2_mono (e + 1) (binade q lo n) (by omega)
    linarith

theorem binade_mono (q1 q2 : ℚ) (hq : 0 ≤ q1) (lo : ℤ) (n : ℕ) (h : q1 ≤ q2) :
    binade q1 lo n ≤ binade q2 lo n := by
  by_contra hc
  push_neg at hc
  have g1 := binade_ge q2 lo n
  have g2 := binade_le q1 lo n
  have a := pow2_binade_le q1 hq lo n (by omega)
  have b := lt_pow2_binade q2 (le_trans hq h) lo n (by omega)
  have c := pow2_mono (binade q2 lo n + 1) (binade q1 lo n) (by omega)
  linarith

theorem rne_intCast (n : ℤ) : rne (n : ℚ) = n := by
  unfold rne
  simp

theorem floor_le_rne (x : ℚ) : ⌊x⌋ ≤ rne x := by
  unfold rne
  split_ifs <;> omega

theorem rne_le_floor_add_one (x : ℚ) : rne x ≤ ⌊x⌋ + 1 := by
  unfold rne
  split_ifs <;> omega

theorem rne_mono (x y : ℚ) (h : x ≤ y) : rne x ≤ rne y := by
  have hf : ⌊x⌋ ≤ ⌊y⌋ := Int.floor_mono h
  rcases lt_or_eq_of_le hf with hlt | heq
  · have h1 := rne_le_floor_add_one x
    have h2 := floor_le_rne y
    omega
  · unfold rne
    rw [← heq]
    split_ifs <;> first | omega | linarith

theorem rne_nonneg (x : ℚ) (h : 0 ≤ x) : 0 ≤ rne x := by
  have := rne_mono 0 x h
  have h0 : rne 0 = 0 := by
    have := rne_intCast 0
    simpa using this
  omega

theorem ulp_pos (p : ℕ) (emin : ℤ) (span : ℕ) (q : ℚ) : 0 < ulp p emin span q :=
  pow2_pos _

theorem ulp_neg (p : ℕ) (emin : ℤ) (span : ℕ) (q : ℚ) :
    ulp p emin span (-q) = ulp p emin span q := by
  unfold ulp
  rw [binade_neg]

/-- On a quotient of natural numbers `rne` is `rneNat`. -/
theorem rne_natCast_div (N D : ℕ) (hD : 0 < D) :
    rne ((N : ℚ) / (D : ℚ)) = (rneNat N D : ℤ) := by
  have hDq : (0 : ℚ) < (D : ℚ) := by exact_mod_cast hD
  have hfl : ⌊(N : ℚ) / (D : ℚ)⌋ = ((N / D : ℕ) : ℤ) := by
    rw [Rat.floor_natCast_div_natCast]
    push_cast
    rfl
  have hfr : (N : ℚ) / (D : ℚ) - ((N / D : ℕ) : ℤ) = ((N % D : ℕ) : ℚ) / (D : ℚ) := by
    have h := Nat.div_add_mod N D
    have h' : (N : ℚ) = (D : ℚ) * ((N / D : ℕ) : ℚ) + ((N % D : ℕ) : ℚ) := by exact_mod_cast h.symm
    have hc : (((N / D : ℕ) : ℤ) : ℚ) = ((N / D : ℕ) : ℚ) := Int.cast_natCast _
    rw [hc, eq_div_iff (ne_of_gt hDq), sub_mul, div_mul_cancel₀ _ (ne_of_gt hDq)]
    linear_combination h'
  have c1 : ((N % D : ℕ) : ℚ) / (D : ℚ) < 1 / 2 ↔ 2 * (N % D) < D := by
    rw [div_lt_div_iff₀ hDq (by norm_num)]
    constructor
    · intro h
      have : ((2 * (N % D) : ℕ) : ℚ) < ((D : ℕ) : ℚ) := by push_cast; linarith
      exact_mod_cast this
    · intro h
      have : ((2 * (N % D) : ℕ) : ℚ) < ((D : ℕ) : ℚ) := by exact_mod_cast h
      push_cast at this
      linarith
  have c2 : 1 / 2 < ((N % D : ℕ) : ℚ) / (D : ℚ) ↔ D < 2 * (N % D) := by
    rw [div_lt_div_iff₀ (by norm_num) hDq]
    constructor
    · intro h
      have : ((D : ℕ) : ℚ) < ((2 * (N % D) : ℕ) : ℚ) := by push_cast; linarith
      exact_mod_cast this
    · intro h
      have : ((D : ℕ) : ℚ) < ((2 * (N % D) : ℕ) : ℚ) := by exact_mod_cast h
      push_cast at this
      linarith
  unfold rne rneNat
  rw [hfl, hfr]
  by_cases h1 : 2 * (N % D) < D
  · rw [if_pos (c1.mpr h1), if_pos h1]
  · rw [if_neg (fun hc => h1 (c1.mp hc)), if_neg h1]
    by_cases h2 : D < 2 * (N % D)
    · rw [if_pos (c2.mpr h2), if_pos h2]
      push_cast
      rfl
    · rw [if_neg (fun hc => h2 (c2.mp hc)), if_neg h2]
      by_cases h3 : (N / D) % 2 = 0
      · rw [if_pos h3, if_pos (by omega)]
      · rw [if_neg h3, if_neg (by omega)]
        push_cast
        rfl

theorem roundBinary_of_nonneg (p : ℕ) (emin : ℤ) (span : ℕ) (q : ℚ) (h : 0 ≤ q) :
    roundBinary p emin span q
      = (rne (q / ulp p emin span q) : ℚ) * ulp p emin span q := by
  have hnum : 0 ≤ q.num := Rat.num_nonneg.mpr h
  have hq := eq_natAbs_div_den q h
  have hd : (0 : ℚ) < (q.den : ℚ) := by exact_mod_cast q.den_pos
  unfold roundBinary ulp
  simp only [if_pos hnum]
  generalize binade q emin span - ((p : ℤ) - 1) = k
  generalize q.num.natAbs = n at hq
  generalize hdd : q.den = d at hq hd
  have hd0 : 0 < d := by exact_mod_cast hd
  by_cases hk : 0 ≤ k
  · rw [if_pos hk]
    obtain ⟨j, rfl⟩ := Int.eq_ofNat_of_zero_le hk
    have hu : pow2 ((j : ℕ) : ℤ) = ((2 ^ j : ℕ) : ℚ) := by
      rw [pow2_natCast]
      push_cast
      rfl
    have hx : q / pow2 ((j : ℕ) : ℤ) = (n : ℚ) / ((d * 2 ^ j : ℕ) : ℚ) := by
      rw [hu, hq, div_div]
      push_cast
      rfl
    rw [hx, rne_natCast_div _ _ (Nat.mul_pos hd0 (by positivity)), hu]
    simp only [Int.toNat_ofNat]
    push_cast
    rfl
  · rw [if_neg hk]
    obtain ⟨j, hj⟩ := Int.eq_ofNat_of_zero_le (show 0 ≤ -k by omega)
    have hkj : k = -(j : ℤ) := by omega
    subst hkj
    have hu : pow2 (-(j : ℤ)) = 1 / ((2 ^ j : ℕ) : ℚ) := by
      rw [pow2_eq, zpow_neg, zpow_natCast]
      push_cast
      rw [one_div]
    have hpos : (0 : ℚ) < ((2 ^ j : ℕ) : ℚ) := by positivity
    have hx : q / pow2 (-(j : ℤ)) = ((n * 2 ^ j : ℕ) : ℚ) / (d : ℚ) := by
      rw [hu, hq]
      push_cast
      field_simp
    rw [hx, rne_natCast_div _ _ hd0, hu, Rat.mkRat_eq_div]
    simp only [neg_neg, Int.toNat_ofNat]
    push_cast
    rw [mul_one_div]

theorem roundBinary_neg (p : ℕ) (emin : ℤ) (span : ℕ) (q : ℚ) :
    roundBinary p emin span (-q) = -roundBinary p emin span q := by
  unfold roundBinary
  simp only [binade_neg, Rat.neg_num, Rat.neg_den, Int.natAbs_neg]
  rcases lt_trichotomy q.num 0 with h | h | h
  · have h1 : (0 : ℤ) ≤ -q.num := by omega
    have h2 : ¬ (0 : ℤ) ≤ q.num := by omega
    rw [if_pos h1, if_neg h2, neg_neg]
  · have hz : q.num.natAbs = 0 := by omega
    have h1 : (0 : ℤ) ≤ -q.num := by omega
    have h2 : (0 : ℤ) ≤ q.num := by omega
    rw [if_pos h1, if_pos h2, hz]
    simp [rneNat]
  · have h1 : ¬ (0 : ℤ) ≤ -q.num := by omega
    have h2 : (0 : ℤ) ≤ q.num := by omega
    rw [if_neg h1, if_pos h2]

theorem roundBinary_of_neg (p : ℕ) (emin : ℤ) (span : ℕ) (q : ℚ) (_h : q < 0) :
    roundBinary p emin span q = -roundBinary p emin span (-q) := by
  rw [roundBinary_neg, neg_neg]

/-- The rounding is to the nearest multiple of the unit in the last place,
ties to even. -/
theorem roundBinary_eq (p : ℕ) (emin : ℤ) (span : ℕ) (q : ℚ) :
    roundBinary p emin span q
      = if 0 ≤ q then (rne (q / ulp p emin span q) : ℚ) * ulp p emin span q
        else -((rne (-q / ulp p emin span q) : ℚ) * ulp p emin span q) := by
  split
  · rename_i h
    exact roundBinary_of_nonneg p emin span q h
  · rename_i h
    rw [roundBinary_of_neg p emin span q (not_le.mp h),
      roundBinary_of_nonneg p emin span (-q) (by linarith [not_le.mp h]), ulp_neg]

theorem roundBinary_nonneg (p : ℕ) (emin : ℤ) (span : ℕ) (q : ℚ) (h : 0 ≤ q) :
    0 ≤ roundBinary p emin span q := by
  rw [roundBinary_of_nonneg p emin span q h]
  have hu := ulp_pos p emin span q
  have hr : (0 : ℤ) ≤ rne (q / ulp p emin span q) := rne_nonneg _ (div_nonneg h hu.le)
  have hr' : (0 : ℚ) ≤ (rne (q / ulp p emin span q) : ℚ) := by exact_mod_cast hr
  exact mul_nonneg hr' hu.le

/-- In the binade `b` of `q ≥ 0` the significand `q / ulp` is at least
`2 ^ (p - 1)` (unless `b` is the lowest exponent) and below `2 ^ p` (unless `b`
is the highest). -/
theorem significand_bounds (p : ℕ) (hp : 1 ≤ p) (emin : ℤ) (span : ℕ) (q : ℚ) (h : 0 ≤ q) :
    (emin < binade q emin span →
        ((((2 : ℤ) ^ (p - 1) : ℤ) : ℚ)) ≤ q / ulp p emin span q) ∧
      (binade q emin span < emin + (span : ℤ) →
        q / ulp p emin span q < ((((2 : ℤ) ^ p : ℤ) : ℚ))) := by
  have hu := ulp_pos p emin span q
  have hude : ulp p emin span q = pow2 (binade q emin span - ((p : ℤ) - 1)) := rfl
  have e1 : pow2 (binade q emin span)
      = ((((2 : ℤ) ^ (p - 1) : ℤ) : ℚ)) * ulp p emin span q := by
    rw [hude, ← pow2_natCast, ← pow2_add]
    congr 1
    have : ((p - 1 : ℕ) : ℤ) = (p : ℤ) - 1 := by omega
    omega
  have e2 : pow2 (binade q emin span + 1)
      = ((((2 : ℤ) ^ p : ℤ) : ℚ)) * ulp p emin span q := by
    rw [hude, ← pow2_natCast, ← pow2_add]
    congr 1
    omega
  constructor
  · intro hb
    have := pow2_binade_le q h emin span hb
    rw [e1] at this
    exact (le_div_iff₀ hu).mpr this
  · intro hb
    have := lt_pow2_binade q h emin span hb
    rw [e2] at this
    exact (div_lt_iff₀ hu).mpr this

theorem roundBinary_mono_of_nonneg (p : ℕ) (hp : 1 ≤ p) (emin : ℤ) (span : ℕ) (q1 q2 : ℚ)
    (h1 : 0 ≤ q1) (h12 : q1 ≤ q2) :
    roundBinary p emin span q1 ≤ roundBinary p emin span q2 := by
  have h2 : 0 ≤ q2 := le_trans h1 h12
  rw [roundBinary_of_nonneg p emin span q1 h1, roundBinary_of_nonneg p emin span q2 h2]
  have hb := binade_mono q1 q2 h1 emin span h12
  have hu1 := ulp_pos p emin span q1
  have hu2 := ulp_pos p emin span q2
  have hd1 : ulp p emin span q1 = pow2 (binade q1 emin span - ((p : ℤ) - 1)) := rfl
  have hd2 : ulp p emin span q2 = pow2 (binade q2 emin span - ((p : ℤ) - 1)) := rfl
  rcases lt_or_eq_of_le hb with hlt | heq
  · -- different binades: the first result is at most `2 ^ (b1 + 1)`, the second at least `2 ^ b2`
    have s1 := (significand_bounds p hp emin span q1 h1).2
      (by have := binade_le q2 emin span; omega)
    have s2 := (significand_bounds p hp emin span q2 h2).1
      (by have := binade_ge q1 emin span; omega)
    have r1 : rne (q1 / ulp p emin span q1) ≤ (2 : ℤ) ^ p := by
      have := rne_mono _ _ s1.le
      rwa [rne_intCast] at this
    have r2 : (2 : ℤ) ^ (p - 1) ≤ rne (q2 / ulp p emin span q2) := by
      have := rne_mono _ _ s2
      rwa [rne_intCast] at this
    have r1' : (rne (q1 / ulp p emin span q1) : ℚ) ≤ (((2 : ℤ) ^ p : ℤ) : ℚ) := by
      exact_mod_cast r1
    have r2' : ((((2 : ℤ) ^ (p - 1) : ℤ) : ℚ)) ≤ (rne (q2 / ulp p emin span q2) : ℚ) := by
      exact_mod_cast r2
    have a1 : (rne (q1 / ulp p emin span q1) : ℚ) * ulp p emin span q1
        ≤ pow2 (binade q1 emin span + 1) := by
      have e : pow2 (binade q1 emin span + 1)
          = ((((2 : ℤ) ^ p : ℤ) : ℚ)) * ulp p emin span q1 := by
        rw [hd1, ← pow2_natCast, ← pow2_add]
        congr 1
        omega
      rw [e]
      exact mul_le_mul_of_nonneg_right r1' hu1.le
    have a2 : pow2 (binade q2 emin span)
        ≤ (rne (q2 / ulp p emin span q2) : ℚ) * ulp p emin span q2 := by
      have e : pow2 (binade q2 emin span)
          = ((((2 : ℤ) ^ (p - 1) : ℤ) : ℚ)) * ulp p emin span q2 := by
        rw [hd2, ← pow2_natCast, ← pow2_add]
        congr 1
        have : ((p - 1 : ℕ) : ℤ) = (p : ℤ) - 1 := by omega
        omega
      rw [e]
      exact mul_le_mul_of_nonneg_right r2' hu2.le
    have a3 := pow2_mono (binade q1 emin span + 1) (binade q2 emin span) (by omega)
    linarith
  · have hu : ulp p emin span q1 = ulp p emin span q2 := by rw [hd1, hd2, heq]
    rw [hu]
    have hq : q1 / ulp p emin span q2 ≤ q2 / ulp p emin span q2 :=
      div_le_div_of_nonneg_right h12 hu2.le
    have hr := rne_mono _ _ hq
    have hr' : (rne (q1 / ulp p emin span q2) : ℚ) ≤ (rne (q2 / ulp p emin span q2) : ℚ) := by
      exact_mod_cast hr
    exact mul_le_mul_of_nonneg_right hr' hu2.le

theorem roundBinary_mono (p : ℕ) (hp : 1 ≤ p) (emin : ℤ) (span : ℕ) (q1 q2 : ℚ)
    (h12 : q1 ≤ q2) : roundBinary p emin span q1 ≤ roundBinary p emin span q2 := by
  by_cases h1 : 0 ≤ q1
  · exact roundBinary_mono_of_nonneg p hp emin span q1 q2 h1 h12
  · push_neg at h1
    rw [roundBinary_of_neg p emin span q1 h1]
    by_cases h2 : 0 ≤ q2
    · have a := roundBinary_nonneg p emin span (-q1) (by linarith)
      have b := roundBinary_nonneg p emin span q2 h2
      linarith
    · push_neg at h2
      rw [roundBinary_of_neg p emin span q2 h2]
      have := roundBinary_mono_of_nonneg p hp emin span (-q2) (-q1) (by linarith) (by linarith)
      linarith

theorem roundBinary_zero (p : ℕ) (emin : ℤ) (span : ℕ) : roundBinary p emin span 0 = 0 := by
  rw [roundBinary_of_nonneg p emin span 0 (le_refl _)]
  have h0 : rne ((0 : ℚ) / ulp p emin span 0) = 0 := by
    rw [zero_div]
    have := rne_intCast 0
    simpa using this
  rw [h0]
  simp

/-- A multiple of its own unit in the last place is left unchanged. -/
theorem roundBinary_of_multiple (p : ℕ) (emin : ℤ) (span : ℕ) (q : ℚ) (k : ℤ)
    (hq : 0 ≤ q) (h : q = (k : ℚ) * ulp p emin span q) : roundBinary p emin span q = q := by
  rw [roundBinary_of_nonneg p emin span q hq]
  have hu := ulp_pos p emin span q
  have hd : q / ulp p emin span q = (k : ℚ) := by
    rw [div_eq_iff (ne_of_gt hu)]
    exact h
  rw [hd, rne_intCast]
  exact h.symm

theorem ulp_eq_of_binade (p : ℕ) (emin : ℤ) (span : ℕ) (q : ℚ) (b : ℤ)
    (hb : binade q emin span = b) : ulp p emin span q = pow2 (b - ((p : ℤ) - 1)) := by
  unfold ulp
  rw [hb]

theorem pow2_succ (e : ℤ) : pow2 (e + 1) = 2 * pow2 e := by
  rw [pow2_add]
  have : pow2 1 = 2 := by
    rw [pow2_eq]
    norm_num
  rw [this, mul_comm]

theorem roundBinary_idem_of_nonneg (p : ℕ) (hp : 1 ≤ p) (emin : ℤ) (span : ℕ) (q : ℚ)
    (hq : 0 ≤ q) :
    roundBinary p emin span (roundBinary p emin span q) = roundBinary p emin span q := by
  have hr0 := roundBinary_nonneg p emin span q hq
  have hr := roundBinary_of_nonneg p emin span q hq
  have hu := ulp_pos p emin span q
  have hud := ulp_eq_of_binade p emin span q _ rfl
  obtain ⟨s1, s2⟩ := significand_bounds p hp emin span q hq
  have g1 := binade_ge q emin span
  have g2 := binade_le q emin span
  generalize hk : rne (q / ulp p emin span q) = k at hr
  generalize hbq : binade q emin span = b at hud s1 s2 g1 g2
  generalize ulp p emin span q = u at hr hu hud s1 s2 hk
  generalize roundBinary p emin span q = r at hr hr0 ⊢
  have e1 : pow2 b = ((((2 : ℤ) ^ (p - 1) : ℤ) : ℚ)) * u := by
    rw [hud, ← pow2_natCast, ← pow2_add]
    congr 1
    have : ((p - 1 : ℕ) : ℤ) = (p : ℤ) - 1 := by omega
    omega
  have e2 : pow2 (b + 1) = ((((2 : ℤ) ^ p : ℤ) : ℚ)) * u := by
    rw [hud, ← pow2_natCast, ← pow2_add]
    congr 1
    omega
  have k1 : emin < b → (2 : ℤ) ^ (p - 1) ≤ k := by
    intro hb
    have := rne_mono _ _ (s1 hb)
    rwa [rne_intCast, hk] at this
  have k2 : b < emin + (span : ℤ) → k ≤ (2 : ℤ) ^ p := by
    intro hb
    have := rne_mono _ _ (s2 hb).le
    rwa [rne_intCast, hk] at this
  by_cases hc : b < emin + (span : ℤ) ∧ k = (2 : ℤ) ^ p
  · obtain ⟨hb, hkp⟩ := hc
    have hrp : r = pow2 (b + 1) := by rw [hr, hkp, e2]
    have hbr : binade r emin span = b + 1 := by
      apply binade_unique r hr0 emin span (b + 1) (by omega) (by omega)
      · intro _
        rw [hrp]
      · intro _
        rw [hrp]
        have := pow2_succ (b + 1)
        have := pow2_pos (b + 1)
        linarith
    have hur := ulp_eq_of_binade p emin span r _ hbr
    apply roundBinary_of_multiple p emin span r ((2 : ℤ) ^ (p - 1)) hr0
    rw [hur, hrp]
    rw [← pow2_natCast, ← pow2_add]
    congr 1
    have : ((p - 1 : ℕ) : ℤ) = (p : ℤ) - 1 := by omega
    omega
  · have hbr : binade r emin span = b := by
      apply binade_unique r hr0 emin span b g1 g2
      · intro hb
        rw [hr, e1]
        have : ((((2 : ℤ) ^ (p - 1) : ℤ) : ℚ)) ≤ (k : ℚ) := by exact_mod_cast k1 hb
        exact mul_le_mul_of_nonneg_right this hu.le
      · intro hb
        rw [hr, e2]
        have hlt : k < (2 : ℤ) ^ p := by
          rcases lt_or_eq_of_le (k2 hb) with h | h
          · exact h
          · exact absurd ⟨hb, h⟩ hc
        have : (k : ℚ) < ((((2 : ℤ) ^ p : ℤ) : ℚ)) := by exact_mod_cast hlt
        exact mul_lt_mul_of_pos_right this hu
    have hur := ulp_eq_of_binade p emin span r _ hbr
    apply roundBinary_of_multiple p emin span r k hr0
    rw [hur, ← hud]
    exact hr

theorem roundBinary_idem (p : ℕ) (hp : 1 ≤ p) (emin : ℤ) (span : ℕ) (q : ℚ) :
    roundBinary p emin span (roundBinary p emin span q) = roundBinary p emin span q := by
  by_cases hq : 0 ≤ q
  · exact roundBinary_idem_of_nonneg p hp emin span q hq
  · push_neg at hq
    rw [roundBinary_of_neg p emin span q hq, roundBinary_neg,
      roundBinary_idem_of_nonneg p hp emin span (-q) (by linarith)]

/-- Integers of magnitude below `2 ^ 24` are binary32 numbers. -/
theorem roundF32_natCast (n : ℕ) (h : n < 16777216) : roundF32 (n : ℚ) = (n : ℚ) := by
  unfold roundF32
  have hq : (0 : ℚ) ≤ (n : ℚ) := by positivity
  have g1 := binade_ge (n : ℚ) (-126) 253
  have hb : binade (n : ℚ) (-126) 253 ≤ 23 := by
    by_contra hc
    push_neg at hc
    have a := pow2_binade_le (n : ℚ) hq (-126) 253 (by omega)
    have b := pow2_mono 24 (binade (n : ℚ) (-126) 253) (by omega)
    have c : pow2 24 = 16777216 := by
      rw [pow2_eq]
      norm_num
    have d : (n : ℚ) < 16777216 := by exact_mod_cast h
    linarith
  have hud := ulp_eq_of_binade 24 (-126) 253 (n : ℚ) _ rfl
  generalize binade (n : ℚ) (-126) 253 = b at hud g1 hb
  obtain ⟨m, hm⟩ := Int.eq_ofNat_of_zero_le (show 0 ≤ 23 - b by omega)
  apply roundBinary_of_multiple 24 (-126) 253 (n : ℚ) ((n : ℤ) * (2 : ℤ) ^ m) hq
  rw [hud]
  push_cast
  have e : (2 : ℚ) ^ m * pow2 (b - 23) = 1 := by
    have h1 : ((2 : ℚ) ^ m) = pow2 (m : ℤ) := by
      rw [pow2_natCast]
      push_cast
      rfl
    rw [h1, ← pow2_add]
    have h2 : (m : ℤ) + (b - 23) = 0 := by omega
    rw [h2, pow2_eq]
    norm_num
  rw [mul_assoc, e, mul_one]

theorem truncf_mono (v w : ℚ) (h : v ≤ w) : truncf v ≤ truncf w := by
  unfold truncf
  split
  · rename_i hv
    rw [if_pos (le_trans hv h)]
    exact Int.floor_mono h
  · rename_i hv
    push_neg at hv
    split
    · rename_i hw
      have a : ⌈v⌉ ≤ 0 := Int.ceil_le.mpr (by exact_mod_cast hv.le)
      have b : 0 ≤ ⌊w⌋ := Int.floor_nonneg.mpr hw
      omega
    · exact Int.ceil_mono h

theorem truncf_range (v : ℚ) (h0 : -1 < v) (h1 : v < 256) :
    0 ≤ truncf v ∧ truncf v < 256 := by
  unfold truncf
  split
  · rename_i hv
    exact ⟨Int.floor_nonneg.mpr hv, Int.floor_lt.mpr (by exact_mod_cast h1)⟩
  · rename_i hv
    push_neg at hv
    have a : ⌈v⌉ ≤ 0 := Int.ceil_le.mpr (by exact_mod_cast hv.le)
    have b : -1 < ⌈v⌉ := Int.lt_ceil.mpr (by exact_mod_cast h0)
    omega

/-! ## The square root -/

theorem isqrtAux_spec (n : ℕ) : ∀ (b acc : ℕ), acc * acc ≤ n →
    n < (acc + 2 ^ b) * (acc + 2 ^ b) →
    isqrtAux n b acc * isqrtAux n b acc ≤ n ∧
      n < (isqrtAux n b acc + 1) * (isqrtAux n b acc + 1) := by
  intro b
  induction b with
  | zero =>
    intro acc h1 h2
    simpa [isqrtAux] using And.intro h1 h2
  | succ b ih =>
    intro acc h1 h2
    unfold isqrtAux
    split
    · rename_i h
      apply ih (acc + 2 ^ b) h
      have : acc + 2 ^ b + 2 ^ b = acc + 2 ^ (b + 1) := by rw [pow_succ]; omega
      rw [this]; exact h2
    · rename_i h
      exact ih acc h1 (not_le.mp h)

theorem isqrt_eq_sqrt (n : ℕ) : isqrt n = Nat.sqrt n := by
  unfold isqrt
  split
  · rename_i h
    have h2 : n < (0 + 2 ^ 24) * (0 + 2 ^ 24) := by
      have : (0 + 2 ^ 24) * (0 + 2 ^ 24) = 2 ^ 48 := by norm_num
      rw [this]; exact h
    obtain ⟨a, b⟩ := isqrtAux_spec n 24 0 (by simp) h2
    exact Nat.eq_sqrt.mpr ⟨a, b⟩
  · split
    · rename_i h
      have h2 : n < (0 + 2 ^ 48) * (0 + 2 ^ 48) := by
        have : (0 + 2 ^ 48) * (0 + 2 ^ 48) = 2 ^ 96 := by norm_num
        rw [this]; exact h
      obtain ⟨a, b⟩ := isqrtAux_spec n 48 0 (by simp) h2
      exact Nat.eq_sqrt.mpr ⟨a, b⟩
    · rfl

theorem nearestRoot_ge (t : ℕ) (c : ℚ) : t ≤ nearestRoot t c := by
  unfold nearestRoot
  simp only []
  split_ifs <;> omega

theorem nearestRoot_le (t : ℕ) (c : ℚ) : nearestRoot t c ≤ t + 1 := by
  unfold nearestRoot
  simp only []
  split_ifs <;> omega

theorem nearestRoot_mono (t : ℕ) (c1 c2 : ℚ) (h : c1 ≤ c2) :
    nearestRoot t c1 ≤ nearestRoot t c2 := by
  unfold nearestRoot
  simp only []
  split_ifs <;> first | omega | linarith

theorem sqrtUlp_pos (q : ℚ) : 0 < sqrtUlp q := pow2_pos _

theorem sqrtF32_nonneg (q : ℚ) : 0 ≤ sqrtF32 q := by
  unfold sqrtF32
  split
  · exact le_refl _
  · exact mul_nonneg (by positivity) (sqrtUlp_pos q).le

theorem sqrtUlp_sq (q : ℚ) :
    sqrtUlp q * sqrtUlp q = pow2 (2 * (binade q (-150) 277 / 2) - 46) := by
  unfold sqrtUlp
  rw [← pow2_add]
  congr 1
  omega

theorem pow2_div (a b : ℤ) : pow2 a / pow2 b = pow2 (a - b) := by
  rw [div_eq_iff (ne_of_gt (pow2_pos b)), ← pow2_add]
  congr 1
  omega

theorem sqrtF32_mono (q1 q2 : ℚ) (h : q1 ≤ q2) : sqrtF32 q1 ≤ sqrtF32 q2 := by
  by_cases h1 : q1 ≤ 0
  · have : sqrtF32 q1 = 0 := by
      unfold sqrtF32
      rw [if_pos h1]
    rw [this]
    exact sqrtF32_nonneg q2
  · have h2 : ¬ q2 ≤ 0 := by
      push_neg at h1 ⊢
      linarith
    have hb := binade_mono q1 q2 (le_of_lt (not_le.mp h1)) (-150) 277 h
    have g1 := binade_ge q1 (-150) 277
    have g2 := binade_le q2 (-150) 277
    have hs1 := sqrtUlp_sq q1
    have hs2 := sqrtUlp_sq q2
    have hu1 := sqrtUlp_pos q1
    have hu2 := sqrtUlp_pos q2
    have hd1 : sqrtUlp q1 = pow2 (binade q1 (-150) 277 / 2 - 23) := rfl
    have hd2 : sqrtUlp q2 = pow2 (binade q2 (-150) 277 / 2 - 23) := rfl
    unfold sqrtF32
    rw [if_neg h1, if_neg h2, isqrt_eq_sqrt, isqrt_eq_sqrt]
    have he : binade q1 (-150) 277 / 2 ≤ binade q2 (-150) 277 / 2 :=
      Int.ediv_le_ediv (by norm_num) hb
    rcases lt_or_eq_of_le he with hlt | heq
    · -- the first root is at most `2 ^ (e1 + 1)`, the second at least `2 ^ e2`
      have a1 := lt_pow2_binade q1 (le_of_lt (not_le.mp h1)) (-150) 277 (by omega)
      have a2 := pow2_binade_le q2 (le_of_lt (not_le.mp h2)) (-150) 277 (by omega)
      have b1 : q1 / (sqrtUlp q1 * sqrtUlp q1) < 281474976710656 := by
        rw [hs1, div_lt_iff₀ (pow2_pos _)]
        have e : (281474976710656 : ℚ) = pow2 48 := by
          rw [pow2_eq]
          norm_num
        rw [e, ← pow2_add]
        exact lt_of_lt_of_le a1 (pow2_mono _ _ (by omega))
      have b2 : (70368744177664 : ℚ) ≤ q2 / (sqrtUlp q2 * sqrtUlp q2) := by
        rw [hs2, le_div_iff₀ (pow2_pos _)]
        have e : (70368744177664 : ℚ) = pow2 46 := by
          rw [pow2_eq]
          norm_num
        rw [e, ← pow2_add]
        exact le_trans (pow2_mono _ _ (by omega)) a2
      have c1 : ⌊q1 / (sqrtUlp q1 * sqrtUlp q1)⌋.toNat < 281474976710656 := by
        have : ⌊q1 / (sqrtUlp q1 * sqrtUlp q1)⌋ < 281474976710656 :=
          Int.floor_lt.mpr (by exact_mod_cast b1)
        omega
      have c2 : 70368744177664 ≤ ⌊q2 / (sqrtUlp q2 * sqrtUlp q2)⌋.toNat := by
        have : (70368744177664 : ℤ) ≤ ⌊q2 / (sqrtUlp q2 * sqrtUlp q2)⌋ :=
          Int.le_floor.mpr (by exact_mod_cast b2)
        omega
      have d1 : Nat.sqrt ⌊q1 / (sqrtUlp q1 * sqrtUlp q1)⌋.toNat < 16777216 := by
        apply Nat.sqrt_lt.mpr
        omega
      have d2 : 8388608 ≤ Nat.sqrt ⌊q2 / (sqrtUlp q2 * sqrtUlp q2)⌋.toNat := by
        apply Nat.le_sqrt.mpr
        omega
      have n1 := nearestRoot_le (Nat.sqrt ⌊q1 / (sqrtUlp q1 * sqrtUlp q1)⌋.toNat)
        (4 * q1 / (sqrtUlp q1 * sqrtUlp q1))
      have n2 := nearestRoot_ge (Nat.sqrt ⌊q2 / (sqrtUlp q2 * sqrtUlp q2)⌋.toNat)
        (4 * q2 / (sqrtUlp q2 * sqrtUlp q2))
      generalize nearestRoot (Nat.sqrt ⌊q1 / (sqrtUlp q1 * sqrtUlp q1)⌋.toNat)
        (4 * q1 / (sqrtUlp q1 * sqrtUlp q1)) = r1 at n1 ⊢
      generalize nearestRoot (Nat.sqrt ⌊q2 / (sqrtUlp q2 * sqrtUlp q2)⌋.toNat)
        (4 * q2 / (sqrtUlp q2 * sqrtUlp q2)) = r2 at n2 ⊢
      have r1' : (r1 : ℚ) ≤ 16777216 := by
        have : r1 ≤ 16777216 := by omega
        exact_mod_cast this
      have r2' : (8388608 : ℚ) ≤ (r2 : ℚ) := by
        have : 8388608 ≤ r2 := by omega
        exact_mod_cast this
      have f1 : (16777216 : ℚ) * sqrtUlp q1 = pow2 (binade q1 (-150) 277 / 2 + 1) := by
        have e : (16777216 : ℚ) = pow2 24 := by
          rw [pow2_eq]
          norm_num
        rw [e, hd1, ← pow2_add]
        congr 1
        omega
      have f2 : (8388608 : ℚ) * sqrtUlp q2 = pow2 (binade q2 (-150) 277 / 2) := by
        have e : (8388608 : ℚ) = pow2 23 := by
          rw [pow2_eq]
          norm_num
        rw [e, hd2, ← pow2_add]
        congr 1
        omega
      have f3 := pow2_mono (binade q1 (-150) 277 / 2 + 1) (binade q2 (-150) 277 / 2) (by omega)
      calc (r1 : ℚ) * sqrtUlp q1 ≤ 16777216 * sqrtUlp q1 :=
            mul_le_mul_of_nonneg_right r1' hu1.le
        _ ≤ 8388608 * sqrtUlp q2 := by rw [f1, f2]; exact f3
        _ ≤ (r2 : ℚ) * sqrtUlp q2 := mul_le_mul_of_nonneg_right r2' hu2.le
    · have hu : sqrtUlp q1 = sqrtUlp q2 := by rw [hd1, hd2, heq]
      rw [hu]
      have hpos : 0 < sqrtUlp q2 * sqrtUlp q2 := mul_pos hu2 hu2
      have hN : q1 / (sqrtUlp q2 * sqrtUlp q2) ≤ q2 / (sqrtUlp q2 * sqrtUlp q2) :=
        div_le_div_of_nonneg_right h hpos.le
      have hc : 4 * q1 / (sqrtUlp q2 * sqrtUlp q2) ≤ 4 * q2 / (sqrtUlp q2 * sqrtUlp q2) :=
        div_le_div_of_nonneg_right (by linarith) hpos.le
      have hfl : ⌊q1 / (sqrtUlp q2 * sqrtUlp q2)⌋.toNat ≤ ⌊q2 / (sqrtUlp q2 * sqrtUlp q2)⌋.toNat :=
        Int.toNat_le_toNat (Int.floor_mono hN)
      have ht := Nat.sqrt_le_sqrt hfl
      have hr : nearestRoot (Nat.sqrt ⌊q1 / (sqrtUlp q2 * sqrtUlp q2)⌋.toNat)
            (4 * q1 / (sqrtUlp q2 * sqrtUlp q2))
          ≤ nearestRoot (Nat.sqrt ⌊q2 / (sqrtUlp q2 * sqrtUlp q2)⌋.toNat)
            (4 * q2 / (sqrtUlp q2 * sqrtUlp q2)) := by
        rcases lt_or_eq_of_le ht with hlt | heq2
        · have a := nearestRoot_le (Nat.sqrt ⌊q1 / (sqrtUlp q2 * sqrtUlp q2)⌋.toNat)
            (4 * q1 / (sqrtUlp q2 * sqrtUlp q2))
          have b := nearestRoot_ge (Nat.sqrt ⌊q2 / (sqrtUlp q2 * sqrtUlp q2)⌋.toNat)
            (4 * q2 / (sqrtUlp q2 * sqrtUlp q2))
          omega
        · rw [heq2]
          exact nearestRoot_mono _ _ _ hc
      have hr' : ((nearestRoot (Nat.sqrt ⌊q1 / (sqrtUlp q2 * sqrtUlp q2)⌋.toNat)
            (4 * q1 / (sqrtUlp q2 * sqrtUlp q2)) : ℕ) : ℚ)
          ≤ ((nearestRoot (Nat.sqrt ⌊q2 / (sqrtUlp q2 * sqrtUlp q2)⌋.toNat)
            (4 * q2 / (sqrtUlp q2 * sqrtUlp q2)) : ℕ) : ℚ) := by
        exact_mod_cast hr
      exact mul_le_mul_of_nonneg_right hr' hu2.le

/-! ## The reference primitives satisfy the conditions -/

theorem refEnv_roundMono : refEnv.RoundMono := fun v w h =>
  roundBinary_mono 24 (by norm_num) (-126) 253 v w h

theorem refEnv_roundIdem : refEnv.RoundIdem := fun v =>
  roundBinary_idem 24 (by norm_num) (-126) 253 v

theorem refEnv_roundSmallNat : refEnv.RoundSmallNat := fun n h =>
  roundF32_natCast n (by omega)

theorem refEnv_castTrunc : refEnv.CastTrunc := by
  intro v h0 h1
  show toUint8Ref v = (truncf v).toNat
  obtain ⟨a, b⟩ := truncf_range v h0 h1
  unfold toUint8Ref
  rw [Int.emod_eq_of_lt a b]

theorem refEnv_castFloor : refEnv.CastFloor := by
  intro v h0 h256
  show toUint8Ref v = ⌊v⌋.toNat
  have hf0 : 0 ≤ ⌊v⌋ := Int.floor_nonneg.mpr h0
  have hf1 : ⌊v⌋ < 256 := Int.floor_lt.mpr (by exact_mod_cast h256)
  simp only [toUint8Ref, truncf, h0, if_true]
  rw [Int.emod_eq_of_lt hf0 hf1]

theorem refEnv_sqrtMono : refEnv.SqrtMono := sqrtF32_mono

/-! ## Loops with `int16_t` counters -/

theorem toInt16_fits (z : ℤ) : fitsInt16 (toInt16 z) := by
  unfold fitsInt16 toInt16
  omega

theorem intRange_eq (lo hi : ℤ) :
    intRange lo hi = (List.range' 0 (hi - lo + 1).toNat).map (fun k : ℕ => lo + (k : ℤ)) := by
  unfold intRange
  simp only [List.range_eq_range']
  generalize List.range' 0 (hi - lo + 1).toNat = l
  induction l with
  | nil => rfl
  | cons a l ih =>
    rw [List.map_cons, ← ih]
    rfl

theorem intRange_of_lt (lo hi : ℤ) (h : hi < lo) : intRange lo hi = [] := by
  rw [intRange_eq]
  have : (hi - lo + 1).toNat = 0 := by omega
  rw [this]
  rfl

theorem intRange_cons (lo hi : ℤ) (h : lo ≤ hi) :
    intRange lo hi = lo :: intRange (lo + 1) hi := by
  rw [intRange_eq, intRange_eq]
  have e : (hi - lo + 1).toNat = (hi - (lo + 1) + 1).toNat + 1 := by omega
  rw [e, List.range'_succ, List.map_cons]
  congr 1
  · simp
  · have h1 : List.range' (0 + 1) (hi - (lo + 1) + 1).toNat
        = (List.range' 0 (hi - (lo + 1) + 1).toNat).map (fun k => 1 + k) := by
      rw [List.map_add_range']
    rw [h1, List.map_map]
    apply List.map_congr_left
    intro i _
    simp only [Function.comp]
    push_cast
    ring

/-- A loop `for (int16_t v = lo; v <= hi; ++v)` with `hi < 32767` ends and
visits `lo, ..., hi`. -/
theorem int16Loop_eq_intRange (hi : ℤ) (hhi : hi < 32767) :
    ∀ (n : ℕ) (lo : ℤ) (fuel : ℕ), -32768 ≤ lo → (hi - lo + 1).toNat = n → n < fuel →
      int16Loop 1 (fun v => decide (v ≤ hi)) fuel lo = some (intRange lo hi) := by
  intro n
  induction n with
  | zero =>
    intro lo fuel _ hn hf
    obtain ⟨f, rfl⟩ : ∃ f, fuel = f + 1 := ⟨fuel - 1, by omega⟩
    have hlt : hi < lo := by omega
    unfold int16Loop
    rw [if_neg (by simpa using hlt), intRange_of_lt lo hi hlt]
  | succ n ih =>
    intro lo fuel hlo hn hf
    obtain ⟨f, rfl⟩ : ∃ f, fuel = f + 1 := ⟨fuel - 1, by omega⟩
    have hle : lo ≤ hi := by omega
    unfold int16Loop
    rw [if_pos (by simpa using hle)]
    have hw : toInt16 (lo + 1) = lo + 1 := by
      unfold toInt16
      omega
    rw [hw, ih (lo + 1) f (by omega) (by omega) (by omega), intRange_cons lo hi hle]
    rfl

/-- A loop `for (int16_t v = lo; v < hi; v += 8)` with `hi ≤ 32760` ends and
visits the values of `tileStartsLoop`. -/
theorem int16Loop_eq_tileStartsLoop (hi : ℤ) (hhi : hi ≤ 32760) :
    ∀ (n : ℕ) (v : ℤ) (fuel : ℕ), -32768 ≤ v → (hi - v).toNat ≤ n → n < fuel →
      int16Loop 8 (fun v => decide (v < hi)) fuel v = some (tileStartsLoop hi n v) := by
  intro n
  induction n with
  | zero =>
    intro v fuel _ hn hf
    obtain ⟨f, rfl⟩ : ∃ f, fuel = f + 1 := ⟨fuel - 1, by omega⟩
    have hge : ¬ v < hi := by omega
    unfold int16Loop
    rw [if_neg (by simpa using hge)]
    rfl
  | succ n ih =>
    intro v fuel hlo hn hf
    obtain ⟨f, rfl⟩ : ∃ f, fuel = f + 1 := ⟨fuel - 1, by omega⟩
    unfold int16Loop tileStartsLoop
    by_cases hv : v < hi
    · rw [if_pos (by simpa using hv), if_pos hv]
      have hw : toInt16 (v + 8) = v + 8 := by
        unfold toInt16
        omega
      rw [hw, ih (v + 8) f (by omega) (by omega) (by omega)]
      rfl
    · rw [if_neg (by simpa using hv), if_neg hv]

theorem int16Loop_eq_tileStarts (lo hi : ℤ) (hlo : -32768 ≤ lo) (hhi : hi ≤ 32760) :
    int16Loop 8 (fun v => decide (v < hi)) 65537 lo = some (tileStarts lo hi) :=
  int16Loop_eq_tileStartsLoop hi hhi (hi - lo).toNat lo 65537 hlo (le_refl _) (by omega)

/-- A loop `for (int16_t v = lo; v <= 32767; ++v)` does not end: the counter
wraps from 32767 to -32768 and the condition holds for every `int16_t`. -/
theorem int16Loop_never_ends (fuel : ℕ) :
    ∀ v : ℤ, fitsInt16 v → int16Loop 1 (fun v => decide (v ≤ 32767)) fuel v = none := by
  induction fuel with
  | zero =>
    intro v _
    rfl
  | succ f ih =>
    intro v hv
    unfold int16Loop
    rw [if_pos (by simpa using hv.2), ih _ (toInt16_fits _)]
    rfl

theorem tdiv8_lower (z : ℤ) (hlo : -32768 ≤ z) : -32768 ≤ Int.tdiv z 8 * 8 := by
  rcases le_or_lt 0 z with h | h
  · rw [Int.tdiv_eq_ediv h (by norm_num)]
    omega
  · have e : z = -(-z) := by omega
    rw [e, Int.neg_tdiv, Int.tdiv_eq_ediv (by omega) (by norm_num)]
    omega

theorem tdiv8_upper (z : ℤ) (hhi : z < 32760) : Int.tdiv z 8 * 8 + 7 ≤ 32759 := by
  rcases le_or_lt 0 z with h | h
  · rw [Int.tdiv_eq_ediv h (by norm_num)]
    omega
  · have e : z = -(-z) := by omega
    rw [e, Int.neg_tdiv, Int.tdiv_eq_ediv (by omega) (by norm_num)]
    omega

theorem mem_drawTiles_bounds (box t : Box) (h : t ∈ drawTiles box) :
    box.xMin ≤ t.xMin ∧ box.yMin ≤ t.yMin ∧ t.xMax ≤ box.xMax ∧ t.yMax ≤ box.yMax := by
  unfold drawTiles at h
  simp only [] at h
  split at h
  · simp only [List.mem_singleton] at h
    subst h
    exact ⟨le_refl _, le_refl _, le_refl _, le_refl _⟩
  · simp only [List.mem_flatMap, List.mem_map] at h
    obtain ⟨y, _, x, _, rfl⟩ := h
    exact ⟨le_max_right _ _, le_max_right _ _, min_le_right _ _, min_le_right _ _⟩

/-! ## C1 -/

/-- C1 (the code departs from it): the flat result of a block fast path and
`GetSmoothRoundRectShapeColor` must agree on every pixel of the tile. For the
shape with interior radius 0 the tile `[12, 17] × [12, 17]` lies in
`inner_wide` and is filled flat with the interior colour (blue), while
`GetSmoothRoundRectShapeColor` at the pixel `(15, 15)` of that tile returns the
outline blended at half coverage over the interior, not the interior colour. -/
theorem C1_flat_interior_fill_disagrees_with_pixel_color :
    tilePath refEnv (sharpInteriorShape.toSpec refEnv visibleSurface) 12 12 17 17
        = TilePath.innerBox ∧
      FillSmoothRoundRectRectInternal refEnv
          (sharpInteriorShape.toSpec refEnv visibleSurface) 12 12 17 17
        = [WriteOp.fillRect PaintMode.PAINT_MODE_REPLACE ⟨12, 12, 17, 17⟩ blue] ∧
      (sharpInteriorShape.toSpec refEnv visibleSurface).interior = blue ∧
      (⟨12, 12, 17, 17⟩ : Box).containsPt 15 15 = true ∧
      GetSmoothRoundRectShapeColor refEnv
          (sharpInteriorShape.toSpec refEnv visibleSurface) 15 15
        = refEnv.AlphaBlend blue (red.withA 127) ∧
      GetSmoothRoundRectShapeColor refEnv
          (sharpInteriorShape.toSpec refEnv visibleSurface) 15 15 ≠ blue ∧
      sharpInteriorShape.getColor refEnv 15 15 = blue := by
  decide!

/-! ## C2 -/

/-- C2 (the code departs from it): in `FILL_MODE_VISIBLE` no write may cover a
pixel whose shape colour has alpha 0. For the shape with a transparent
interior and a visible-only surface clipped to `[14, 17] × [14, 17]`, `drawTo`
issues one `fillRect` over the whole box, although the shape colour of its
pixel `(15, 15)` is fully transparent. -/
theorem C2_visible_mode_fills_transparent_interior :
    smallClipSurface.fill_mode = FillMode.FILL_MODE_VISIBLE ∧
      hollowShape.drawTo refEnv smallClipSurface
        = [WriteOp.fillRect PaintMode.PAINT_MODE_REPLACE ⟨14, 14, 17, 17⟩ white] ∧
      (hollowShape.getColor refEnv 15 15).a = 0 ∧
      (GetSmoothRoundRectShapeColor refEnv (hollowShape.toSpec refEnv smallClipSurface)
          15 15).a = 0 ∧
      writeCount (hollowShape.drawTo refEnv smallClipSurface) 15 15 = 1 := by
  decide!

/-! ## C3 -/

/-- C3 (the code departs from it): in `FILL_MODE_RECTANGLE` every pixel of the
drawn box is written exactly once. The shape with extents
`[-3, 23] × [-3, 23]` on a surface that clips nothing away has that box as its
drawn box, yet the tiles start at `(xMin / 8) * 8 = 0` and no write covers the
pixel `(-1, 10)` of the box, while pixel `(1, 10)` is written once. -/
theorem C3_rectangle_mode_skips_negative_columns :
    wideRectSurface.fill_mode = FillMode.FILL_MODE_RECTANGLE ∧
      originShape.drawBox wideRectSurface = ⟨-3, -3, 23, 23⟩ ∧
      (originShape.drawBox wideRectSurface).containsPt (-1) 10 = true ∧
      drawTiles (originShape.drawBox wideRectSurface)
        = [⟨0, 0, 7, 7⟩, ⟨8, 0, 15, 7⟩, ⟨16, 0, 23, 7⟩,
           ⟨0, 8, 7, 15⟩, ⟨8, 8, 15, 15⟩, ⟨16, 8, 23, 15⟩,
           ⟨0, 16, 7, 23⟩, ⟨8, 16, 15, 23⟩, ⟨16, 16, 23, 23⟩] ∧
      writeCount (originShape.drawTo refEnv wideRectSurface) (-1) 10 = 0 ∧
      writeCount (originShape.drawTo refEnv wideRectSurface) 1 10 = 1 := by
  decide!

/-! ## C4 -/

/-- C4 (the code departs from it): when `readColorRect` returns true with
colour `c`, every pixel of the rectangle has `getColor = c`. For the rectangle
`(0, 15, 25, 30)`, which reaches across the shape, `readColorRect` returns
true with `Transparent` (it tests `xMax > x1` and `yMax > y1` and then the
top-left corner only), although `getColor(15, 15)` is the interior colour. -/
theorem C4_readColorRect_reports_transparent_across_shape :
    smallShape.readColorRect refEnv 0 15 25 30 = (true, [Color.Transparent]) ∧
      (⟨0, 15, 25, 30⟩ : Box).containsPt 15 15 = true ∧
      smallShape.getColor refEnv 15 15 = blue ∧
      blue ≠ Color.Transparent := by
  decide!

/-! ## C5 -/

/-- C5 as stated fails: on the ring with `r = 4 > ri = 2`, transparent
interior and opaque outline, the pixels `(22, 15)` and `(23, 15)` lie on the
horizontal ray from the centre `(15, 15)` at distances 2 and 3 from the inner
rectangle, so `ri ≤ d(p) ≤ d(q)`, yet the alpha of `getColor` rises from 127
(inner antialiasing band) to 255 (solid outline). -/
theorem C5_alpha_rises_across_inner_band :
    ringShape.ri < ringShape.r ∧
      ringShape.calcDistSq refEnv 22 15 = 2 * 2 ∧
      ringShape.calcDistSq refEnv 23 15 = 3 * 3 ∧
      (ringShape.getColor refEnv 22 15).a = 127 ∧
      (ringShape.getColor refEnv 23 15).a = 255 ∧
      ¬ ((ringShape.getColor refEnv 23 15).a ≤ (ringShape.getColor refEnv 22 15).a) := by
  decide!

/-- Beyond the inner antialiasing band `getColorPreChecked` returns, by the
squared distance `D` it computes: nothing at or beyond `r² + 0.25 + r`, the
outline colour up to `r² + 0.25 - r`, and in between the outline colour at the
coverage converted from `outerCoverage`. -/
theorem SmoothRoundRectShape.preChecked_alpha_beyond_inner_band (env : Env)
    (sh : SmoothRoundRectShape) (x y : ℤ)
    (h14 : env.fl (env.fl (env.fl (env.fl (sh.ri * sh.ri) + 1 / 4) - sh.ri) - 1)
      < env.fl (env.fl (env.fl (sh.ri * sh.ri) + 1 / 4) + sh.ri))
    (hD : env.fl (env.fl (env.fl (sh.ri * sh.ri) + 1 / 4) + sh.ri) ≤ sh.calcDistSq env x y) :
    (sh.getColorPreChecked env x y).a
      = if env.fl (env.fl (env.fl (sh.r * sh.r) + 1 / 4) + sh.r) ≤ sh.calcDistSq env x y then 0
        else if sh.calcDistSq env x y ≤ env.fl (env.fl (env.fl (sh.r * sh.r) + 1 / 4) - sh.r)
        then sh.outline_color.a
        else env.toUint8 (sh.outerCoverage env (sh.calcDistSq env x y)) := by
  unfold SmoothRoundRectShape.getColorPreChecked SmoothRoundRectShape.outerCoverage
  unfold SmoothRoundRectShape.calcDistSq at hD ⊢
  simp only []
  generalize distSq env sh.x0 sh.y0 sh.x1 sh.y1 x y = D at hD ⊢
  have h1 : ¬ D ≤ env.fl (env.fl (env.fl (env.fl (sh.ri * sh.ri) + 1 / 4) - sh.ri) - 1) := by
    intro hc
    linarith
  rw [if_neg h1]
  by_cases h2 : D ≥ env.fl (env.fl (env.fl (sh.r * sh.r) + 1 / 4) + sh.r)
  · rw [if_pos h2, if_pos h2]
    rfl
  · rw [if_neg h2, if_neg h2]
    have hfoi : (decide (sh.r = sh.ri) ||
        decide (D ≥ env.fl (env.fl (env.fl (sh.ri * sh.ri) + 1 / 4) + sh.ri))) = true := by
      simp only [Bool.or_eq_true, decide_eq_true_eq]
      exact Or.inr hD
    rw [hfoi]
    by_cases h3 : D ≤ env.fl (env.fl (env.fl (sh.r * sh.r) + 1 / 4) - sh.r)
    · rw [if_pos h3]
      simp only [h3, decide_True, Bool.and_self, if_true]
    · rw [if_neg h3]
      simp only [h3, decide_False, Bool.false_and, Bool.false_eq_true, if_false, if_true]
      rfl

/-- Beyond the inner antialiasing band the alpha of `getColor` does not
increase with the squared distance that `calcDistSq` computes. -/
theorem SmoothRoundRectShape.alpha_antitone_in_distSq (env : Env) (sh : SmoothRoundRectShape)
    (px py qx qy : ℤ) (hmono : env.RoundMono) (hsqrt : env.SqrtMono)
    (hcast : env.CastTrunc) (hmax : sh.outline_color.a ≤ 255)
    (h14 : env.fl (env.fl (env.fl (env.fl (sh.ri * sh.ri) + 1 / 4) - sh.ri) - 1)
      < env.fl (env.fl (env.fl (sh.ri * sh.ri) + 1 / 4) + sh.ri))
    (hlo : -1 < sh.outerCoverage env (env.fl (env.fl (env.fl (sh.r * sh.r) + 1 / 4) + sh.r)))
    (hhi : sh.outerCoverage env (env.fl (env.fl (env.fl (sh.r * sh.r) + 1 / 4) - sh.r))
      < sh.outline_color.a + 1)
    (hp : (sh.inner_mid.containsPt px py || sh.inner_wide.containsPt px py ||
      sh.inner_tall.containsPt px py) = false)
    (hq : (sh.inner_mid.containsPt qx qy || sh.inner_wide.containsPt qx qy ||
      sh.inner_tall.containsPt qx qy) = false)
    (hpo : env.fl (env.fl (env.fl (sh.ri * sh.ri) + 1 / 4) + sh.ri) ≤ sh.calcDistSq env px py)
    (hpq : sh.calcDistSq env px py ≤ sh.calcDistSq env qx qy) :
    (sh.getColor env qx qy).a ≤ (sh.getColor env px py).a := by
  have gp : sh.getColor env px py = sh.getColorPreChecked env px py := by
    unfold SmoothRoundRectShape.getColor
    rw [hp]
    rfl
  have gq : sh.getColor env qx qy = sh.getColorPreChecked env qx qy := by
    unfold SmoothRoundRectShape.getColor
    rw [hq]
    rfl
  rw [gp, gq, sh.preChecked_alpha_beyond_inner_band env px py h14 hpo,
    sh.preChecked_alpha_beyond_inner_band env qx qy h14 (le_trans hpo hpq)]
  generalize sh.calcDistSq env px py = Dp at hpo hpq ⊢
  generalize sh.calcDistSq env qx qy = Dq at hpq ⊢
  generalize hT2 : env.fl (env.fl (env.fl (sh.r * sh.r) + 1 / 4) + sh.r) = T2 at hlo ⊢
  generalize hT3 : env.fl (env.fl (env.fl (sh.r * sh.r) + 1 / 4) - sh.r) = T3 at hhi ⊢
  -- the converted value falls as the squared distance grows
  have cov : ∀ D1 D2 : ℚ, D1 ≤ D2 → sh.outerCoverage env D2 ≤ sh.outerCoverage env D1 := by
    intro D1 D2 h
    unfold SmoothRoundRectShape.outerCoverage
    apply hmono
    apply mul_le_mul_of_nonneg_left _ (Nat.cast_nonneg _)
    apply hmono
    have := hmono _ _ (sub_le_sub_left (hsqrt D1 D2 h) sh.r)
    linarith
  have hm : (sh.outline_color.a : ℚ) ≤ 255 := by exact_mod_cast hmax
  -- inside the band the conversion is the integer part, at most the outline alpha
  have band : ∀ D : ℚ, ¬ T2 ≤ D → ¬ D ≤ T3 →
      -1 < sh.outerCoverage env D ∧ sh.outerCoverage env D < 256 ∧
        env.toUint8 (sh.outerCoverage env D) = (truncf (sh.outerCoverage env D)).toNat ∧
        truncf (sh.outerCoverage env D) ≤ sh.outline_color.a := by
    intro D h2 h3
    have a1 := cov D T2 (not_le.mp h2).le
    have a2 := cov T3 D (not_le.mp h3).le
    have b1 : -1 < sh.outerCoverage env D := by linarith
    have b2 : sh.outerCoverage env D < 256 := by linarith
    refine ⟨b1, b2, hcast _ b1 b2, ?_⟩
    have b3 : sh.outerCoverage env D < ((sh.outline_color.a + 1 : ℤ) : ℚ) := by
      push_cast
      linarith
    unfold truncf
    split
    · exact Int.lt_add_one_iff.mp (Int.floor_lt.mpr b3)
    · rename_i hneg
      have : ⌈sh.outerCoverage env D⌉ ≤ 0 :=
        Int.ceil_le.mpr (by push_cast; linarith [not_le.mp hneg])
      omega
  by_cases q2 : T2 ≤ Dq
  · rw [if_pos q2]
    exact Nat.zero_le _
  · rw [if_neg q2]
    have p2 : ¬ T2 ≤ Dp := fun hc => q2 (le_trans hc hpq)
    rw [if_neg p2]
    by_cases p3 : Dp ≤ T3
    · rw [if_pos p3]
      by_cases q3 : Dq ≤ T3
      · rw [if_pos q3]
      · rw [if_neg q3]
        obtain ⟨_, _, e, hle⟩ := band Dq q2 q3
        rw [e]
        omega
    · rw [if_neg p3]
      have q3 : ¬ Dq ≤ T3 := fun hc => p3 (le_trans hpq hc)
      rw [if_neg q3]
      obtain ⟨_, _, ep, _⟩ := band Dp p2 p3
      obtain ⟨_, _, eq, _⟩ := band Dq q2 q3
      rw [ep, eq]
      exact Int.toNat_le_toNat (truncf_mono _ _ (cov Dp Dq hpq))

theorem sq_round_le (env : Env) (hmono : env.RoundMono) (hz : env.fl 0 = 0) (u v : ℚ)
    (h : (0 ≤ u ∧ u ≤ v) ∨ (v ≤ u ∧ u ≤ 0)) :
    env.fl (env.fl u * env.fl u) ≤ env.fl (env.fl v * env.fl v) := by
  apply hmono
  rcases h with ⟨h0, huv⟩ | ⟨hvu, h0⟩
  · have a := hmono 0 u h0
    have b := hmono u v huv
    rw [hz] at a
    nlinarith
  · have a := hmono u 0 h0
    have b := hmono v u hvu
    rw [hz] at a
    nlinarith

/-- Along a ray from the midpoint of `[a, b]` the offset of a coordinate from
the interval keeps its sign and does not shrink. -/
theorem clamped_offset_on_ray (a b : ℚ) (hab : a ≤ b) (p q : ℤ) (t : ℚ) (ht : 1 ≤ t)
    (hr : (q : ℚ) - (a + b) / 2 = t * ((p : ℚ) - (a + b) / 2)) :
    (0 ≤ (p : ℚ) - (if (if (p : ℚ) < a then a else (p : ℚ)) > b then b
          else (if (p : ℚ) < a then a else (p : ℚ))) ∧
        (p : ℚ) - (if (if (p : ℚ) < a then a else (p : ℚ)) > b then b
          else (if (p : ℚ) < a then a else (p : ℚ)))
          ≤ (q : ℚ) - (if (if (q : ℚ) < a then a else (q : ℚ)) > b then b
            else (if (q : ℚ) < a then a else (q : ℚ)))) ∨
      ((q : ℚ) - (if (if (q : ℚ) < a then a else (q : ℚ)) > b then b
          else (if (q : ℚ) < a then a else (q : ℚ)))
          ≤ (p : ℚ) - (if (if (p : ℚ) < a then a else (p : ℚ)) > b then b
            else (if (p : ℚ) < a then a else (p : ℚ))) ∧
        (p : ℚ) - (if (if (p : ℚ) < a then a else (p : ℚ)) > b then b
          else (if (p : ℚ) < a then a else (p : ℚ))) ≤ 0) := by
  generalize (p : ℚ) = P at hr ⊢
  generalize (q : ℚ) = Q at hr ⊢
  rcases le_total ((a + b) / 2) P with hc | hc
  · left
    have hqp : P ≤ Q := by
      have h1 : 0 ≤ (t - 1) * (P - (a + b) / 2) := mul_nonneg (by linarith) (by linarith)
      have h2 : Q - P = (t - 1) * (P - (a + b) / 2) := by linear_combination hr
      linarith
    have ha : ¬ P < a := by linarith
    have hqa : ¬ Q < a := by linarith
    rw [if_neg ha, if_neg hqa]
    split_ifs <;> constructor <;> linarith
  · right
    have hqp : Q ≤ P := by
      have h1 : 0 ≤ (t - 1) * ((a + b) / 2 - P) := mul_nonneg (by linarith) (by linarith)
      have h2 : P - Q = (t - 1) * ((a + b) / 2 - P) := by linear_combination -hr
      linarith
    have hb : ¬ P > b := by linarith
    split_ifs <;> constructor <;> linarith

/-- Along a ray from the centre of the inner rectangle the squared distance
that the code computes does not decrease. -/
theorem distSq_le_on_ray (env : Env) (hmono : env.RoundMono) (hz : env.fl 0 = 0)
    (x0 y0 x1 y1 : ℚ) (hx : x0 ≤ x1) (hy : y0 ≤ y1) (px py qx qy : ℤ) (t : ℚ) (ht : 1 ≤ t)
    (hrx : (qx : ℚ) - (x0 + x1) / 2 = t * ((px : ℚ) - (x0 + x1) / 2))
    (hry : (qy : ℚ) - (y0 + y1) / 2 = t * ((py : ℚ) - (y0 + y1) / 2)) :
    distSq env x0 y0 x1 y1 px py ≤ distSq env x0 y0 x1 y1 qx qy := by
  unfold distSq
  simp only []
  apply hmono
  exact add_le_add (sq_round_le env hmono hz _ _ (clamped_offset_on_ray x0 x1 hx px qx t ht hrx))
    (sq_round_le env hmono hz _ _ (clamped_offset_on_ray y0 y1 hy py qy t ht hry))

/-- C5 (amended): past the inner antialiasing band the alpha of `getColor` does
not increase along a ray from the centre outward, in the arithmetic of the
code. For every shape with `x0 ≤ x1`, `y0 ≤ y1` whose interior threshold
`ri² + 0.25 - ri - 1` is below its outline threshold `ri² + 0.25 + ri` and
whose outer-band coverage stays within `(-1, alpha + 1)` at the two ends
`r² + 0.25 ∓ r` of the band, and any two pixels `p`, `q` outside the three
inner boxes with `q - c = t (p - c)`, `t ≥ 1`, where `c` is the centre, and
`ri² + 0.25 + ri ≤ d²(p)`, the test by which the code places `p` at distance
`ri + 0.5` or more (`d²` as `calcDistSq` computes it, the thresholds rounded to
`float` as in the code), the alpha of `getColor(q)` is at most that of
`getColor(p)`. -/
theorem C5_alpha_non_increasing_beyond_inner_band (env : Env) (sh : SmoothRoundRectShape)
    (px py qx qy : ℤ) (t : ℚ) (hmono : env.RoundMono) (hnat : env.RoundSmallNat)
    (hsqrt : env.SqrtMono) (hcast : env.CastTrunc) (hmax : sh.outline_color.a ≤ 255)
    (hx : sh.x0 ≤ sh.x1) (hy : sh.y0 ≤ sh.y1)
    (h14 : env.fl (env.fl (env.fl (env.fl (sh.ri * sh.ri) + 1 / 4) - sh.ri) - 1)
      < env.fl (env.fl (env.fl (sh.ri * sh.ri) + 1 / 4) + sh.ri))
    (hlo : -1 < sh.outerCoverage env (env.fl (env.fl (env.fl (sh.r * sh.r) + 1 / 4) + sh.r)))
    (hhi : sh.outerCoverage env (env.fl (env.fl (env.fl (sh.r * sh.r) + 1 / 4) - sh.r))
      < sh.outline_color.a + 1)
    (hp : (sh.inner_mid.containsPt px py || sh.inner_wide.containsPt px py ||
      sh.inner_tall.containsPt px py) = false)
    (hq : (sh.inner_mid.containsPt qx qy || sh.inner_wide.containsPt qx qy ||
      sh.inner_tall.containsPt qx qy) = false)
    (ht : 1 ≤ t)
    (hrx : (qx : ℚ) - (sh.x0 + sh.x1) / 2 = t * ((px : ℚ) - (sh.x0 + sh.x1) / 2))
    (hry : (qy : ℚ) - (sh.y0 + sh.y1) / 2 = t * ((py : ℚ) - (sh.y0 + sh.y1) / 2))
    (hpo : env.fl (env.fl (env.fl (sh.ri * sh.ri) + 1 / 4) + sh.ri) ≤ sh.calcDistSq env px py) :
    (sh.getColor env qx qy).a ≤ (sh.getColor env px py).a :=
  sh.alpha_antitone_in_distSq env px py qx qy hmono hsqrt hcast hmax h14 hlo hhi hp hq hpo
    (distSq_le_on_ray env hmono (by simpa using hnat 0 (by norm_num)) sh.x0 sh.y0 sh.x1 sh.y1
      hx hy px py qx qy t ht hrx hry)

/-- C5 (amended), on an instance: on the ring with `r = 4`, `ri = 2` and centre
`(15, 15)` the pixels `(23, 15)` and `(24, 15)` lie on one ray (`t = 9/8`) at
squared distances 9 and 16, beyond `ri² + 0.25 + ri = 6.25`; their alphas are
255 and 127. -/
theorem C5_alpha_non_increasing_beyond_inner_band_witness :
    refEnv.RoundMono ∧ refEnv.RoundSmallNat ∧ refEnv.SqrtMono ∧ refEnv.CastTrunc ∧
      ringShape.outline_color.a ≤ 255 ∧ ringShape.x0 ≤ ringShape.x1 ∧
      ringShape.y0 ≤ ringShape.y1 ∧
      refEnv.fl (refEnv.fl (refEnv.fl (ringShape.ri * ringShape.ri) + 1 / 4) + ringShape.ri)
        = 25 / 4 ∧
      ((24 : ℤ) : ℚ) - (ringShape.x0 + ringShape.x1) / 2
        = 9 / 8 * (((23 : ℤ) : ℚ) - (ringShape.x0 + ringShape.x1) / 2) ∧
      ((15 : ℤ) : ℚ) - (ringShape.y0 + ringShape.y1) / 2
        = 9 / 8 * (((15 : ℤ) : ℚ) - (ringShape.y0 + ringShape.y1) / 2) ∧
      ringShape.calcDistSq refEnv 23 15 = 9 ∧ ringShape.calcDistSq refEnv 24 15 = 16 ∧
      (ringShape.getColor refEnv 23 15).a = 255 ∧
      (ringShape.getColor refEnv 24 15).a = 127 ∧
      (ringShape.getColor refEnv 24 15).a ≤ (ringShape.getColor refEnv 23 15).a :=
  ⟨refEnv_roundMono, refEnv_roundSmallNat, refEnv_sqrtMono, refEnv_castTrunc, by decide,
    by decide!, by decide!, by decide!, by decide!, by decide!, by decide!, by decide!,
    by decide!, by decide!,
    C5_alpha_non_increasing_beyond_inner_band refEnv ringShape 23 15 24 15 (9 / 8)
      refEnv_roundMono refEnv_roundSmallNat refEnv_sqrtMono refEnv_castTrunc (by decide)
      (by decide!) (by decide!) (by decide!) (by decide!) (by decide!) (by decide!)
      (by decide!) (by decide!) (by decide!) (by decide!) (by decide!)⟩

/-! ## C6 -/

/-- C6 as stated fails: for the degenerate wedge at `(10, 10)` of half-width
`w = 5.875` and alpha 219 the pixel `(16, 11)` is at distance `rho = √37` from
the centre, so the claimed coverage is `floor((w + 0.5 - √37) * 219) = 64`,
while `getAlpha`, whose operations round to `float`, returns 63. -/
theorem C6_rounded_coverage_is_below_formula :
    fadedDiscWedge.bx = fadedDiscWedge.ax ∧ fadedDiscWedge.by_ = fadedDiscWedge.ay ∧
      fadedDiscWedge.bw = fadedDiscWedge.aw ∧ fadedDiscWedge.aw = 47 / 8 ∧
      fadedDiscWedge.color.a = 219 ∧
      ((16 : ℚ) - fadedDiscWedge.ax) * (16 - fadedDiscWedge.ax)
        + (11 - fadedDiscWedge.ay) * (11 - fadedDiscWedge.ay) = 37 ∧
      (47 / 8 : ℝ) - 1 / 2 < Real.sqrt 37 ∧ Real.sqrt 37 < 47 / 8 + 1 / 2 ∧
      ⌊((47 / 8 : ℝ) + 1 / 2 - Real.sqrt 37) * 219⌋ = 64 ∧
      fadedDiscWedge.coverage refEnv 16 11 = 63 := by
  have h0 : (0 : ℝ) ≤ 37 := by norm_num
  have hs := Real.mul_self_sqrt h0
  have hn := Real.sqrt_nonneg (37 : ℝ)
  have hlo : (47 / 8 : ℝ) - 1 / 2 < Real.sqrt 37 := by nlinarith
  have hhi : Real.sqrt 37 < 47 / 8 + 1 / 2 := by nlinarith
  have hfl : ⌊((47 / 8 : ℝ) + 1 / 2 - Real.sqrt 37) * 219⌋ = 64 := by
    rw [Int.floor_eq_iff]
    constructor
    · have : Real.sqrt 37 ≤ 51 / 8 - 64 / 219 := by nlinarith
      push_cast
      linarith
    · have : 51 / 8 - 65 / 219 < Real.sqrt 37 := by nlinarith
      push_cast
      linarith
  exact ⟨by decide!, by decide!, by decide!, by decide!, by decide!, by decide!, hlo, hhi, hfl,
    by decide!⟩

theorem Env.fl_zero (env : Env) (hnat : env.RoundSmallNat) : env.fl 0 = 0 := by
  have := hnat 0 (by norm_num)
  simpa using this

/-- C6 (amended): for a wedge with `a == b` and `a_width == b_width = w`, the
coverage of every pixel depends only on `rho`, its distance to `a` as computed
in `float` arithmetic: it is the coverage of the antialiased disc of radius `w`
at that distance, with `d = (w + 0.5) - rho` rounded to `float`: `max_alpha`
for `d ≥ 1`, 0 for `d ≤ 0`, `floor(d * max_alpha)` in between. The same holds
for every value `h` that the division by `|b - a|² = 0` might produce. -/
theorem C6_degenerate_wedge_is_rounded_disc (env : Env) (w : SmoothWedgeShape)
    (xp yp : ℤ) (hx : w.bx = w.ax) (hy : w.by_ = w.ay) (hw : w.bw = w.aw)
    (hidem : env.RoundIdem) (hmono : env.RoundMono) (hnat : env.RoundSmallNat)
    (hcast : env.CastFloor) (hmax : w.color.a ≤ 255) :
    w.coverage env xp yp
        = discCoverage env w.aw w.color.a (pixelDistance env w.ax w.ay xp yp) ∧
      ∀ h : ℚ, getAlphaFrom env h (env.fl (w.aw + 1 / 2)) (env.fl (env.fl xp - w.ax))
          (env.fl (env.fl yp - w.ay)) (env.fl (w.bx - w.ax)) (env.fl (w.by_ - w.ay))
          (env.fl (w.aw - w.bw)) w.color.a
        = discCoverage env w.aw w.color.a (pixelDistance env w.ax w.ay xp yp) := by
  have hz := env.fl_zero hnat
  have key : ∀ h : ℚ, getAlphaFrom env h (env.fl (w.aw + 1 / 2)) (env.fl (env.fl xp - w.ax))
      (env.fl (env.fl yp - w.ay)) (env.fl (w.bx - w.ax)) (env.fl (w.by_ - w.ay))
      (env.fl (w.aw - w.bw)) w.color.a
        = discCoverage env w.aw w.color.a (pixelDistance env w.ax w.ay xp yp) := by
    intro h
    simp only [getAlphaFrom, discCoverage, pixelDistance, hx, hy, hw, sub_self, hz, zero_mul,
      mul_zero, sub_zero, hidem _]
    generalize env.sqrtf (env.fl (env.fl (env.fl (env.fl (xp : ℚ) - w.ax)
      * env.fl (env.fl (xp : ℚ) - w.ax)) + env.fl (env.fl (env.fl (yp : ℚ) - w.ay)
      * env.fl (env.fl (yp : ℚ) - w.ay)))) = rho
    generalize env.fl (env.fl (w.aw + 1 / 2) - rho) = d
    by_cases h1 : 1 ≤ d
    · rw [if_pos h1, if_pos h1]
    · rw [if_neg h1, if_neg h1]
      by_cases h2 : d ≤ 0
      · rw [if_pos h2, if_pos h2]
      · rw [if_neg h2, if_neg h2]
        have hd0 : 0 < d := not_le.mp h2
        have hd1 : d < 1 := not_le.mp h1
        have hm0 : (0 : ℚ) ≤ w.color.a := Nat.cast_nonneg _
        apply hcast
        · have := hmono 0 (d * w.color.a) (mul_nonneg hd0.le hm0)
          rwa [hz] at this
        · have h3 : d * w.color.a ≤ w.color.a := by nlinarith
          have h4 := hmono _ _ h3
          rw [hnat w.color.a (by omega)] at h4
          have hm : (w.color.a : ℚ) ≤ 255 := by exact_mod_cast hmax
          linarith
  refine ⟨?_, key⟩
  rw [SmoothWedgeShape.coverage, getAlpha]
  exact key _

/-- C6 (amended), on an instance: the wedge with both endpoints at `(10, 10)`
and both half-widths 3, at the pixel `(12, 12)`. -/
theorem C6_degenerate_wedge_is_rounded_disc_witness :
    discWedge.bx = discWedge.ax ∧ discWedge.by_ = discWedge.ay ∧
      discWedge.bw = discWedge.aw ∧ refEnv.RoundIdem ∧ refEnv.RoundMono ∧
      refEnv.RoundSmallNat ∧ refEnv.CastFloor ∧ discWedge.color.a ≤ 255 ∧
      discCoverage refEnv discWedge.aw discWedge.color.a
        (pixelDistance refEnv discWedge.ax discWedge.ay 12 12) = 171 ∧
      discWedge.coverage refEnv 12 12 = 171 ∧
      ∀ h : ℚ, getAlphaFrom refEnv h (refEnv.fl (discWedge.aw + 1 / 2))
          (refEnv.fl (refEnv.fl 12 - discWedge.ax)) (refEnv.fl (refEnv.fl 12 - discWedge.ay))
          (refEnv.fl (discWedge.bx - discWedge.ax)) (refEnv.fl (discWedge.by_ - discWedge.ay))
          (refEnv.fl (discWedge.aw - discWedge.bw)) discWedge.color.a = 171 := by
  have hd : discCoverage refEnv discWedge.aw discWedge.color.a
      (pixelDistance refEnv discWedge.ax discWedge.ay 12 12) = 171 := by decide!
  have h := C6_degenerate_wedge_is_rounded_disc refEnv discWedge 12 12 (by decide!)
    (by decide!) (by decide!) refEnv_roundIdem refEnv_roundMono refEnv_roundSmallNat
    refEnv_castFloor (by decide)
  refine ⟨by decide!, by decide!, by decide!, refEnv_roundIdem, refEnv_roundMono,
    refEnv_roundSmallNat, refEnv_castFloor, by decide, hd, ?_, ?_⟩
  · rw [h.1, hd]
  · intro q
    have h2 := h.2 q
    rw [hd] at h2
    simpa using h2

/-! ## C7 -/

/-- C7 (the code departs from it): `drawInteriorTo` must write exactly the
pixels of the box with non-zero coverage. For the capsule whose axis lies at
`y = 10.875` the scan starts at row `ys = 10` (the truncation of `ay`); the
first covered pixel of row 10 is `x = 8`, the left bound `xs` advances to 8,
and row 11 is scanned from there, so the pixel `(7, 11)` of the box, whose
coverage is 31, is never written. -/
theorem C7_left_bound_tracking_skips_covered_pixel :
    fractionalRowWedge.drawBox visibleSurface = ⟨7, 8, 23, 14⟩ ∧
      (fractionalRowWedge.drawBox visibleSurface).containsPt 7 11 = true ∧
      fractionalRowWedge.startRow refEnv (fractionalRowWedge.drawBox visibleSurface) = 10 ∧
      fractionalRowWedge.coverage refEnv 7 10 = 0 ∧
      fractionalRowWedge.coverage refEnv 8 10 = 240 ∧
      fractionalRowWedge.coverage refEnv 7 11 = 31 ∧
      writeCount (fractionalRowWedge.drawInteriorTo refEnv visibleSurface) 8 11 = 1 ∧
      writeCount (fractionalRowWedge.drawInteriorTo refEnv visibleSurface) 7 11 = 0 := by
  decide!

/-! ## C8 -/

theorem applyWrite_of_absolute (env : Env) (hfg : env.BlendOpaqueFg) (buf : PixelBuffer)
    (op : WriteOp) (hop : op.Absolute) (x y : ℤ) :
    applyWrite env buf op x y = (op.colorAt x y).getD (buf x y) := by
  unfold applyWrite
  cases hc : op.colorAt x y with
  | none => rfl
  | some c =>
    rcases hop with hm | ho
    · simp [hm]
    · cases hmode : op.mode with
      | PAINT_MODE_REPLACE => rfl
      | PAINT_MODE_BLEND => simpa using hfg (buf x y) c (ho x y c hc)

theorem applyWrites_of_absolute (env : Env) (hfg : env.BlendOpaqueFg) :
    ∀ (ops : List WriteOp) (buf : PixelBuffer), (∀ op ∈ ops, op.Absolute) →
      ∀ x y, applyWrites env buf ops x y = (lastColor ops x y).getD (buf x y) := by
  intro ops
  induction ops with
  | nil => intro buf _ x y; rfl
  | cons op ops ih =>
    intro buf h x y
    have h1 : op.Absolute := h op (List.mem_cons_self _ _)
    have h2 : ∀ o ∈ ops, o.Absolute := fun o ho => h o (List.mem_cons_of_mem _ ho)
    show applyWrites env (applyWrite env buf op) ops x y = _
    rw [ih (applyWrite env buf op) h2 x y, applyWrite_of_absolute env hfg buf op h1 x y]
    simp only [lastColor]
    cases lastColor ops x y <;> rfl

theorem applyWrites_twice_of_absolute (env : Env) (hfg : env.BlendOpaqueFg)
    (ops : List WriteOp) (buf : PixelBuffer) (h : ∀ op ∈ ops, op.Absolute) :
    applyWrites env (applyWrites env buf ops) ops = applyWrites env buf ops := by
  funext x y
  rw [applyWrites_of_absolute env hfg ops _ h x y, applyWrites_of_absolute env hfg ops buf h x y]
  cases lastColor ops x y <;> rfl

theorem blendedPixel_opaque (env : Env) (spec : SmoothRoundRectSpec) (c : Color)
    (h1 : spec.pre_blended_interior.a = 255) (h2 : spec.pre_blended_outline.a = 255)
    (h3 : ∀ c, (env.AlphaBlend spec.bgcolor c).a = 255) :
    (blendedPixel env spec c).a = 255 := by
  unfold blendedPixel
  split_ifs
  · exact h1
  · exact h2
  · exact h3 c

theorem fill_ops_absolute (env : Env) (spec : SmoothRoundRectSpec)
    (xMin yMin xMax yMax : ℤ)
    (h : spec.paint_mode = PaintMode.PAINT_MODE_REPLACE ∨
      (spec.bgcolor.a = 255 ∧ spec.pre_blended_interior.a = 255 ∧
        spec.pre_blended_outline.a = 255 ∧ ∀ c, (env.AlphaBlend spec.bgcolor c).a = 255)) :
    ∀ op ∈ FillSmoothRoundRectRectInternal env spec xMin yMin xMax yMax, op.Absolute := by
  intro op hop
  have fillInterior : (WriteOp.fillRect spec.paint_mode ⟨xMin, yMin, xMax, yMax⟩
      spec.pre_blended_interior).Absolute := by
    rcases h with h | ⟨_, hi, _, _⟩
    · exact Or.inl h
    · right
      intro x y c hc
      simp only [WriteOp.colorAt] at hc
      split at hc
      · cases hc; exact hi
      · cases hc
  unfold FillSmoothRoundRectRectInternal at hop
  split at hop
  · simp only [List.mem_singleton] at hop; rw [hop]; exact fillInterior
  · split at hop
    · simp only [List.mem_singleton] at hop; rw [hop]; exact fillInterior
    · cases hop
  · split at hop
    · simp only [List.mem_singleton] at hop; rw [hop]; exact Or.inl rfl
    · cases hop
  · split at hop
    · simp only [List.mem_filterMap] at hop
      obtain ⟨p, _, hp⟩ := hop
      split at hp
      · cases hp
      · simp only [Option.some.injEq] at hp
        rw [← hp]
        rcases h with h | ⟨_, hi, ho, hb⟩
        · exact Or.inl h
        · right
          intro x y c hc
          simp only [WriteOp.colorAt] at hc
          split at hc
          · cases hc; exact blendedPixel_opaque env spec _ hi ho hb
          · cases hc
    · simp only [List.mem_singleton] at hop
      rw [hop]
      rcases h with h | ⟨hbg, hi, ho, hb⟩
      · exact Or.inl h
      · right
        intro x y c hc
        simp only [WriteOp.colorAt] at hc
        split at hc
        · have hmem := List.get?_mem hc
          simp only [List.mem_map] at hmem
          obtain ⟨p, _, hp⟩ := hmem
          rw [← hp]
          split
          · exact hbg
          · exact blendedPixel_opaque env spec _ hi ho hb
        · cases hc

theorem SmoothRoundRectShape.toSpec_fields (env : Env) (sh : SmoothRoundRectShape)
    (s : Surface) :
    (sh.toSpec env s).paint_mode = s.paint_mode ∧ (sh.toSpec env s).fill_mode = s.fill_mode ∧
      (sh.toSpec env s).bgcolor = s.bgcolor ∧
      (sh.toSpec env s).pre_blended_interior = env.AlphaBlend s.bgcolor sh.interior_color ∧
      (sh.toSpec env s).pre_blended_outline =
        env.AlphaBlend (env.AlphaBlend s.bgcolor sh.interior_color) sh.outline_color ∧
      (sh.toSpec env s).interior = sh.interior_color ∧
      (sh.toSpec env s).color = sh.outline_color := by
  unfold SmoothRoundRectShape.toSpec
  split <;> exact ⟨rfl, rfl, rfl, rfl, rfl, rfl, rfl⟩

theorem SmoothRoundRectShape.drawTo_ops_absolute (env : Env) (hbg : env.BlendOpaqueBg)
    (sh : SmoothRoundRectShape) (s : Surface)
    (h : s.paint_mode = PaintMode.PAINT_MODE_REPLACE ∨ s.bgcolor.a = 255) :
    ∀ op ∈ sh.drawTo env s, op.Absolute := by
  intro op hop
  unfold SmoothRoundRectShape.drawTo at hop
  simp only [] at hop
  split at hop
  · cases hop
  · simp only [List.mem_flatMap] at hop
    obtain ⟨t, _, ht⟩ := hop
    obtain ⟨f1, _, f3, f4, f5, _, _⟩ := sh.toSpec_fields env s
    refine fill_ops_absolute env (sh.toSpec env s) t.xMin t.yMin t.xMax t.yMax ?_ op ht
    rcases h with h | h
    · left; rw [f1]; exact h
    · right
      rw [f3, f4, f5]
      exact ⟨h, hbg _ _ h, hbg _ _ (hbg _ _ h), fun c => hbg _ _ h⟩

theorem scanRowLoop_out (env : Env) (w : SmoothWedgeShape) (s : Surface) (yp : ℤ)
    (P : WriteOp → Prop)
    (hP : ∀ x alpha, P (WriteOp.writePixel s.paint_mode (x + s.dx) (yp + s.dy)
      (w.pixelColor env s alpha))) :
    ∀ (n : ℕ) (xp : ℤ) (endX : Bool) (st : ScanState), (∀ op ∈ st.out, P op) →
      ∀ op ∈ (scanRowLoop env w s yp n xp endX st).out, P op := by
  intro n
  induction n with
  | zero => intro xp endX st h; simpa [scanRowLoop] using h
  | succ n ih =>
    intro xp endX st h
    unfold scanRowLoop
    split
    · exact h
    · simp only []
      split
      · exact ih _ _ _ h
      · apply ih
        intro op hop
        simp only [List.mem_append, List.mem_singleton] at hop
        rcases hop with hop | hop
        · exact h op hop
        · rw [hop]; exact hP _ _

theorem scanDown_out (env : Env) (w : SmoothWedgeShape) (s : Surface) (box : Box)
    (P : WriteOp → Prop)
    (hP : ∀ x y alpha, P (WriteOp.writePixel s.paint_mode (x + s.dx) (y + s.dy)
      (w.pixelColor env s alpha))) :
    ∀ (n : ℕ) (yp : ℤ) (st : ScanState), (∀ op ∈ st.out, P op) →
      ∀ op ∈ (scanDown env w s box n yp st).out, P op := by
  intro n
  induction n with
  | zero => intro yp st h; simpa [scanDown] using h
  | succ n ih =>
    intro yp st h
    unfold scanDown
    exact ih _ _ (scanRowLoop_out env w s yp P (fun x a => hP x yp a) _ _ _ _ h)

theorem scanUp_out (env : Env) (w : SmoothWedgeShape) (s : Surface) (box : Box)
    (P : WriteOp → Prop)
    (hP : ∀ x y alpha, P (WriteOp.writePixel s.paint_mode (x + s.dx) (y + s.dy)
      (w.pixelColor env s alpha))) :
    ∀ (n : ℕ) (yp : ℤ) (st : ScanState), (∀ op ∈ st.out, P op) →
      ∀ op ∈ (scanUp env w s box n yp st).out, P op := by
  intro n
  induction n with
  | zero => intro yp st h; simpa [scanUp] using h
  | succ n ih =>
    intro yp st h
    unfold scanUp
    exact ih _ _ (scanRowLoop_out env w s yp P (fun x a => hP x yp a) _ _ _ _ h)

theorem SmoothWedgeShape.drawInteriorTo_out (env : Env) (w : SmoothWedgeShape)
    (s : Surface) (P : WriteOp → Prop)
    (hP : ∀ x y alpha, P (WriteOp.writePixel s.paint_mode (x + s.dx) (y + s.dy)
      (w.pixelColor env s alpha))) :
    ∀ op ∈ w.drawInteriorTo env s, P op := by
  unfold SmoothWedgeShape.drawInteriorTo
  simp only []
  split
  · intro op hop; cases hop
  · apply scanUp_out env w s _ P hP
    apply scanDown_out env w s _ P hP
    intro op hop; cases hop

theorem SmoothWedgeShape.drawInteriorTo_ops_absolute (env : Env) (hbg : env.BlendOpaqueBg)
    (w : SmoothWedgeShape) (s : Surface)
    (h : s.paint_mode = PaintMode.PAINT_MODE_REPLACE ∨ s.bgcolor.a = 255) :
    ∀ op ∈ w.drawInteriorTo env s, op.Absolute := by
  apply w.drawInteriorTo_out env s
  intro x y alpha
  rcases h with h | h
  · exact Or.inl h
  · right
    intro x' y' c hc
    simp only [WriteOp.colorAt] at hc
    split at hc
    · cases hc
      unfold SmoothWedgeShape.pixelColor
      split <;> exact hbg _ _ h
    · cases hc

/-- C8 as stated fails: on a compositing output in `PAINT_MODE_BLEND` with a
transparent background hint, the opaque red capsule sends a translucent colour
to its antialiased edge pixel `(8, 10)` (coverage 240); over a white buffer
one draw leaves a pale red there and the second draw changes it to a full red. -/
theorem C8_second_blend_changes_edge_pixel :
    fractionalRowWedge.color.a = 255 ∧
      blendSurface.paint_mode = PaintMode.PAINT_MODE_BLEND ∧
      applyWrites refEnv whiteBuffer
          (fractionalRowWedge.drawInteriorTo refEnv blendSurface) 8 10
        = ⟨255, 240, 15, 15⟩ ∧
      applyWrites refEnv (applyWrites refEnv whiteBuffer
          (fractionalRowWedge.drawInteriorTo refEnv blendSurface))
          (fractionalRowWedge.drawInteriorTo refEnv blendSurface) 8 10
        = ⟨255, 240, 0, 0⟩ ∧
      applyWrites refEnv (applyWrites refEnv whiteBuffer
          (fractionalRowWedge.drawInteriorTo refEnv blendSurface))
          (fractionalRowWedge.drawInteriorTo refEnv blendSurface) 8 10
        ≠ applyWrites refEnv whiteBuffer
          (fractionalRowWedge.drawInteriorTo refEnv blendSurface) 8 10 := by
  decide!

/-- C8 (amended): for every `SmoothRoundRectShape` and `SmoothWedgeShape` (with
opaque colours or not), every initial pixel buffer and every surface that is
in `PAINT_MODE_REPLACE` or has an opaque background colour, and such that the
box drawn by the round rectangle starts at `-32768` or above and ends below
32760 in both directions, drawing the shape twice at the same position leaves
the same pixel buffer as drawing it once, antialiased edge pixels included.
Within that range the `int16_t` counters of the loops of `drawTo` and of
`FillSmoothRoundRectRectInternal` do not wrap: the tile loops and, for every
tile, the pixel loops end after visiting the values listed by the embedding. -/
theorem C8_redraw_leaves_buffer_unchanged (env : Env) (hfg : env.BlendOpaqueFg)
    (hbg : env.BlendOpaqueBg) (sh : SmoothRoundRectShape) (w : SmoothWedgeShape)
    (s : Surface) (buf : PixelBuffer)
    (h : s.paint_mode = PaintMode.PAINT_MODE_REPLACE ∨ s.bgcolor.a = 255)
    (hx0 : -32768 ≤ (sh.drawBox s).xMin) (hy0 : -32768 ≤ (sh.drawBox s).yMin)
    (hx1 : (sh.drawBox s).xMax < 32760) (hy1 : (sh.drawBox s).yMax < 32760) :
    applyWrites env (applyWrites env buf (sh.drawTo env s)) (sh.drawTo env s)
        = applyWrites env buf (sh.drawTo env s) ∧
      applyWrites env (applyWrites env buf (w.drawInteriorTo env s)) (w.drawInteriorTo env s)
        = applyWrites env buf (w.drawInteriorTo env s) ∧
      int16Loop 8 (fun y => decide (y < Int.tdiv (sh.drawBox s).yMax 8 * 8 + 7)) 65537
          (Int.tdiv (sh.drawBox s).yMin 8 * 8)
        = some (tileStarts (Int.tdiv (sh.drawBox s).yMin 8 * 8)
            (Int.tdiv (sh.drawBox s).yMax 8 * 8 + 7)) ∧
      int16Loop 8 (fun x => decide (x < Int.tdiv (sh.drawBox s).xMax 8 * 8 + 7)) 65537
          (Int.tdiv (sh.drawBox s).xMin 8 * 8)
        = some (tileStarts (Int.tdiv (sh.drawBox s).xMin 8 * 8)
            (Int.tdiv (sh.drawBox s).xMax 8 * 8 + 7)) ∧
      ∀ t ∈ drawTiles (sh.drawBox s),
        int16Loop 1 (fun y => decide (y ≤ t.yMax)) 65537 t.yMin
            = some (intRange t.yMin t.yMax) ∧
          int16Loop 1 (fun x => decide (x ≤ t.xMax)) 65537 t.xMin
            = some (intRange t.xMin t.xMax) := by
  refine ⟨applyWrites_twice_of_absolute env hfg _ buf (sh.drawTo_ops_absolute env hbg s h),
    applyWrites_twice_of_absolute env hfg _ buf (w.drawInteriorTo_ops_absolute env hbg s h),
    ?_, ?_, ?_⟩
  · have b1 := tdiv8_lower (sh.drawBox s).yMin hy0
    have b2 := tdiv8_upper (sh.drawBox s).yMax hy1
    exact int16Loop_eq_tileStarts _ _ b1 (by omega)
  · have b1 := tdiv8_lower (sh.drawBox s).xMin hx0
    have b2 := tdiv8_upper (sh.drawBox s).xMax hx1
    exact int16Loop_eq_tileStarts _ _ b1 (by omega)
  · intro t ht
    obtain ⟨m1, m2, m3, m4⟩ := mem_drawTiles_bounds _ t ht
    exact ⟨int16Loop_eq_intRange t.yMax (by omega) _ t.yMin 65537 (by omega) rfl (by omega),
      int16Loop_eq_intRange t.xMax (by omega) _ t.xMin 65537 (by omega) rfl (by omega)⟩

theorem refEnv_blendOpaqueFg : refEnv.BlendOpaqueFg := by
  intro bg fg h
  show AlphaBlendRef bg fg = fg
  unfold AlphaBlendRef
  cases fg with
  | mk a r g b =>
    simp only at h
    subst h
    simp

theorem refEnv_blendOpaqueBg : refEnv.BlendOpaqueBg := by
  intro bg fg h
  show (AlphaBlendRef bg fg).a = 255
  unfold AlphaBlendRef
  simp only [h]
  omega

/-- C8 (amended), on an instance: the round rectangle and the capsule drawn
twice in `PAINT_MODE_BLEND` on a surface with an opaque white background hint,
over a white buffer; the box drawn is `[8, 22] × [8, 22]`. -/
theorem C8_redraw_leaves_buffer_unchanged_witness :
    refEnv.BlendOpaqueFg ∧ refEnv.BlendOpaqueBg ∧
      (blendOnWhiteSurface.paint_mode = PaintMode.PAINT_MODE_REPLACE ∨
        blendOnWhiteSurface.bgcolor.a = 255) ∧
      smallShape.drawBox blendOnWhiteSurface = ⟨8, 8, 22, 22⟩ ∧
      applyWrites refEnv (applyWrites refEnv whiteBuffer
          (smallShape.drawTo refEnv blendOnWhiteSurface))
          (smallShape.drawTo refEnv blendOnWhiteSurface)
        = applyWrites refEnv whiteBuffer (smallShape.drawTo refEnv blendOnWhiteSurface) ∧
      applyWrites refEnv (applyWrites refEnv whiteBuffer
          (fractionalRowWedge.drawInteriorTo refEnv blendOnWhiteSurface))
          (fractionalRowWedge.drawInteriorTo refEnv blendOnWhiteSurface)
        = applyWrites refEnv whiteBuffer
          (fractionalRowWedge.drawInteriorTo refEnv blendOnWhiteSurface) :=
  ⟨refEnv_blendOpaqueFg, refEnv_blendOpaqueBg, Or.inr (by decide), by decide!,
    (C8_redraw_leaves_buffer_unchanged refEnv refEnv_blendOpaqueFg refEnv_blendOpaqueBg
      smallShape fractionalRowWedge blendOnWhiteSurface whiteBuffer (Or.inr (by decide))
      (by decide!) (by decide!) (by decide!) (by decide!)).1,
    (C8_redraw_leaves_buffer_unchanged refEnv refEnv_blendOpaqueFg refEnv_blendOpaqueBg
      smallShape fractionalRowWedge blendOnWhiteSurface whiteBuffer (Or.inr (by decide))
      (by decide!) (by decide!) (by decide!) (by decide!)).2.1⟩

/-! ## C9 -/

theorem inDisc_bounds (c : FpPoint) (w px py : ℚ) (hw : 0 ≤ w) (h : inDisc c w px py) :
    c.x - w ≤ px ∧ px ≤ c.x + w ∧ c.y - w ≤ py ∧ py ≤ c.y + w := by
  unfold inDisc at h
  refine ⟨?_, ?_, ?_, ?_⟩ <;> by_contra hc <;> push_neg at hc <;>
    nlinarith [mul_self_nonneg (px - c.x), mul_self_nonneg (py - c.y)]

/-- C9 as stated fails, in two ways. The endpoints `(-32768, 0)` and the
widths 1 are within `int16_t` range, but the left bound `floor(-32769)` is not
and is stored as 32767. And for the endpoints `(2.7f, 0)` with widths `0.3f`
the `float` sum `2.7f + 0.3f` is 3, below the exact sum `3 + 2⁻²⁴`: the right
bound is 3 where the claimed box has 4, and the point of the disc with the
largest `x` is outside `extents()`. -/
theorem C9_extents_differ_from_disc_box :
    leftEdgeWedge.extents.xMin = 32767 ∧
      (discsBox ⟨-32768, 0⟩ 1 ⟨-32768, 0⟩ 1).xMin = -32769 ∧
      leftEdgeWedge.extents ≠ discsBox ⟨-32768, 0⟩ 1 ⟨-32768, 0⟩ 1 ∧
      refEnv.fl (11324621 / 4194304) = 11324621 / 4194304 ∧
      refEnv.fl (5033165 / 16777216) = 5033165 / 16777216 ∧
      fitsInt16 (discsBox ⟨11324621 / 4194304, 0⟩ (5033165 / 16777216)
        ⟨11324621 / 4194304, 0⟩ (5033165 / 16777216)).xMax ∧
      (discsBox ⟨11324621 / 4194304, 0⟩ (5033165 / 16777216)
        ⟨11324621 / 4194304, 0⟩ (5033165 / 16777216)).xMax = 4 ∧
      roundedSumWedge.extents = ⟨2, -1, 3, 1⟩ ∧
      inDisc ⟨11324621 / 4194304, 0⟩ (5033165 / 16777216)
        (11324621 / 4194304 + 5033165 / 16777216) 0 ∧
      (roundedSumWedge.extents.xMax : ℚ) < 11324621 / 4194304 + 5033165 / 16777216 := by
  refine ⟨by decide!, by decide!, by decide!, by decide!, by decide!, by decide!, by decide!,
    by decide!, ?_, by decide!⟩
  unfold inDisc
  norm_num

/-- C9 (amended): whenever the four bounds
`floor(min(a.x - a_width, b.x - b_width))`, `floor(min(a.y - a_width, b.y - b_width))`,
`ceil(max(a.x + a_width, b.x + b_width))`, `ceil(max(a.y + a_width, b.y + b_width))`,
with every sum and difference rounded to `float`, are within `int16_t` range,
`extents()` is the box with these bounds. When moreover the widths are `≥ 0`
and the eight sums and differences are exact, that box contains every point of
both endpoint discs, and every integer box that contains both discs contains
it. -/
theorem C9_extents_is_box_of_rounded_bounds (env : Env) (a b : FpPoint)
    (a_width b_width : ℚ) (color : Color)
    (hx0 : fitsInt16 ⌊min (env.fl (a.x - a_width)) (env.fl (b.x - b_width))⌋)
    (hy0 : fitsInt16 ⌊min (env.fl (a.y - a_width)) (env.fl (b.y - b_width))⌋)
    (hx1 : fitsInt16 ⌈max (env.fl (a.x + a_width)) (env.fl (b.x + b_width))⌉)
    (hy1 : fitsInt16 ⌈max (env.fl (a.y + a_width)) (env.fl (b.y + b_width))⌉) :
    (SmoothWedgeShape.make env a a_width b b_width color).extents
        = ⟨⌊min (env.fl (a.x - a_width)) (env.fl (b.x - b_width))⌋,
           ⌊min (env.fl (a.y - a_width)) (env.fl (b.y - b_width))⌋,
           ⌈max (env.fl (a.x + a_width)) (env.fl (b.x + b_width))⌉,
           ⌈max (env.fl (a.y + a_width)) (env.fl (b.y + b_width))⌉⟩ ∧
      (0 ≤ a_width → 0 ≤ b_width →
        env.fl (a.x - a_width) = a.x - a_width → env.fl (b.x - b_width) = b.x - b_width →
        env.fl (a.y - a_width) = a.y - a_width → env.fl (b.y - b_width) = b.y - b_width →
        env.fl (a.x + a_width) = a.x + a_width → env.fl (b.x + b_width) = b.x + b_width →
        env.fl (a.y + a_width) = a.y + a_width → env.fl (b.y + b_width) = b.y + b_width →
        (SmoothWedgeShape.make env a a_width b b_width color).extents
          = discsBox a a_width b b_width ∧
        (∀ px py : ℚ, inDisc a a_width px py ∨ inDisc b b_width px py →
          ((SmoothWedgeShape.make env a a_width b b_width color).extents.xMin : ℚ) ≤ px ∧
          px ≤ (SmoothWedgeShape.make env a a_width b b_width color).extents.xMax ∧
          ((SmoothWedgeShape.make env a a_width b b_width color).extents.yMin : ℚ) ≤ py ∧
          py ≤ (SmoothWedgeShape.make env a a_width b b_width color).extents.yMax) ∧
        (∀ B : Box,
          (∀ px py : ℚ, inDisc a a_width px py ∨ inDisc b b_width px py →
            (B.xMin : ℚ) ≤ px ∧ px ≤ B.xMax ∧ (B.yMin : ℚ) ≤ py ∧ py ≤ B.yMax) →
          B.xMin ≤ (SmoothWedgeShape.make env a a_width b b_width color).extents.xMin ∧
          B.yMin ≤ (SmoothWedgeShape.make env a a_width b b_width color).extents.yMin ∧
          (SmoothWedgeShape.make env a a_width b b_width color).extents.xMax ≤ B.xMax ∧
          (SmoothWedgeShape.make env a a_width b b_width color).extents.yMax ≤ B.yMax)) := by
  have hext : (SmoothWedgeShape.make env a a_width b b_width color).extents
      = ⟨⌊min (env.fl (a.x - a_width)) (env.fl (b.x - b_width))⌋,
         ⌊min (env.fl (a.y - a_width)) (env.fl (b.y - b_width))⌋,
         ⌈max (env.fl (a.x + a_width)) (env.fl (b.x + b_width))⌉,
         ⌈max (env.fl (a.y + a_width)) (env.fl (b.y + b_width))⌉⟩ := by
    simp only [SmoothWedgeShape.make, toInt16_toInt32]
    rw [toInt16_of_fits _ hx0, toInt16_of_fits _ hy0, toInt16_of_fits _ hx1,
      toInt16_of_fits _ hy1]
  refine ⟨hext, ?_⟩
  intro ha hb e1 e2 e3 e4 e5 e6 e7 e8
  have hd : (SmoothWedgeShape.make env a a_width b b_width color).extents
      = discsBox a a_width b b_width := by
    rw [hext, e1, e2, e3, e4, e5, e6, e7, e8]
    rfl
  rw [hd]
  refine ⟨rfl, ?_, ?_⟩
  · intro px py hp
    simp only [discsBox]
    have hfx := Int.floor_le (min (a.x - a_width) (b.x - b_width))
    have hfy := Int.floor_le (min (a.y - a_width) (b.y - b_width))
    have hcx := Int.le_ceil (max (a.x + a_width) (b.x + b_width))
    have hcy := Int.le_ceil (max (a.y + a_width) (b.y + b_width))
    have m1 := min_le_left (a.x - a_width) (b.x - b_width)
    have m2 := min_le_right (a.x - a_width) (b.x - b_width)
    have m3 := min_le_left (a.y - a_width) (b.y - b_width)
    have m4 := min_le_right (a.y - a_width) (b.y - b_width)
    have m5 := le_max_left (a.x + a_width) (b.x + b_width)
    have m6 := le_max_right (a.x + a_width) (b.x + b_width)
    have m7 := le_max_left (a.y + a_width) (b.y + b_width)
    have m8 := le_max_right (a.y + a_width) (b.y + b_width)
    rcases hp with hp | hp
    · obtain ⟨b1, b2, b3, b4⟩ := inDisc_bounds a a_width px py ha hp
      exact ⟨by linarith, by linarith, by linarith, by linarith⟩
    · obtain ⟨b1, b2, b3, b4⟩ := inDisc_bounds b b_width px py hb hp
      exact ⟨by linarith, by linarith, by linarith, by linarith⟩
  · intro B hB
    simp only [discsBox]
    have pa_left : inDisc a a_width (a.x - a_width) a.y := by
      unfold inDisc
      exact le_of_eq (by ring)
    have pa_right : inDisc a a_width (a.x + a_width) a.y := by
      unfold inDisc
      exact le_of_eq (by ring)
    have pa_top : inDisc a a_width a.x (a.y - a_width) := by
      unfold inDisc
      exact le_of_eq (by ring)
    have pa_bot : inDisc a a_width a.x (a.y + a_width) := by
      unfold inDisc
      exact le_of_eq (by ring)
    have pb_left : inDisc b b_width (b.x - b_width) b.y := by
      unfold inDisc
      exact le_of_eq (by ring)
    have pb_right : inDisc b b_width (b.x + b_width) b.y := by
      unfold inDisc
      exact le_of_eq (by ring)
    have pb_top : inDisc b b_width b.x (b.y - b_width) := by
      unfold inDisc
      exact le_of_eq (by ring)
    have pb_bot : inDisc b b_width b.x (b.y + b_width) := by
      unfold inDisc
      exact le_of_eq (by ring)
    refine ⟨?_, ?_, ?_, ?_⟩
    · exact Int.le_floor.mpr (le_min (hB _ _ (Or.inl pa_left)).1 (hB _ _ (Or.inr pb_left)).1)
    · exact Int.le_floor.mpr
        (le_min (hB _ _ (Or.inl pa_top)).2.2.1 (hB _ _ (Or.inr pb_top)).2.2.1)
    · exact Int.ceil_le.mpr
        (max_le (hB _ _ (Or.inl pa_right)).2.1 (hB _ _ (Or.inr pb_right)).2.1)
    · exact Int.ceil_le.mpr
        (max_le (hB _ _ (Or.inl pa_bot)).2.2.2 (hB _ _ (Or.inr pb_bot)).2.2.2)

/-- C9 (amended), on an instance: the capsule from `(10, 10.875)` to
`(20, 10.875)` of half-width 2.625, whose sums and differences are exact in
`float`, has extents `[7, 23] × [8, 14]`, and every integer box containing both
endpoint discs contains that box. -/
theorem C9_extents_is_box_of_rounded_bounds_witness :
    fitsInt16 ⌊min (refEnv.fl (10 - 21 / 8)) (refEnv.fl (20 - 21 / 8))⌋ ∧
      fitsInt16 ⌊min (refEnv.fl (87 / 8 - 21 / 8)) (refEnv.fl (87 / 8 - 21 / 8))⌋ ∧
      fitsInt16 ⌈max (refEnv.fl (10 + 21 / 8)) (refEnv.fl (20 + 21 / 8))⌉ ∧
      fitsInt16 ⌈max (refEnv.fl (87 / 8 + 21 / 8)) (refEnv.fl (87 / 8 + 21 / 8))⌉ ∧
      refEnv.fl (10 - 21 / 8) = 10 - 21 / 8 ∧ refEnv.fl (20 - 21 / 8) = 20 - 21 / 8 ∧
      refEnv.fl (87 / 8 - 21 / 8) = 87 / 8 - 21 / 8 ∧
      refEnv.fl (10 + 21 / 8) = 10 + 21 / 8 ∧ refEnv.fl (20 + 21 / 8) = 20 + 21 / 8 ∧
      refEnv.fl (87 / 8 + 21 / 8) = 87 / 8 + 21 / 8 ∧
      fractionalRowWedge.extents = ⟨7, 8, 23, 14⟩ ∧
      (∀ B : Box,
        (∀ px py : ℚ,
          inDisc ⟨10, 87 / 8⟩ (21 / 8) px py ∨ inDisc ⟨20, 87 / 8⟩ (21 / 8) px py →
            (B.xMin : ℚ) ≤ px ∧ px ≤ B.xMax ∧ (B.yMin : ℚ) ≤ py ∧ py ≤ B.yMax) →
        B.xMin ≤ 7 ∧ B.yMin ≤ 8 ∧ 23 ≤ B.xMax ∧ 14 ≤ B.yMax) := by
  have h := (C9_extents_is_box_of_rounded_bounds refEnv ⟨10, 87 / 8⟩ ⟨20, 87 / 8⟩
    (21 / 8) (21 / 8) red (by decide!) (by decide!) (by decide!) (by decide!)).2
    (by norm_num) (by norm_num) (by decide!) (by decide!) (by decide!) (by decide!)
    (by decide!) (by decide!) (by decide!) (by decide!)
  have hE : (SmoothWedgeShape.make refEnv ⟨10, 87 / 8⟩ (21 / 8) ⟨20, 87 / 8⟩ (21 / 8)
      red).extents = ⟨7, 8, 23, 14⟩ := by decide!
  rw [hE] at h
  exact ⟨by decide!, by decide!, by decide!, by decide!, by decide!, by decide!, by decide!,
    by decide!, by decide!, by decide!, hE, h.2.2⟩

/-! ## C10 -/

/-- C10: when the clip box does not intersect the offset-translated extents of
the shape, `SmoothWedgeShape::drawInteriorTo` and
`SmoothRoundRectShape::drawTo` return without issuing any write. -/
theorem C10_disjoint_clip_box_issues_no_write (env : Env) (w : SmoothWedgeShape)
    (sh : SmoothRoundRectShape) (s : Surface) :
    ((Box.Intersect (w.extents.translate s.dx s.dy) s.clip_box).empty = true →
        w.drawInteriorTo env s = []) ∧
      ((Box.Intersect (sh.extents.translate s.dx s.dy) s.clip_box).empty = true →
        sh.drawTo env s = []) := by
  constructor
  · intro h
    have h' : (w.drawBox s).empty = true := by
      rw [SmoothWedgeShape.drawBox, Box.empty_intersect_translate]; exact h
    simp [SmoothWedgeShape.drawInteriorTo, h']
  · intro h
    have h' : (sh.drawBox s).empty = true := h
    simp [SmoothRoundRectShape.drawTo, h']

/-- C10, on an instance: the capsule and the round rectangle drawn on a surface
clipped to `[200, 210] × [200, 210]`. -/
theorem C10_disjoint_clip_box_issues_no_write_witness :
    (Box.Intersect (fractionalRowWedge.extents.translate farSurface.dx farSurface.dy)
        farSurface.clip_box).empty = true ∧
      (Box.Intersect (smallShape.extents.translate farSurface.dx farSurface.dy)
        farSurface.clip_box).empty = true ∧
      fractionalRowWedge.drawInteriorTo refEnv farSurface = [] ∧
      smallShape.drawTo refEnv farSurface = [] :=
  ⟨by decide!, by decide!,
    (C10_disjoint_clip_box_issues_no_write refEnv fractionalRowWedge smallShape
      farSurface).1 (by decide!),
    (C10_disjoint_clip_box_issues_no_write refEnv fractionalRowWedge smallShape
      farSurface).2 (by decide!)⟩

/-! ## C11 -/

/-- C11: if the touch device reports no touch, `TouchDisplay::getTouch` returns
false and leaves the caller's `x` and `y` unchanged: the result does not depend
on the calibration, the orientation or the size of the device. -/
theorem C11_no_touch_leaves_outputs_unchanged (td : TouchDisplay) (x y : ℤ)
    (h : td.touch_device.touched = false) : td.getTouch x y = (false, x, y) := by
  unfold TouchDisplay.getTouch
  rw [if_pos h]

/-- C11, on an instance: the rotated 320 × 240 device without a touch, called
with `x = 11`, `y = 22`. -/
theorem C11_no_touch_leaves_outputs_unchanged_witness :
    untouchedDisplay.touch_device.touched = false ∧
      untouchedDisplay.getTouch 11 22 = (false, 11, 22) :=
  ⟨rfl, C11_no_touch_leaves_outputs_unchanged untouchedDisplay 11 22 rfl⟩

/-! ## C12 -/

theorem touchScale_eq (c size : ℤ) (hc0 : 0 ≤ c) (hc1 : c ≤ 4095) (hs0 : 1 ≤ size)
    (hs1 : size ≤ 32767) :
    touchScale c size = c * (size - 1) / 4095 ∧ 0 ≤ c * (size - 1) / 4095 ∧
      c * (size - 1) / 4095 ≤ size - 1 := by
  have hp0 : 0 ≤ c * (size - 1) := mul_nonneg hc0 (by omega)
  have hp1 : c * (size - 1) ≤ 4095 * (size - 1) :=
    mul_le_mul_of_nonneg_right hc1 (by omega)
  unfold touchScale
  generalize c * (size - 1) = p at hp0 hp1
  have h32 : toInt32 p = p := by unfold toInt32; omega
  rw [h32, Int.tdiv_eq_ediv hp0 (by norm_num)]
  have hq0 : 0 ≤ p / 4095 := by omega
  have hq1 : p / 4095 ≤ size - 1 := by omega
  refine ⟨?_, hq0, hq1⟩
  unfold toInt16
  omega

theorem touchScale_mono (c c' size : ℤ) (hc0 : 0 ≤ c) (hcc : c ≤ c') (hc1 : c' ≤ 4095)
    (hs0 : 1 ≤ size) (hs1 : size ≤ 32767) : touchScale c size ≤ touchScale c' size := by
  rw [(touchScale_eq c size hc0 (by omega) hs0 hs1).1,
    (touchScale_eq c' size (by omega) hc1 hs0 hs1).1]
  exact Int.ediv_le_ediv (by norm_num) (mul_le_mul_of_nonneg_right hcc (by omega))

/-- C12: if the device reports a touch whose calibrated raw coordinates
`(rx, ry)` lie in `[0, 4095]`, `getTouch` returns true with
`x = floor(cx * (W - 1) / 4095)` and `y = floor(cy * (H - 1) / 4095)`, where
`(cx, cy)` is `(rx, ry)` after the flip `4095 - rx` for right-to-left, the flip
`4095 - ry` for bottom-to-top and the exchange for XY-swapped orientations, and
`W`, `H` are the effective width and height. Then `0 ≤ x ≤ W - 1` and
`0 ≤ y ≤ H - 1`; the scaling maps 0 to 0 and 4095 to `W - 1`, and is monotone. -/
theorem C12_touch_scaled_into_display (td : TouchDisplay) (x y rx ry rz : ℤ)
    (ht : td.touch_device.touched = true)
    (hcal : td.Calibrate (td.touch_device.raw_x, td.touch_device.raw_y,
      td.touch_device.raw_z) = (rx, ry, rz))
    (hx0 : 0 ≤ rx) (hx1 : rx ≤ 4095) (hy0 : 0 ≤ ry) (hy1 : ry ≤ 4095)
    (hw0 : 1 ≤ td.display_device.effective_width)
    (hw1 : td.display_device.effective_width ≤ 32767)
    (hh0 : 1 ≤ td.display_device.effective_height)
    (hh1 : td.display_device.effective_height ≤ 32767) :
    (td.getTouch x y =
        (true,
          (if td.display_device.orientation.isXYswapped
            then (if td.display_device.orientation.isBottomToTop then 4095 - ry else ry)
            else (if td.display_device.orientation.isRightToLeft then 4095 - rx else rx))
            * (td.display_device.effective_width - 1) / 4095,
          (if td.display_device.orientation.isXYswapped
            then (if td.display_device.orientation.isRightToLeft then 4095 - rx else rx)
            else (if td.display_device.orientation.isBottomToTop then 4095 - ry else ry))
            * (td.display_device.effective_height - 1) / 4095)) ∧
      (0 ≤ (td.getTouch x y).2.1 ∧
        (td.getTouch x y).2.1 ≤ td.display_device.effective_width - 1 ∧
        0 ≤ (td.getTouch x y).2.2 ∧
        (td.getTouch x y).2.2 ≤ td.display_device.effective_height - 1) ∧
      (∀ size : ℤ, 1 ≤ size → size ≤ 32767 →
        touchScale 0 size = 0 ∧ touchScale 4095 size = size - 1 ∧
        ∀ c c' : ℤ, 0 ≤ c → c ≤ c' → c' ≤ 4095 → touchScale c size ≤ touchScale c' size) := by
  have hget : td.getTouch x y =
      (true,
        touchScale (if td.display_device.orientation.isXYswapped
            then (if td.display_device.orientation.isBottomToTop then 4095 - ry else ry)
            else (if td.display_device.orientation.isRightToLeft then 4095 - rx else rx))
          td.display_device.effective_width,
        touchScale (if td.display_device.orientation.isXYswapped
            then (if td.display_device.orientation.isRightToLeft then 4095 - rx else rx)
            else (if td.display_device.orientation.isBottomToTop then 4095 - ry else ry))
          td.display_device.effective_height) := by
    have e1 : toInt16 (4095 - rx) = 4095 - rx := by unfold toInt16; omega
    have e2 : toInt16 (4095 - ry) = 4095 - ry := by unfold toInt16; omega
    unfold TouchDisplay.getTouch
    rw [if_neg (by rw [ht]; decide), hcal]
    simp only [e1, e2]
    cases td.display_device.orientation.isXYswapped <;> rfl
  have bx : 0 ≤ (if td.display_device.orientation.isRightToLeft then 4095 - rx else rx) ∧
      (if td.display_device.orientation.isRightToLeft then 4095 - rx else rx) ≤ 4095 := by
    split <;> omega
  have by' : 0 ≤ (if td.display_device.orientation.isBottomToTop then 4095 - ry else ry) ∧
      (if td.display_device.orientation.isBottomToTop then 4095 - ry else ry) ≤ 4095 := by
    split <;> omega
  have bcx : 0 ≤ (if td.display_device.orientation.isXYswapped
        then (if td.display_device.orientation.isBottomToTop then 4095 - ry else ry)
        else (if td.display_device.orientation.isRightToLeft then 4095 - rx else rx)) ∧
      (if td.display_device.orientation.isXYswapped
        then (if td.display_device.orientation.isBottomToTop then 4095 - ry else ry)
        else (if td.display_device.orientation.isRightToLeft then 4095 - rx else rx)) ≤ 4095 := by
    split
    · exact by'
    · exact bx
  have bcy : 0 ≤ (if td.display_device.orientation.isXYswapped
        then (if td.display_device.orientation.isRightToLeft then 4095 - rx else rx)
        else (if td.display_device.orientation.isBottomToTop then 4095 - ry else ry)) ∧
      (if td.display_device.orientation.isXYswapped
        then (if td.display_device.orientation.isRightToLeft then 4095 - rx else rx)
        else (if td.display_device.orientation.isBottomToTop then 4095 - ry else ry)) ≤ 4095 := by
    split
    · exact bx
    · exact by'
  have sx := touchScale_eq _ _ bcx.1 bcx.2 hw0 hw1
  have sy := touchScale_eq _ _ bcy.1 bcy.2 hh0 hh1
  refine ⟨?_, ?_, ?_⟩
  · rw [hget, sx.1, sy.1]
  · rw [hget]
    simp only []
    rw [sx.1, sy.1]
    exact ⟨sx.2.1, sx.2.2, sy.2.1, sy.2.2⟩
  · intro size hs0 hs1
    refine ⟨?_, ?_, ?_⟩
    · have := (touchScale_eq 0 size le_rfl (by norm_num) hs0 hs1).1
      simpa using this
    · have := (touchScale_eq 4095 size (by norm_num) le_rfl hs0 hs1).1
      rw [this]
      exact Int.mul_ediv_cancel_left _ (by norm_num)
    · intro c c' h0 hcc h1
      exact touchScale_mono c c' size h0 hcc h1 hs0 hs1

/-- C12, on an instance: a touch at raw `(1000, 3000)` on the 320 × 240 device
whose orientation swaps the axes and is right-to-left, so that the effective
size is 240 × 320, gives `x = 3000 * 239 / 4095 = 175` and
`y = 3095 * 319 / 4095 = 241`. -/
theorem C12_touch_scaled_into_display_witness :
    touchedDisplay.touch_device.touched = true ∧
      touchedDisplay.Calibrate (touchedDisplay.touch_device.raw_x,
        touchedDisplay.touch_device.raw_y, touchedDisplay.touch_device.raw_z)
        = (1000, 3000, 50) ∧
      touchedDisplay.display_device.effective_width = 240 ∧
      touchedDisplay.display_device.effective_height = 320 ∧
      touchedDisplay.getTouch 0 0 = (true, 175, 241) := by
  have h := (C12_touch_scaled_into_display touchedDisplay 0 0 1000 3000 50 rfl rfl
    (by norm_num) (by norm_num) (by norm_num) (by norm_num) (by decide) (by decide)
    (by decide) (by decide)).1
  refine ⟨rfl, rfl, by decide, by decide, ?_⟩
  rw [h]
  decide

/-! ## C13 -/

theorem beginEndCalls_append (a b : List DeviceCall) :
    beginEndCalls (a ++ b) = beginEndCalls a ++ beginEndCalls b := by
  induction a with
  | nil => rfl
  | cons c a ih => cases c <;> simp [beginEndCalls, ih]

theorem alternation_begin (k : ℕ) : alternation k false ++ [true] = alternation k true := by
  simp [alternation]

theorem alternation_end (k : ℕ) : alternation k true ++ [false] = alternation (k + 1) false := by
  simp [alternation, List.replicate_succ']

theorem nest_invariant (d : Display) (depth : ℕ) (h : nestingInvariant d depth) :
    nestingInvariant d.nest (depth + 1) := by
  obtain ⟨hl, k, hk⟩ := h
  refine ⟨by simp [Display.nest, hl], ?_⟩
  cases depth with
  | zero =>
    refine ⟨k, ?_⟩
    have : d.nest_level = 0 := by simpa using hl
    simp only [Display.nest, this, if_true, beginEndCalls_append, hk]
    simpa [beginEndCalls] using alternation_begin k
  | succ n =>
    refine ⟨k, ?_⟩
    have : ¬ d.nest_level = 0 := by rw [hl]; push_cast; omega
    simp only [Display.nest, this, if_false, hk]
    simp

theorem unnest_invariant (d : Display) (depth : ℕ) (h : nestingInvariant d (depth + 1)) :
    nestingInvariant d.unnest depth := by
  obtain ⟨hl, k, hk⟩ := h
  refine ⟨by simp [Display.unnest, hl], ?_⟩
  cases depth with
  | zero =>
    refine ⟨k + 1, ?_⟩
    have : d.nest_level - 1 = 0 := by rw [hl]; simp
    simp only [Display.unnest, this, if_true, beginEndCalls_append, hk]
    simpa [beginEndCalls] using alternation_end k
  | succ n =>
    refine ⟨k, ?_⟩
    have : ¬ d.nest_level - 1 = 0 := by rw [hl]; push_cast; omega
    simp only [Display.unnest, this, if_false, hk]
    simp

theorem other_calls_invariant (d : Display) (depth : ℕ) (h : nestingInvariant d depth)
    (d' : Display) (hl : d'.nest_level = d.nest_level) (c : DeviceCall)
    (hc : beginEndCalls [c] = []) (hcalls : d'.calls = d.calls ++ [c]) :
    nestingInvariant d' depth := by
  obtain ⟨hl0, k, hk⟩ := h
  refine ⟨by rw [hl, hl0], k, ?_⟩
  rw [hcalls, beginEndCalls_append, hc, hk]
  simp

theorem setOrientation_invariant (d : Display) (depth : ℕ) (o : Orientation)
    (h : nestingInvariant d depth) : nestingInvariant (d.setOrientation o) depth := by
  unfold Display.setOrientation
  split
  · exact h
  · have h1 : nestingInvariant ({ d with orientation := o } : Display) depth := h
    have h2 := nest_invariant _ depth h1
    have h3 : nestingInvariant (({ d with orientation := o } : Display).nest.deviceSetOrientation o)
        (depth + 1) :=
      other_calls_invariant _ _ h2 _ rfl (DeviceCall.setOrientation o) rfl rfl
    have h4 := unnest_invariant _ depth h3
    exact h4

theorem clear_invariant (d : Display) (depth : ℕ) (h : nestingInvariant d depth) :
    nestingInvariant d.clear depth := by
  unfold Display.clear Display.contextConstructed Display.contextDestroyed
  have h2 := nest_invariant _ depth h
  have h3 : nestingInvariant
      ({ d.nest with calls := d.nest.calls ++ [DeviceCall.write] } : Display) (depth + 1) :=
    other_calls_invariant _ _ h2 _ rfl DeviceCall.write rfl rfl
  exact unnest_invariant _ depth h3

theorem run_invariant : ∀ (actions : List DisplayAction) (d : Display) (depth : ℕ),
    nestingInvariant d depth → properlyNested depth actions = true →
    nestingInvariant (d.run actions) (openContexts depth actions) := by
  intro actions
  induction actions with
  | nil => intro d depth h _; exact h
  | cons a rest ih =>
    intro d depth h hn
    show nestingInvariant ((d.step a).run rest) _
    cases a with
    | construct =>
      exact ih _ _ (nest_invariant d depth h) hn
    | destroy =>
      cases depth with
      | zero => simp [properlyNested] at hn
      | succ n => exact ih _ _ (unnest_invariant d n h) hn
    | setOrientation o => exact ih _ _ (setOrientation_invariant d depth o h) hn
    | clear => exact ih _ _ (clear_invariant d depth h) hn

/-- C13: for every properly nested sequence of `DrawingContext` constructions
and destructions, interleaved with `Display::setOrientation` and
`Display::clear`, on a display that starts at nest level 0 with no device call:
the nest level is the number of live contexts (so never negative, and 0 once
the outermost context is destroyed), and the `begin()`/`end()` calls of the
device strictly alternate starting with `begin()`, with a `begin()` left
unmatched exactly while the nest level is positive. As every prefix of such a
sequence is one, this holds after every step. -/
theorem C13_begin_end_follow_nest_level (d : Display) (actions : List DisplayAction)
    (hlevel : d.nest_level = 0) (hcalls : d.calls = [])
    (hnested : properlyNested 0 actions = true) :
    (d.run actions).nest_level = openContexts 0 actions ∧
      0 ≤ (d.run actions).nest_level ∧
      (openContexts 0 actions = 0 → (d.run actions).nest_level = 0) ∧
      ∃ k, beginEndCalls (d.run actions).calls
        = alternation k (decide (0 < (d.run actions).nest_level)) := by
  have h0 : nestingInvariant d 0 := ⟨by simpa using hlevel, 0, by simp [hcalls, beginEndCalls, alternation]⟩
  obtain ⟨hl, k, hk⟩ := run_invariant actions d 0 h0 hnested
  refine ⟨hl, by rw [hl]; exact Int.natCast_nonneg _, fun h => by rw [hl, h]; rfl, k, ?_⟩
  rw [hk, hl]
  simp

/-- C13, on an instance: a context is opened, the orientation is changed and
the display cleared inside it, a nested context is opened and closed, the
outer context is closed, and the orientation is changed again. The device
receives `begin`, …, `end`, `begin`, `setOrientation`, `end`. -/
theorem C13_begin_end_follow_nest_level_witness :
    idleDisplay.nest_level = 0 ∧ idleDisplay.calls = [] ∧
      properlyNested 0
        [DisplayAction.construct, DisplayAction.setOrientation ⟨true, false, false⟩,
          DisplayAction.clear, DisplayAction.construct, DisplayAction.destroy,
          DisplayAction.destroy, DisplayAction.setOrientation ⟨false, false, false⟩] = true ∧
      (idleDisplay.run
        [DisplayAction.construct, DisplayAction.setOrientation ⟨true, false, false⟩,
          DisplayAction.clear, DisplayAction.construct, DisplayAction.destroy,
          DisplayAction.destroy,
          DisplayAction.setOrientation ⟨false, false, false⟩]).calls
        = [DeviceCall.begin_, DeviceCall.setOrientation ⟨true, false, false⟩, DeviceCall.write,
            DeviceCall.end_, DeviceCall.begin_,
            DeviceCall.setOrientation ⟨false, false, false⟩, DeviceCall.end_] ∧
      (idleDisplay.run
        [DisplayAction.construct, DisplayAction.setOrientation ⟨true, false, false⟩,
          DisplayAction.clear, DisplayAction.construct, DisplayAction.destroy,
          DisplayAction.destroy,
          DisplayAction.setOrientation ⟨false, false, false⟩]).nest_level = 0 := by
  have h := C13_begin_end_follow_nest_level idleDisplay
    [DisplayAction.construct, DisplayAction.setOrientation ⟨true, false, false⟩,
      DisplayAction.clear, DisplayAction.construct, DisplayAction.destroy,
      DisplayAction.destroy, DisplayAction.setOrientation ⟨false, false, false⟩]
    rfl rfl (by decide)
  exact ⟨rfl, rfl, by decide, by decide, h.2.2.1 (by decide)⟩

/-! ## C14 -/

/-- C14: `Display::setOrientation(o)` changes nothing and issues no device call
when `o` is the current orientation. Otherwise the display's orientation
becomes `o`; the device receives `setOrientation(o)` exactly once, preceded by
`begin()` and followed by `end()` exactly when the call is made at nest level
0 (the calls of `nest()` and of its matching `unnest()`); the nest level is the
one before the call; and the extents are recomputed from the device in its new
orientation. -/
theorem C14_setOrientation_effect (d : Display) (o : Orientation) :
    (d.orientation = o → d.setOrientation o = d) ∧
      (d.orientation ≠ o →
        (d.setOrientation o).orientation = o ∧
        (d.setOrientation o).calls =
          d.calls ++ (if d.nest_level = 0 then [DeviceCall.begin_] else []) ++
            [DeviceCall.setOrientation o] ++
            (if d.nest_level = 0 then [DeviceCall.end_] else []) ∧
        (d.setOrientation o).calls =
          ((({ d with orientation := o } : Display).nest.deviceSetOrientation o).unnest).calls ∧
        (d.setOrientation o).nest_level = d.nest_level ∧
        (d.setOrientation o).display_device = { d.display_device with orientation := o } ∧
        (d.setOrientation o).extents =
          ⟨0, 0, ({ d.display_device with orientation := o } : DisplayDevice).effective_width - 1,
            ({ d.display_device with orientation := o } : DisplayDevice).effective_height - 1⟩) := by
  constructor
  · intro h
    unfold Display.setOrientation
    rw [if_pos h]
  · intro h
    unfold Display.setOrientation
    rw [if_neg h]
    refine ⟨rfl, ?_, rfl, ?_, rfl, rfl⟩
    · by_cases h0 : d.nest_level = 0
      · simp [Display.resetExtents, Display.unnest, Display.deviceSetOrientation,
          Display.nest, h0]
      · simp [Display.resetExtents, Display.unnest, Display.deviceSetOrientation,
          Display.nest, h0]
    · simp [Display.resetExtents, Display.unnest, Display.deviceSetOrientation, Display.nest]

/-- C14, on an instance: the idle 320 × 240 display is given the orientation it
already has, and then the orientation that swaps the axes. -/
theorem C14_setOrientation_effect_witness :
    idleDisplay.orientation = ⟨false, false, false⟩ ∧
      idleDisplay.setOrientation ⟨false, false, false⟩ = idleDisplay ∧
      idleDisplay.orientation ≠ ⟨true, false, false⟩ ∧
      (idleDisplay.setOrientation ⟨true, false, false⟩).calls
        = [DeviceCall.begin_, DeviceCall.setOrientation ⟨true, false, false⟩,
            DeviceCall.end_] ∧
      (idleDisplay.setOrientation ⟨true, false, false⟩).nest_level = 0 ∧
      (idleDisplay.setOrientation ⟨true, false, false⟩).extents = ⟨0, 0, 239, 319⟩ := by
  have h1 := (C14_setOrientation_effect idleDisplay ⟨false, false, false⟩).1 rfl
  have h2 := (C14_setOrientation_effect idleDisplay ⟨true, false, false⟩).2 (by decide)
  refine ⟨rfl, h1, by decide, ?_, h2.2.2.2.1, ?_⟩
  · rw [h2.2.1]; decide
  · rw [h2.2.2.2.2.2]; decide

/-! ## The surface of a draw call -/

theorem DrawingContext.drawInternal_surface_of_object {α β : Type} (ctx : DrawingContext)
    (a : α) (b : β) (dx dy : ℤ) (bgcolor : Color) :
    (ctx.drawInternal a dx dy bgcolor).s = (ctx.drawInternal b dx dy bgcolor).s := by
  have key : ∀ s : OutSurface,
      (ctx.drawInternalTransformed s a).s = (ctx.drawInternalTransformed s b).s := by
    intro s
    unfold DrawingContext.drawInternalTransformed
    split
    · rfl
    · split <;> rfl
  unfold DrawingContext.drawInternal DrawingContext.drawInternalWithBackground
  cases ctx.clip_mask_ <;> cases ctx.background_ <;> exact key _

theorem DrawingContext.drawInternal_untransformed {α : Type} (ctx : DrawingContext)
    (object : α) (dx dy : ℤ) (bgcolor : Color) (h : ctx.transformed_ = false) :
    (ctx.drawInternal object dx dy bgcolor).object = DrawnObject.plain object ∧
      (ctx.drawInternal object dx dy bgcolor).s.dx = dx + ctx.dx_ ∧
      (ctx.drawInternal object dx dy bgcolor).s.dy = dy + ctx.dy_ ∧
      (ctx.drawInternal object dx dy bgcolor).s.clip_box
        = ctx.clip_box_.translate ctx.dx_ ctx.dy_ ∧
      (ctx.drawInternal object dx dy bgcolor).s.bgcolor = bgcolor ∧
      (ctx.drawInternal object dx dy bgcolor).s.fill_mode = ctx.fill_mode_ ∧
      (ctx.drawInternal object dx dy bgcolor).s.paint_mode = ctx.paint_mode_ := by
  unfold DrawingContext.drawInternal DrawingContext.drawInternalWithBackground
  cases ctx.clip_mask_ <;> cases ctx.background_ <;>
    simp [DrawingContext.drawInternalTransformed, h]

theorem writeCount_fillRect (m : PaintMode) (box : Box) (c : Color) (x y : ℤ) :
    writeCount [WriteOp.fillRect m box c] x y = if box.containsPt x y = true then 1 else 0 := by
  by_cases h : box.containsPt x y = true
  · simp [writeCount, WriteOp.covers, WriteOp.colorAt, h]
  · simp [writeCount, WriteOp.covers, WriteOp.colorAt, h]

/-! ## C15 -/

/-- C15 as stated fails: on a context with a clip mask and a background set,
the output handed to the drawable is the background filter constructed around
the clip mask filter, so a write traverses the background compositor first and
the clip mask filter second, and there is no transform stage in the chain. -/
theorem C15_background_filter_receives_write_first :
    maskedContext.clip_mask_ = some 1 ∧ maskedContext.background_ = some 2 ∧
      (maskedContext.draw testRect 0 0).s.out
        = Output.backgroundFilter 2 (Output.clipMaskFilter 1 Output.device) ∧
      (maskedContext.draw testRect 0 0).s.out.chain
        = [OutputKind.background, OutputKind.clipMask, OutputKind.device] ∧
      (maskedContext.draw testRect 0 0).s.out.chain.head? ≠ some OutputKind.clipMask := by
  decide

/-- C15 (amended): for every draw call on a `DrawingContext` that has both a
clip mask and a background set, the chain traversed by a write issued by the
drawable is, from the first stage to receive the write to the last: the
background compositor, then the clip mask filter, then the context's output
(the front-to-back writer when there is one, else `output()`). The coordinate
transform is not a stage of this chain: without a transformation the drawable
is drawn as it is with the offset `(dx + dx_, dy + dy_)`, a pure translation is
added to that offset, and any other transformation wraps the drawable in a
`TransformedDrawable`. -/
theorem C15_filter_chain_of_draw_call {α : Type} (ctx : DrawingContext) (object : α)
    (dx dy : ℤ) (bgcolor : Color) (mask background : ℕ)
    (hmask : ctx.clip_mask_ = some mask) (hbg : ctx.background_ = some background) :
    (ctx.drawInternal object dx dy bgcolor).s.out
        = Output.backgroundFilter background
            (Output.clipMaskFilter mask
              (match ctx.front_to_back_writer_ with
                | some writer => writer
                | none => ctx.output)) ∧
      (ctx.drawInternal object dx dy bgcolor).s.out.chain
        = OutputKind.background :: OutputKind.clipMask ::
            (match ctx.front_to_back_writer_ with
              | some writer => writer
              | none => ctx.output).chain ∧
      (ctx.transformed_ = false →
        (ctx.drawInternal object dx dy bgcolor).object = DrawnObject.plain object ∧
        (ctx.drawInternal object dx dy bgcolor).s.dx = dx + ctx.dx_ ∧
        (ctx.drawInternal object dx dy bgcolor).s.dy = dy + ctx.dy_) ∧
      (ctx.transformed_ = true → ctx.transformation_.is_rescaled = false →
        ctx.transformation_.xy_swap = false →
        (ctx.drawInternal object dx dy bgcolor).object = DrawnObject.plain object ∧
        (ctx.drawInternal object dx dy bgcolor).s.dx
          = dx + ctx.dx_ + ctx.transformation_.x_offset ∧
        (ctx.drawInternal object dx dy bgcolor).s.dy
          = dy + ctx.dy_ + ctx.transformation_.y_offset) ∧
      (ctx.transformed_ = true →
        (ctx.transformation_.is_rescaled = true ∨ ctx.transformation_.xy_swap = true) →
        (ctx.drawInternal object dx dy bgcolor).object
          = DrawnObject.transformed ctx.transformation_ object) := by
  have key : ∀ s : OutSurface,
      (ctx.drawInternalTransformed s object).s.out = s.out := by
    intro s
    unfold DrawingContext.drawInternalTransformed
    split
    · rfl
    · split <;> rfl
  unfold DrawingContext.drawInternal
  simp only [hmask, DrawingContext.drawInternalWithBackground, hbg]
  refine ⟨key _, ?_, ?_, ?_, ?_⟩
  · rw [key]; rfl
  · intro ht
    simp [DrawingContext.drawInternalTransformed, ht]
  · intro ht hr hs
    simp [DrawingContext.drawInternalTransformed, ht, hr, hs]
  · intro ht hrs
    rcases hrs with h | h <;> simp [DrawingContext.drawInternalTransformed, ht, h]

/-- C15 (amended), on an instance: the context with clip mask 1 and background
2 drawing the test rectangle. -/
theorem C15_filter_chain_of_draw_call_witness :
    maskedContext.clip_mask_ = some 1 ∧ maskedContext.background_ = some 2 ∧
      (maskedContext.drawInternal testRect 0 0 Color.Transparent).s.out.chain
        = [OutputKind.background, OutputKind.clipMask, OutputKind.device] :=
  ⟨rfl, rfl,
    (C15_filter_chain_of_draw_call maskedContext testRect 0 0 Color.Transparent 1 2
      rfl rfl).2.1⟩

/-! ## C16 -/

/-- C16: for every drawable `d` and surface `s`, the erased drawable draws `d`
on a surface that differs from `s` only in its output, which is the Erasure
colour filter around the output of `s`, and in its paint mode, which is
`PAINT_MODE_REPLACE` whatever it was; the offset, clip box, background colour,
fill mode and write-once flag are those of `s`. The erased drawable reports the
`extents()` and `anchorExtents()` of `d`, and `DrawingContext::erase(d)` draws
the erased drawable of `d` as `draw` draws any object, on the surface that
`draw(d)` would hand to `d`. -/
theorem C16_erase_replaces_output_and_paint_mode (d : Drawable) (s : OutSurface)
    (ctx : DrawingContext) :
    ((ErasedDrawable.mk d).drawTo s).2 = d ∧
      ((ErasedDrawable.mk d).drawTo s).1.out = Output.erasureFilter s.out ∧
      ((ErasedDrawable.mk d).drawTo s).1.paint_mode = PaintMode.PAINT_MODE_REPLACE ∧
      ((ErasedDrawable.mk d).drawTo s).1.dx = s.dx ∧
      ((ErasedDrawable.mk d).drawTo s).1.dy = s.dy ∧
      ((ErasedDrawable.mk d).drawTo s).1.clip_box = s.clip_box ∧
      ((ErasedDrawable.mk d).drawTo s).1.bgcolor = s.bgcolor ∧
      ((ErasedDrawable.mk d).drawTo s).1.fill_mode = s.fill_mode ∧
      ((ErasedDrawable.mk d).drawTo s).1.is_write_once = s.is_write_once ∧
      (ErasedDrawable.mk d).extents = d.extents ∧
      (ErasedDrawable.mk d).anchorExtents = d.anchorExtents ∧
      ctx.erase d = ctx.draw (ErasedDrawable.mk d) 0 0 ∧
      (ctx.erase d).s = (ctx.draw d 0 0).s :=
  ⟨rfl, rfl, rfl, rfl, rfl, rfl, rfl, rfl, rfl, rfl, rfl, rfl,
    ctx.drawInternal_surface_of_object _ _ 0 0 _⟩

/-! ## C17 -/

theorem TFT_eSPI_Adapter.write_short (env : Env) (a : TFT_eSPI_Adapter)
    (color : List Color) (h : color.length ≤ 64) :
    pushedPixels (a.write env color color.length) = color.map (a.rawOf env a.paint_mode) := by
  have hn : ¬ (color.length > 64) := by omega
  unfold TFT_eSPI_Adapter.write
  cases hl : color.length with
  | zero =>
    simp [TFT_eSPI_Adapter.writeLoop, pushedPixels, TftCall.pixels,
      TFT_eSPI_Adapter.processColorSequence, List.length_eq_zero.mp hl]
  | succ n =>
    rw [hl] at hn
    simp only [TFT_eSPI_Adapter.writeLoop, if_neg hn]
    simp [pushedPixels, TftCall.pixels, TFT_eSPI_Adapter.processColorSequence, ← hl]

/-- C17 (the code departs from it): `write(colors, n)` must push the `n` raw
colours in order, also for `n > 64`. For one red colour followed by 64 blue
ones the loop converts the first 64 colours into `buffer` and then calls
`pushBlock(*buffer, 64)`, which sends the first of them 64 times: the window
receives 64 red pixels and one blue pixel instead of one red and 64 blue. -/
theorem C17_write_repeats_first_color_of_chunk :
    redThenBlue.length = 65 ∧
      replaceAdapter.write refEnv redThenBlue 65
        = [TftCall.pushBlock (rgb565 red) 64, TftCall.setSwapBytes true,
            TftCall.pushPixels [rgb565 blue], TftCall.setSwapBytes false] ∧
      pushedPixels (replaceAdapter.write refEnv redThenBlue 65)
        = List.replicate 64 (rgb565 red) ++ [rgb565 blue] ∧
      redThenBlue.map (replaceAdapter.rawOf refEnv replaceAdapter.paint_mode)
        = rgb565 red :: List.replicate 64 (rgb565 blue) ∧
      pushedPixels (replaceAdapter.write refEnv redThenBlue 65)
        ≠ redThenBlue.map (replaceAdapter.rawOf refEnv replaceAdapter.paint_mode) := by
  decide!

/-! ## C18 -/

/-- C18 (the code departs from it): `draw(object, dx, dy)` must produce the
pixels of `draw(object)` shifted by `(dx, dy)` and clipped to the clip box. On
the untransformed context with clip box `[0, 100] × [0, 8]` the surface handed
to the drawable has the offset `(5, 0)` and the same clip box as for
`draw(object)`, as the claim says; but the wedge along row 10, drawn at
`(5, 0)`, writes the pixel `(20, 9)`, the shifted image of its pixel `(15, 9)`,
which lies outside the clip box (the missing clamp of the start row in
`drawInteriorTo`). -/
theorem C18_offset_wedge_is_not_clipped :
    stripContext.transformed_ = false ∧
      (stripContext.draw flatWedge 5 0).object = DrawnObject.plain flatWedge ∧
      (stripContext.draw flatWedge 5 0).s.dx = 5 + stripContext.dx_ ∧
      (stripContext.draw flatWedge 5 0).s.dy = 0 + stripContext.dy_ ∧
      (stripContext.draw flatWedge 5 0).s.clip_box = ⟨0, 0, 100, 8⟩ ∧
      (stripContext.draw flatWedge 5 0).s.clip_box
        = (stripContext.draw flatWedge 0 0).s.clip_box ∧
      flatWedge.coverage refEnv 15 9 = 255 ∧
      WriteOp.writePixel PaintMode.PAINT_MODE_REPLACE 20 9 red
        ∈ flatWedge.drawInteriorTo refEnv (stripContext.draw flatWedge 5 0).s.toSurface ∧
      (stripContext.draw flatWedge 5 0).s.clip_box.containsPt 20 9 = false :=
  ⟨rfl, rfl, rfl, rfl, rfl, rfl, by decide!, by decide!, by decide!⟩

/-! ## C19 -/

theorem clippedPixelWrites_translate (fn : List (ℤ × ℤ × Color)) (clip : Box)
    (mode : PaintMode) (dx dy : ℤ) :
    (clippedPixelWrites fn clip mode).map (WriteOp.translate dx dy)
      = fn.filterMap (fun p =>
          if clip.containsPt p.1 p.2.1 then
            some (WriteOp.writePixel mode (p.1 + dx) (p.2.1 + dy) p.2.2)
          else none) := by
  unfold clippedPixelWrites
  induction fn with
  | nil => rfl
  | cons p rest ih =>
    by_cases h : clip.containsPt p.1 p.2.1 = true
    · simp only [List.filterMap_cons, h, if_true, List.map_cons, WriteOp.translate, ih]
    · simp only [List.filterMap_cons, h, if_false]
      exact ih

/-- C19: under a pure translation `(tx, ty)`, with `smallestEnclosingRect`
giving the clip box shifted back by the translation, the pixel writes issued
inside `drawPixels` are drawn by a plain `Pixels` object, and the output of the
surface receives, in order, one `writePixel` at `(x + tx + dx_, y + ty + dy_)`
with the colour `c` for every write `(x, y, c)` whose device position lies in
the clip box `C` (the context's clip box in device coordinates), and nothing
for the other writes. -/
theorem C19_translated_pixels_shifted_and_clipped (ctx : DrawingContext)
    (smallestEnclosingRect : Transformation → Box → Box) (fn : List (ℤ × ℤ × Color))
    (paint_mode : PaintMode) (ht : ctx.transformed_ = true)
    (hr : ctx.transformation_.is_rescaled = false)
    (hs : ctx.transformation_.xy_swap = false)
    (henc : smallestEnclosingRect ctx.transformation_ ctx.clip_box_
      = ctx.clip_box_.translate (-ctx.transformation_.x_offset)
          (-ctx.transformation_.y_offset)) :
    (ctx.drawPixels smallestEnclosingRect fn paint_mode).object
        = DrawnObject.plain
            (Pixels.mk fn (smallestEnclosingRect ctx.transformation_ ctx.clip_box_)
              paint_mode) ∧
      (Pixels.mk fn (smallestEnclosingRect ctx.transformation_ ctx.clip_box_)
          paint_mode).drawTo (ctx.drawPixels smallestEnclosingRect fn paint_mode).s
        = fn.filterMap (fun p =>
            if (ctx.clip_box_.translate ctx.dx_ ctx.dy_).containsPt
                (p.1 + ctx.transformation_.x_offset + ctx.dx_)
                (p.2.1 + ctx.transformation_.y_offset + ctx.dy_) then
              some (WriteOp.writePixel paint_mode
                (p.1 + ctx.transformation_.x_offset + ctx.dx_)
                (p.2.1 + ctx.transformation_.y_offset + ctx.dy_) p.2.2)
            else none) := by
  have hcall : (ctx.drawPixels smallestEnclosingRect fn paint_mode).object
        = DrawnObject.plain
            (Pixels.mk fn (smallestEnclosingRect ctx.transformation_ ctx.clip_box_)
              paint_mode) ∧
      (ctx.drawPixels smallestEnclosingRect fn paint_mode).s.dx
        = 0 + ctx.dx_ + ctx.transformation_.x_offset ∧
      (ctx.drawPixels smallestEnclosingRect fn paint_mode).s.dy
        = 0 + ctx.dy_ + ctx.transformation_.y_offset := by
    unfold DrawingContext.drawPixels DrawingContext.draw DrawingContext.drawInternal
      DrawingContext.drawInternalWithBackground
    cases ctx.clip_mask_ <;> cases ctx.background_ <;>
      simp [DrawingContext.drawInternalTransformed, ht, hr, hs]
  obtain ⟨h1, h2, h3⟩ := hcall
  refine ⟨h1, ?_⟩
  have hclip : ∀ p : ℤ × ℤ × Color,
      (smallestEnclosingRect ctx.transformation_ ctx.clip_box_).containsPt p.1 p.2.1
        = (ctx.clip_box_.translate ctx.dx_ ctx.dy_).containsPt
            (p.1 + ctx.transformation_.x_offset + ctx.dx_)
            (p.2.1 + ctx.transformation_.y_offset + ctx.dy_) := by
    intro p
    rw [henc]
    simp only [Box.translate, Box.containsPt]
    congr 1
    · congr 1
      · congr 1
        · exact decide_eq_decide.mpr (by constructor <;> intro h <;> omega)
        · exact decide_eq_decide.mpr (by constructor <;> intro h <;> omega)
      · exact decide_eq_decide.mpr (by constructor <;> intro h <;> omega)
    · exact decide_eq_decide.mpr (by constructor <;> intro h <;> omega)
  unfold Pixels.drawTo
  simp only [h2, h3]
  split
  · rename_i h0
    unfold clippedPixelWrites
    apply List.filterMap_congr
    intro p _
    rw [hclip p]
    have e1 : p.1 + ctx.transformation_.x_offset + ctx.dx_ = p.1 := by omega
    have e2 : p.2.1 + ctx.transformation_.y_offset + ctx.dy_ = p.2.1 := by omega
    rw [e1, e2]
  · rw [clippedPixelWrites_translate]
    apply List.filterMap_congr
    intro p _
    rw [hclip p]
    have e1 : p.1 + (0 + ctx.dx_ + ctx.transformation_.x_offset)
        = p.1 + ctx.transformation_.x_offset + ctx.dx_ := by omega
    have e2 : p.2.1 + (0 + ctx.dy_ + ctx.transformation_.y_offset)
        = p.2.1 + ctx.transformation_.y_offset + ctx.dy_ := by omega
    rw [e1, e2]

/-- C19, on the test `DrawPixelsWithOffset`: with `translate(1, 2)` and the clip
box `(3, 3, 7, 5)` all nine pixels appear shifted by `(1, 2)`. -/
theorem C19_translated_pixels_shifted_and_clipped_witness :
    translatedContext.transformed_ = true ∧
      translatedContext.transformation_.is_rescaled = false ∧
      translatedContext.transformation_.xy_swap = false ∧
      translationEnclosingRect translatedContext.transformation_ translatedContext.clip_box_
        = translatedContext.clip_box_.translate (-translatedContext.transformation_.x_offset)
            (-translatedContext.transformation_.y_offset) ∧
      (Pixels.mk testPixels
          (translationEnclosingRect translatedContext.transformation_
            translatedContext.clip_box_)
          PaintMode.PAINT_MODE_REPLACE).drawTo
          (translatedContext.drawPixels translationEnclosingRect testPixels
            PaintMode.PAINT_MODE_REPLACE).s
        = [WriteOp.writePixel PaintMode.PAINT_MODE_REPLACE 5 3 (grey 34),
           WriteOp.writePixel PaintMode.PAINT_MODE_REPLACE 4 4 (grey 34),
           WriteOp.writePixel PaintMode.PAINT_MODE_REPLACE 5 4 (grey 51),
           WriteOp.writePixel PaintMode.PAINT_MODE_REPLACE 6 4 (grey 34),
           WriteOp.writePixel PaintMode.PAINT_MODE_REPLACE 3 5 (grey 34),
           WriteOp.writePixel PaintMode.PAINT_MODE_REPLACE 4 5 (grey 51),
           WriteOp.writePixel PaintMode.PAINT_MODE_REPLACE 5 5 (grey 68),
           WriteOp.writePixel PaintMode.PAINT_MODE_REPLACE 6 5 (grey 51),
           WriteOp.writePixel PaintMode.PAINT_MODE_REPLACE 7 5 (grey 34)] := by
  have h := (C19_translated_pixels_shifted_and_clipped translatedContext
    translationEnclosingRect testPixels PaintMode.PAINT_MODE_REPLACE rfl (by decide) rfl
    rfl).2
  refine ⟨rfl, by decide, rfl, rfl, ?_⟩
  rw [h]
  decide

/-! ## Streams into an address window, pixel by pixel -/

theorem mem_intRange (lo hi v : ℤ) : v ∈ intRange lo hi ↔ lo ≤ v ∧ v ≤ hi := by
  simp only [intRange_eq, List.mem_map, List.mem_range'_1]
  constructor
  · rintro ⟨a, ha, rfl⟩
    omega
  · intro h
    exact ⟨(v - lo).toNat, by omega, by omega⟩

theorem nodup_intRange (lo hi : ℤ) : (intRange lo hi).Nodup := by
  rw [intRange_eq]
  refine (List.nodup_range' _ _).map ?_
  intro a b h
  simpa using h

theorem mem_rasterPixels (xMin yMin xMax yMax x y : ℤ) :
    (x, y) ∈ rasterPixels xMin yMin xMax yMax ↔
      (xMin ≤ x ∧ x ≤ xMax) ∧ (yMin ≤ y ∧ y ≤ yMax) := by
  simp only [rasterPixels, List.mem_flatMap, List.mem_map, mem_intRange, Prod.mk.injEq]
  constructor
  · rintro ⟨b, hb, a, ha, rfl, rfl⟩
    exact ⟨ha, hb⟩
  · rintro ⟨hx, hy⟩
    exact ⟨y, hy, x, hx, rfl, rfl⟩

theorem nodup_rasterPixels (xMin yMin xMax yMax : ℤ) :
    (rasterPixels xMin yMin xMax yMax).Nodup := by
  unfold rasterPixels
  rw [List.nodup_flatMap]
  refine ⟨fun y _ => (nodup_intRange _ _).map ?_, ?_⟩
  · intro a b h
    exact (Prod.mk.inj h).1
  · refine (nodup_intRange yMin yMax).imp ?_
    intro a b hab p hp1 hp2
    simp only [List.mem_map] at hp1 hp2
    obtain ⟨_, _, rfl⟩ := hp1
    obtain ⟨_, _, h2⟩ := hp2
    exact hab (Prod.mk.inj h2).2.symm

theorem lookupZip_nil_right (ps : List (ℤ × ℤ)) (q : ℤ × ℤ) : lookupZip ps [] q = none := by
  cases ps <;> rfl

theorem lookupZip_of_not_mem (ps : List (ℤ × ℤ)) (cs : List Color) (q : ℤ × ℤ)
    (h : q ∉ ps) : lookupZip ps cs q = none := by
  induction ps generalizing cs with
  | nil => cases cs <;> rfl
  | cons p ps ih =>
    cases cs with
    | nil => rfl
    | cons c cs =>
      simp only [List.mem_cons, not_or] at h
      simp only [lookupZip]
      rw [if_neg (fun e => h.1 e.symm)]
      exact ih cs h.2

theorem lookupZip_append_of_mem (a b : List (ℤ × ℤ)) (cs : List Color) (q : ℤ × ℤ)
    (h : q ∈ a) : lookupZip (a ++ b) cs q = lookupZip a cs q := by
  induction a generalizing cs with
  | nil => cases h
  | cons p a ih =>
    cases cs with
    | nil => rw [lookupZip_nil_right, lookupZip_nil_right]
    | cons c cs =>
      simp only [List.cons_append, lookupZip]
      by_cases e : p = q
      · rw [if_pos e, if_pos e]
      · rw [if_neg e, if_neg e]
        rcases List.mem_cons.1 h with h1 | h1
        · exact absurd h1.symm e
        · exact ih cs h1

theorem lookupZip_append_of_not_mem (a b : List (ℤ × ℤ)) (cs : List Color) (q : ℤ × ℤ)
    (h : q ∉ a) : lookupZip (a ++ b) cs q = lookupZip b (cs.drop a.length) q := by
  induction a generalizing cs with
  | nil => rfl
  | cons p a ih =>
    simp only [List.mem_cons, not_or] at h
    cases cs with
    | nil =>
      rw [lookupZip_nil_right, List.drop_nil, lookupZip_nil_right]
    | cons c cs =>
      simp only [List.cons_append, lookupZip, List.length_cons, List.drop_succ_cons]
      rw [if_neg (fun e => h.1 e.symm)]
      exact ih cs h.2

theorem lookupZip_row (xMin y : ℤ) : ∀ (n k0 j : ℕ) (cs : List Color), j < n →
    lookupZip ((List.range' k0 n).map (fun k : ℕ => (xMin + (k : ℤ), y))) cs
        (xMin + ((k0 + j : ℕ) : ℤ), y) = cs.get? j := by
  intro n
  induction n with
  | zero => intro k0 j cs hj; omega
  | succ n ih =>
    intro k0 j cs hj
    rw [List.range'_succ, List.map_cons]
    cases cs with
    | nil => rfl
    | cons c cs =>
      simp only [lookupZip]
      cases j with
      | zero =>
        rw [if_pos (by simp)]
        rfl
      | succ j =>
        rw [if_neg (by
          intro e
          have e1 := (Prod.mk.inj e).1
          push_cast at e1
          omega)]
        have h := ih (k0 + 1) j cs (by omega)
        rw [show k0 + (j + 1) = k0 + 1 + j by omega]
        exact h

theorem lookupZip_rows (xMin yMin : ℤ) (W j : ℕ) (hj : j < W) :
    ∀ (n k0 i : ℕ) (cs : List Color), i < n →
      lookupZip
          ((List.range' k0 n).flatMap (fun k : ℕ =>
            (List.range' 0 W).map (fun m : ℕ => (xMin + (m : ℤ), yMin + (k : ℤ)))))
          cs (xMin + (j : ℤ), yMin + ((k0 + i : ℕ) : ℤ))
        = cs.get? (i * W + j) := by
  intro n
  induction n with
  | zero => intro k0 i cs hi; omega
  | succ n ih =>
    intro k0 i cs hi
    rw [List.range'_succ, List.flatMap_cons]
    cases i with
    | zero =>
      rw [lookupZip_append_of_mem]
      · have h := lookupZip_row xMin (yMin + (k0 : ℤ)) W 0 j cs hj
        simp only [Nat.zero_add, Nat.add_zero, Nat.zero_mul] at h ⊢
        exact h
      · simp only [List.mem_map, List.mem_range'_1, Nat.add_zero]
        exact ⟨j, ⟨by omega, by omega⟩, rfl⟩
    | succ i =>
      rw [lookupZip_append_of_not_mem]
      · rw [List.length_map, List.length_range']
        have h := ih (k0 + 1) i (cs.drop W) (by omega)
        rw [show k0 + (i + 1) = k0 + 1 + i by omega, h, List.get?_eq_getElem?, List.get?_eq_getElem?, List.getElem?_drop]
        congr 1
        ring
      · simp only [List.mem_map, List.mem_range'_1, not_exists, not_and]
        intro m _ e
        have e2 := (Prod.mk.inj e).2
        push_cast at e2
        omega

theorem rasterPixels_eq_range' (xMin yMin xMax yMax : ℤ) :
    rasterPixels xMin yMin xMax yMax
      = (List.range' 0 (yMax - yMin + 1).toNat).flatMap (fun k : ℕ =>
          (List.range' 0 (xMax - xMin + 1).toNat).map
            (fun m : ℕ => (xMin + (m : ℤ), yMin + (k : ℤ)))) := by
  simp only [rasterPixels, intRange_eq, List.flatMap_map, List.map_map]
  rfl

theorem WriteOp.colorAt_write (m : PaintMode) (box : Box) (cs : List Color) (x y : ℤ) :
    (WriteOp.write m box cs).colorAt x y
      = lookupZip (rasterPixels box.xMin box.yMin box.xMax box.yMax) cs (x, y) := by
  show (if box.containsPt x y = true then
      cs.get? ((y - box.yMin) * (box.xMax - box.xMin + 1) + (x - box.xMin)).toNat
    else none) = _
  by_cases h : box.containsPt x y = true
  · rw [if_pos h]
    simp only [Box.containsPt, Bool.and_eq_true, decide_eq_true_eq] at h
    obtain ⟨⟨⟨h1, h2⟩, h3⟩, h4⟩ := h
    have hj : (x - box.xMin).toNat < (box.xMax - box.xMin + 1).toNat := by omega
    have hi : (y - box.yMin).toNat < (box.yMax - box.yMin + 1).toNat := by omega
    have key := lookupZip_rows box.xMin box.yMin _ _ hj _ 0 _ cs hi
    have ex : box.xMin + (((x - box.xMin).toNat : ℕ) : ℤ) = x := by omega
    have ey : box.yMin + (((0 + (y - box.yMin).toNat : ℕ)) : ℤ) = y := by omega
    rw [ex, ey] at key
    rw [rasterPixels_eq_range', key]
    congr 1
    have ew : box.xMax - box.xMin + 1 = (((box.xMax - box.xMin + 1).toNat : ℕ) : ℤ) := by omega
    have ej : x - box.xMin = (((x - box.xMin).toNat : ℕ) : ℤ) := by omega
    have ei : y - box.yMin = (((y - box.yMin).toNat : ℕ) : ℤ) := by omega
    generalize (box.xMax - box.xMin + 1).toNat = W at ew
    generalize (x - box.xMin).toNat = j at ej
    generalize (y - box.yMin).toNat = i at ei
    rw [ew, ej, ei]
    exact_mod_cast Int.toNat_ofNat (i * W + j)
  · rw [if_neg h]
    symm
    apply lookupZip_of_not_mem
    rw [mem_rasterPixels]
    simp only [Box.containsPt, Bool.and_eq_true, decide_eq_true_eq] at h
    tauto

theorem lookupZip_zipWith (f : ℤ × ℤ → Color → Color) (ps : List (ℤ × ℤ)) (cs : List Color)
    (q : ℤ × ℤ) :
    lookupZip ps (List.zipWith f ps cs) q = (lookupZip ps cs q).map (f q) := by
  induction ps generalizing cs with
  | nil => cases cs <;> rfl
  | cons p ps ih =>
    cases cs with
    | nil => rfl
    | cons c cs =>
      simp only [List.zipWith_cons_cons, lookupZip]
      by_cases e : p = q
      · rw [if_pos e, if_pos e, e]
        rfl
      · rw [if_neg e, if_neg e]
        exact ih cs

theorem lookupZip_replicate (ps : List (ℤ × ℤ)) (c : Color) (q : ℤ × ℤ) (h : q ∈ ps) :
    lookupZip ps (List.replicate ps.length c) q = some c := by
  induction ps with
  | nil => cases h
  | cons p ps ih =>
    simp only [List.length_cons, List.replicate_succ, lookupZip]
    by_cases e : p = q
    · rw [if_pos e]
    · rw [if_neg e]
      rcases List.mem_cons.1 h with h1 | h1
      · exact absurd h1.symm e
      · exact ih h1

theorem map_eq_zipWith_replicate {β : Type} (f : ℤ × ℤ → Color → β) (ps : List (ℤ × ℤ))
    (c : Color) : ps.map (fun p => f p c) = List.zipWith f ps (List.replicate ps.length c) := by
  induction ps with
  | nil => rfl
  | cons p ps ih =>
    simp only [List.map_cons, List.length_cons, List.replicate_succ, List.zipWith_cons_cons, ih]

theorem applyWrites_pixels_of_not_mem (env : Env) (m : PaintMode)
    (blend : ℤ → ℤ → Color → Color) (x y : ℤ) :
    ∀ (ps : List (ℤ × ℤ)) (cs : List Color) (buf : PixelBuffer), (x, y) ∉ ps →
      applyWrites env buf
          (List.zipWith (fun p c => WriteOp.writePixel m p.1 p.2 (blend p.1 p.2 c)) ps cs) x y
        = buf x y := by
  intro ps
  induction ps with
  | nil => intro cs buf _; cases cs <;> rfl
  | cons p ps ih =>
    intro cs buf h
    simp only [List.mem_cons, not_or] at h
    cases cs with
    | nil => rfl
    | cons c cs =>
      simp only [List.zipWith_cons_cons, applyWrites, List.foldl_cons]
      have h1 := ih cs (applyWrite env buf (WriteOp.writePixel m p.1 p.2 (blend p.1 p.2 c))) h.2
      unfold applyWrites at h1
      rw [h1]
      have hne : ¬(p.1 = x ∧ p.2 = y) := fun e => h.1 (Prod.ext e.1.symm e.2.symm)
      simp only [applyWrite, WriteOp.colorAt, if_neg hne]

theorem applyWrites_pixels (env : Env) (m : PaintMode) (blend : ℤ → ℤ → Color → Color)
    (x y : ℤ) :
    ∀ (ps : List (ℤ × ℤ)) (cs : List Color) (buf : PixelBuffer), ps.Nodup →
      applyWrites env buf
          (List.zipWith (fun p c => WriteOp.writePixel m p.1 p.2 (blend p.1 p.2 c)) ps cs) x y
        = match lookupZip ps cs (x, y) with
          | none => buf x y
          | some c =>
            match m with
            | PaintMode.PAINT_MODE_REPLACE => blend x y c
            | PaintMode.PAINT_MODE_BLEND => env.AlphaBlend (buf x y) (blend x y c) := by
  intro ps
  induction ps with
  | nil => intro cs buf _; cases cs <;> rfl
  | cons p ps ih =>
    intro cs buf hnd
    cases cs with
    | nil => rfl
    | cons c cs =>
      obtain ⟨hp, hps⟩ := List.nodup_cons.1 hnd
      simp only [List.zipWith_cons_cons, lookupZip]
      by_cases e : p = (x, y)
      · rw [if_pos e]
        subst e
        have h1 := applyWrites_pixels_of_not_mem env m blend x y ps cs
          (applyWrite env buf (WriteOp.writePixel m x y (blend x y c))) hp
        simp only [applyWrites, List.foldl_cons] at h1 ⊢
        rw [h1]
        simp only [applyWrite, WriteOp.colorAt, and_self, if_true, WriteOp.mode]
      · rw [if_neg e]
        have h1 := ih cs (applyWrite env buf (WriteOp.writePixel m p.1 p.2 (blend p.1 p.2 c))) hps
        simp only [applyWrites, List.foldl_cons] at h1 ⊢
        rw [h1]
        have hne : ¬(p.1 = x ∧ p.2 = y) := fun h => e (Prod.ext h.1 h.2)
        simp only [applyWrite, WriteOp.colorAt, if_neg hne]

theorem applyWrite_write_zipWith (env : Env) (m : PaintMode) (blend : ℤ → ℤ → Color → Color)
    (box : Box) (cs : List Color) (buf : PixelBuffer) :
    applyWrite env buf
        (WriteOp.write m box
          (List.zipWith (fun p c => blend p.1 p.2 c)
            (rasterPixels box.xMin box.yMin box.xMax box.yMax) cs))
      = applyWrites env buf
          (List.zipWith (fun p c => WriteOp.writePixel m p.1 p.2 (blend p.1 p.2 c))
            (rasterPixels box.xMin box.yMin box.xMax box.yMax) cs) := by
  funext x y
  rw [applyWrites_pixels env m blend x y _ cs buf (nodup_rasterPixels _ _ _ _)]
  unfold applyWrite
  rw [WriteOp.colorAt_write, lookupZip_zipWith]
  cases lookupZip (rasterPixels box.xMin box.yMin box.xMax box.yMax) cs (x, y) <;> rfl

theorem applyWrite_filterWrite (env : Env) (blend : ℤ → ℤ → Color → Color) (op : WriteOp)
    (buf : PixelBuffer) :
    applyWrite env buf (filterWrite blend op)
      = applyWrites env buf
          (op.pixels.map (fun q => WriteOp.writePixel op.mode q.1 q.2.1 (blend q.1 q.2.1 q.2.2))) := by
  cases op with
  | writePixel m x y c => rfl
  | fillRect m box c =>
    simp only [filterWrite, WriteOp.pixels, WriteOp.mode, List.map_map]
    rw [map_eq_zipWith_replicate (fun p c => blend p.1 p.2 c),
      applyWrite_write_zipWith,
      ← map_eq_zipWith_replicate (fun p c => WriteOp.writePixel m p.1 p.2 (blend p.1 p.2 c))]
    rfl
  | write m box cs =>
    simp only [filterWrite, WriteOp.pixels, WriteOp.mode, List.map_zipWith]
    exact applyWrite_write_zipWith env m blend box cs buf

theorem applyWrites_filterWrite (env : Env) (blend : ℤ → ℤ → Color → Color)
    (ops : List WriteOp) :
    ∀ buf : PixelBuffer,
      applyWrites env buf (ops.map (filterWrite blend))
        = applyWrites env buf
            (referenceWrites (fun m x y c => WriteOp.writePixel m x y (blend x y c)) ops) := by
  induction ops with
  | nil => intro buf; rfl
  | cons op ops ih =>
    intro buf
    simp only [applyWrites, referenceWrites, List.map_cons, List.foldl_cons, List.flatMap_cons,
      List.foldl_append] at ih ⊢
    rw [ih]
    congr 1
    exact applyWrite_filterWrite env blend op buf

theorem applyWrite_eq_filterWrite_id (env : Env) (op : WriteOp) (buf : PixelBuffer) :
    applyWrite env buf op = applyWrite env buf (filterWrite (fun _ _ c => c) op) := by
  cases op with
  | writePixel m x y c => rfl
  | fillRect m box c =>
    funext x y
    simp only [filterWrite, applyWrite, WriteOp.mode]
    rw [map_eq_zipWith_replicate (fun _ c => c), WriteOp.colorAt_write, lookupZip_zipWith]
    show (match (if box.containsPt x y = true then some c else none) with
      | none => buf x y
      | some c =>
        match m with
        | PaintMode.PAINT_MODE_REPLACE => c
        | PaintMode.PAINT_MODE_BLEND => env.AlphaBlend (buf x y) c) = _
    by_cases h : box.containsPt x y = true
    · rw [if_pos h, lookupZip_replicate]
      · rfl
      · rw [mem_rasterPixels]
        simp only [Box.containsPt, Bool.and_eq_true, decide_eq_true_eq] at h
        tauto
    · rw [if_neg h, lookupZip_of_not_mem]
      · rfl
      · rw [mem_rasterPixels]
        simp only [Box.containsPt, Bool.and_eq_true, decide_eq_true_eq] at h
        tauto
  | write m box cs =>
    funext x y
    simp only [filterWrite, applyWrite, WriteOp.mode]
    rw [WriteOp.colorAt_write, WriteOp.colorAt_write, lookupZip_zipWith]
    cases lookupZip (rasterPixels box.xMin box.yMin box.xMax box.yMax) cs (x, y) <;> rfl

theorem applyWrites_eq_pixel_writes (env : Env) (ops : List WriteOp) :
    ∀ buf : PixelBuffer,
      applyWrites env buf ops
        = applyWrites env buf (referenceWrites (fun m x y c => WriteOp.writePixel m x y c) ops) := by
  intro buf
  rw [← applyWrites_filterWrite env (fun _ _ c => c) ops buf]
  induction ops generalizing buf with
  | nil => rfl
  | cons op ops ih =>
    simp only [applyWrites, List.map_cons, List.foldl_cons] at ih ⊢
    rw [← applyWrite_eq_filterWrite_id]
    exact ih _

theorem Rasterizable.colorAt_congr (raster other : Rasterizable)
    (he : other.extents = raster.extents)
    (hg : ∀ x y, raster.extents.containsPt x y = true → other.getter x y = raster.getter x y) :
    other.colorAt = raster.colorAt := by
  funext x y
  unfold Rasterizable.colorAt
  rw [he]
  by_cases h : raster.extents.containsPt x y = true
  · rw [if_pos h, if_pos h, hg x y h]
  · rw [if_neg h, if_neg h]

/-! ## C20 -/

/-- C20: for a `BackgroundFilter` and for a `ForegroundFilter` over a raster
with bounded extents, any sequence of writes (rectangle fills, single pixels,
streams of colours into an address window, of any shape, lines included) sent
through the filter leaves, on every pixel buffer, the buffer left by the
reference device: the same colours written one pixel at a time, each as
`AlphaBlend(bg(x, y), colour)` for the background filter and as
`AlphaBlend(colour, fg(x, y))` for the foreground filter, the raster colour
being transparent outside the extents. Taking a write apart into its pixels
does not change the buffer either, and what the filters forward does not depend
on the getter outside the extents. -/
theorem C20_filters_agree_with_pixel_reference (env : Env) (raster : Rasterizable)
    (ops : List WriteOp) (buf : PixelBuffer) :
    applyWrites env buf (ops.map (BackgroundFilter.write env raster))
        = applyWrites env buf (referenceWrites (SimpleRoundBg.writePixel env raster) ops) ∧
      applyWrites env buf (ops.map (ForegroundFilter.write env raster))
        = applyWrites env buf (referenceWrites (SimpleRoundFg.writePixel env raster) ops) ∧
      applyWrites env buf ops
        = applyWrites env buf
            (referenceWrites (fun m x y c => WriteOp.writePixel m x y c) ops) ∧
      (∀ other : Rasterizable, other.extents = raster.extents →
        (∀ x y, raster.extents.containsPt x y = true →
          other.getter x y = raster.getter x y) →
        ops.map (BackgroundFilter.write env other)
            = ops.map (BackgroundFilter.write env raster) ∧
          ops.map (ForegroundFilter.write env other)
            = ops.map (ForegroundFilter.write env raster)) := by
  refine ⟨?_, ?_, applyWrites_eq_pixel_writes env ops buf, ?_⟩
  · exact applyWrites_filterWrite env (fun x y c => env.AlphaBlend (raster.colorAt x y) c) ops buf
  · exact applyWrites_filterWrite env (fun x y c => env.AlphaBlend c (raster.colorAt x y)) ops buf
  · intro other he hg
    have hc := Rasterizable.colorAt_congr raster other he hg
    constructor
    · congr 1
      funext op
      unfold BackgroundFilter.write
      rw [hc]
    · congr 1
      funext op
      unfold ForegroundFilter.write
      rw [hc]

/-- C20, on an instance: a fill, a pixel write and a streamed window across the
corner of the checkerboard raster. The pixel `(1, 2)`, inside the raster on a
transparent square, ends as the streamed blue; `(2, 2)`, on a grey square, as
half-transparent red over grey; `(0, 1)`, outside the raster, as the fill
colour over transparent. Through the foreground filter `(2, 2)` ends as the
opaque grey of the raster. -/
theorem C20_filters_agree_with_pixel_reference_witness :
    applyWrites refEnv blackBuffer (mixedWrites.map (BackgroundFilter.write refEnv checkerRaster))
        = applyWrites refEnv blackBuffer
            (referenceWrites (SimpleRoundBg.writePixel refEnv checkerRaster) mixedWrites) ∧
      applyWrites refEnv blackBuffer
          (mixedWrites.map (BackgroundFilter.write refEnv checkerRaster)) 1 2 = blue ∧
      applyWrites refEnv blackBuffer
          (mixedWrites.map (BackgroundFilter.write refEnv checkerRaster)) 2 2
        = ⟨255, 187, 59, 59⟩ ∧
      applyWrites refEnv blackBuffer
          (mixedWrites.map (BackgroundFilter.write refEnv checkerRaster)) 0 1
        = refEnv.AlphaBlend Color.Transparent halfRed ∧
      applyWrites refEnv blackBuffer
          (mixedWrites.map (ForegroundFilter.write refEnv checkerRaster)) 2 2
        = grey 119 :=
  ⟨(C20_filters_agree_with_pixel_reference refEnv checkerRaster mixedWrites blackBuffer).1,
    by decide!, by decide!, by decide!, by decide!⟩

/-! ## C21 -/

/-- C21 (the code departs from it): every pixel of `inner_wide_`, `inner_tall_`
or `inner_mid_` must get `interior_color_` from `getColorPreChecked`, so that
`getColor` and `getColorPreChecked` agree everywhere. For the shape with
`ri = 0 ≤ r = 3` the pixel `(15, 15)` lies in `inner_wide_` (and in
`inner_tall_`), at distance 0 from the inner rectangle; `getColor` returns the
interior colour (blue), while `getColorPreChecked` finds
`0 > ri² + 0.25 - ri - 1 = -0.75` and returns the outline at coverage
`1 - (ri - d + 0.5) = 0.5` blended over the interior. -/
theorem C21_preChecked_blends_outline_inside_inner_box :
    0 ≤ sharpInteriorShape.ri ∧ sharpInteriorShape.ri ≤ sharpInteriorShape.r ∧
      sharpInteriorShape.inner_wide = ⟨11, 11, 19, 19⟩ ∧
      sharpInteriorShape.inner_wide.containsPt 15 15 = true ∧
      sharpInteriorShape.interior_color = blue ∧
      sharpInteriorShape.calcDistSq refEnv 15 15 = 0 ∧
      sharpInteriorShape.getColor refEnv 15 15 = blue ∧
      sharpInteriorShape.getColorPreChecked refEnv 15 15
        = refEnv.AlphaBlend blue (red.withA 127) ∧
      sharpInteriorShape.getColorPreChecked refEnv 15 15 ≠ blue ∧
      sharpInteriorShape.getColor refEnv 15 15
        ≠ sharpInteriorShape.getColorPreChecked refEnv 15 15 := by
  decide!

/-! ## C22 -/

theorem SmoothRoundRectShape.getColorPreChecked_of_coverageValue (env : Env)
    (sh : SmoothRoundRectShape) (x y : ℤ) (v : ℚ)
    (h : sh.coverageValue env x y = some v) :
    sh.getColorPreChecked env x y = sh.outline_color.withA (env.toUint8 v) ∨
      sh.getColorPreChecked env x y
        = env.AlphaBlend sh.interior_color (sh.outline_color.withA (env.toUint8 v)) := by
  unfold SmoothRoundRectShape.coverageValue at h
  unfold SmoothRoundRectShape.getColorPreChecked
  simp only [] at h ⊢
  split at h
  · cases h
  · rename_i h1
    rw [if_neg h1]
    split at h
    · cases h
    · rename_i h2
      rw [if_neg h2]
      split at h
      · cases h
      · rename_i h3
        rw [if_neg h3]
        split at h
        · rename_i h4
          rw [if_pos h4]
          left
          cases h
          rfl
        · rename_i h4
          rw [if_neg h4]
          split at h
          · rename_i h5
            rw [if_pos h5]
            right
            cases h
            rfl
          · rename_i h5
            rw [if_neg h5]
            right
            cases h
            rfl

/-- C22 (the code departs from it): every value converted to an 8-bit alpha
must lie in `[0, 255]`. On the ring with `r = 4`, `ri = 2` the pixel `(9, 9)`
is outside the three inner rectangles, at squared distance 2 from the inner
rectangle. That is above the interior threshold `ri² + 0.25 - ri - 1 = 1.25`
and below `(ri - 0.5)² = 2.25`, so `getColor` reaches the conversion of
`outline_color_.a() * (1 - (ri - d + 0.5))` with `d = sqrtf(2) < ri - 0.5`:
the value converted is negative (about `-21.9`). -/
theorem C22_inner_band_coverage_is_negative :
    0 ≤ ringShape.ri ∧ ringShape.ri ≤ ringShape.r ∧
      (ringShape.inner_mid.containsPt 9 9 || ringShape.inner_wide.containsPt 9 9 ||
        ringShape.inner_tall.containsPt 9 9) = false ∧
      ringShape.calcDistSq refEnv 9 9 = 2 ∧
      ringShape.coverageValue refEnv 9 9
        = some (refEnv.fl (ringShape.outline_color.a
            * refEnv.fl (1 - refEnv.fl (refEnv.fl
                (ringShape.ri - refEnv.sqrtf (ringShape.calcDistSq refEnv 9 9)) + 1 / 2)))) ∧
      ringShape.getColor refEnv 9 9
        = refEnv.AlphaBlend ringShape.interior_color
            (ringShape.outline_color.withA
              (refEnv.toUint8 (refEnv.fl (ringShape.outline_color.a
                * refEnv.fl (1 - refEnv.fl (refEnv.fl
                    (ringShape.ri - refEnv.sqrtf (ringShape.calcDistSq refEnv 9 9))
                      + 1 / 2)))))) ∧
      refEnv.fl (ringShape.outline_color.a
          * refEnv.fl (1 - refEnv.fl (refEnv.fl
              (ringShape.ri - refEnv.sqrtf (ringShape.calcDistSq refEnv 9 9)) + 1 / 2))) < -21 ∧
      -22 < refEnv.fl (ringShape.outline_color.a
          * refEnv.fl (1 - refEnv.fl (refEnv.fl
              (ringShape.ri - refEnv.sqrtf (ringShape.calcDistSq refEnv 9 9)) + 1 / 2))) := by
  decide!

/-! ## C23 -/

/-- C23 (the code departs from it): every pixel written by `drawInteriorTo`
must lie inside the clip box. For the wedge along row 10 and a clip box that
ends at row 8, the scanned box is `[7, 23] × [7, 8]` and the start row is
`ys = 10`, which is clamped to `box.yMin()` only: the upward pass starts at
row `ys - 1 = 9` and writes the pixel `(15, 9)`, below the bottom row of the
box and outside the clip box. -/
theorem C23_upward_pass_writes_below_clip_box :
    flatWedge.drawBox topStripSurface = ⟨7, 7, 23, 8⟩ ∧
      (flatWedge.drawBox topStripSurface).empty = false ∧
      flatWedge.startRow refEnv (flatWedge.drawBox topStripSurface) = 10 ∧
      flatWedge.coverage refEnv 15 9 = 255 ∧
      WriteOp.writePixel PaintMode.PAINT_MODE_REPLACE 15 9 red
        ∈ flatWedge.drawInteriorTo refEnv topStripSurface ∧
      writeCount (flatWedge.drawInteriorTo refEnv topStripSurface) 15 9 = 1 ∧
      topStripSurface.clip_box.containsPt 15 9 = false ∧
      (flatWedge.drawBox topStripSurface).containsPt 15 9 = false := by
  decide!

/-! ## C24 -/

/-- C24 (the code departs from it): the colour `drawTo` writes at a pixel must
be `AlphaBlend(bg, getColor(x - dx, y - dy))`, and for the solid outline band
`AlphaBlend(bg, outline_color)`. For the shape with a half-transparent red
outline and an opaque blue interior on a white background, the pixel
`(23, 15)` lies in the solid outline band, where `getColor` is the outline
colour; `drawTo` writes `pre_blended_outline`, which is
`AlphaBlend(AlphaBlend(bg, interior_color_), outline_color_)`: the outline over
blue instead of over white. The same colour is streamed in
`FILL_MODE_RECTANGLE`. -/
theorem C24_outline_band_is_blended_over_interior :
    glazedShape.drawBox rightEdgeSurface = ⟨16, 8, 23, 15⟩ ∧
      glazedShape.getColor refEnv 23 15 = halfRed ∧
      glazedShape.outline_color = halfRed ∧
      (glazedShape.toSpec refEnv rightEdgeSurface).pre_blended_outline
        = refEnv.AlphaBlend (refEnv.AlphaBlend white blue) halfRed ∧
      lastColor (glazedShape.drawTo refEnv rightEdgeSurface) 23 15
        = some (refEnv.AlphaBlend (refEnv.AlphaBlend white blue) halfRed) ∧
      lastColor (glazedShape.drawTo refEnv rightEdgeRectSurface) 23 15
        = some (refEnv.AlphaBlend (refEnv.AlphaBlend white blue) halfRed) ∧
      writeCount (glazedShape.drawTo refEnv rightEdgeSurface) 23 15 = 1 ∧
      refEnv.AlphaBlend (refEnv.AlphaBlend white blue) halfRed = ⟨255, 128, 0, 127⟩ ∧
      refEnv.AlphaBlend white (glazedShape.getColor refEnv 23 15) = ⟨255, 255, 127, 127⟩ ∧
      lastColor (glazedShape.drawTo refEnv rightEdgeSurface) 23 15
        ≠ some (refEnv.AlphaBlend white (glazedShape.getColor refEnv 23 15)) := by
  decide!

/-! ## C25 -/

/-- C25 (the code departs from it): every call of
`FillSmoothRoundRectRectInternal` must cover at most 64 pixels, the size of its
colour buffer. For the round rectangle that spans the coordinate range the box
drawn is the box of all `int16_t` coordinates: the pixel count `65536 * 65536`
is `0` as a `uint32_t`, the test `pixel_count <= 64` succeeds and `drawTo`
passes the whole box, of `2³²` pixels, in one call, which takes the per-pixel
branch. For the small round rectangle at the right edge the box drawn
`[32764, 32767] × [4, 6]` has 12 pixels and is passed in one call, but the
column loop `for (int16_t x = xMin; x <= xMax; ++x)` with `xMax = 32767` does
not end, so the per-pixel branch stores a colour for more than 64 values of
`x`. -/
theorem C25_whole_plane_is_passed_as_one_tile :
    wholePlane.empty = false ∧
      fitsInt16 wholePlane.xMin ∧ fitsInt16 wholePlane.yMin ∧
      fitsInt16 wholePlane.xMax ∧ fitsInt16 wholePlane.yMax ∧
      ((wholePlane.xMax - wholePlane.xMin + 1) * (wholePlane.yMax - wholePlane.yMin + 1))
        % 4294967296 = 0 ∧
      drawTiles wholePlane = [wholePlane] ∧
      wholePlane.pixelCount = 4294967296 ∧
      ¬ (∀ t ∈ drawTiles wholePlane, t.pixelCount ≤ 64) ∧
      planeShape.drawBox unclippedSurface = wholePlane ∧
      unclippedSurface.fill_mode = FillMode.FILL_MODE_RECTANGLE ∧
      tilePath refEnv (planeShape.toSpec refEnv unclippedSurface) (-32768) (-32768) 32767 32767
        = TilePath.perPixel ∧
      rightmostShape.drawBox unclippedSurface = ⟨32764, 4, 32767, 6⟩ ∧
      drawTiles (rightmostShape.drawBox unclippedSurface) = [⟨32764, 4, 32767, 6⟩] ∧
      (rightmostShape.drawBox unclippedSurface).pixelCount = 12 ∧
      tilePath refEnv (rightmostShape.toSpec refEnv unclippedSurface) 32764 4 32767 6
        = TilePath.perPixel ∧
      ∀ fuel : ℕ, int16Loop 1 (fun x => decide (x ≤ 32767)) fuel 32764 = none := by
  refine ⟨by decide, by decide, by decide, by decide, by decide, by decide!, by decide!,
    by decide!, ?_, by decide!, by decide!, by decide!, by decide!, by decide!, by decide!,
    by decide!, ?_⟩
  · intro h
    have h1 := h wholePlane (by decide!)
    exact absurd h1 (by decide!)
  · intro fuel
    exact int16Loop_never_ends fuel 32764 (by decide)

end RooDisplay
